import Mathlib

/-!
# Verification of the 7-bit bracket dependency encoding (`brk_7bits.py`)

Shallow embedding of `codelin/encs/enc_deps/brk_7bits.py` (class
`D_Brk7BitsEncoding`): the bracket-token merge, the four-pass stack decoder,
and the two-plane bracket encoder, together with proofs settling the frozen
claims about them.

Python strings are embedded as `List Char`; Python lists as Lean lists with
`List.set` / `List.getD` for element assignment / subscripting; fallible
code (Python `IndexError`, and the spec's `EmptyInputError`) returns
`Except`.  Parts of the repository that `brk_7bits.py` calls but whose
source is not available (the `D_Tree` / `LinearizedTree` models and the
two-planar partitioner) are modelled from the specification; each such
definition carries a doc comment saying so.
-/

namespace Brk7

/-- A Python string, embedded as its list of characters. -/
abbrev PyStr := List Char

/-- `codelin/utils/constants.py`: `D_NONE_LABEL = "-NONE-"`. -/
def D_NONE_LABEL : PyStr := ['-', 'N', 'O', 'N', 'E', '-']

/-- Python's `needle in hay` substring test on strings. -/
def hasSub (needle hay : PyStr) : Bool := decide (needle <:+: hay)

/-! ## `_merge_brackets` -/

/-- Python errors surfaced by the embedded code: `IndexError` (out-of-range
subscript or `pop` from an empty list) and the spec's `EmptyInputError`. -/
inductive PyError where
  | indexError : PyError
  | emptyInput : PyError
deriving DecidableEq, Repr

/-- First half of iteration `i` of the `for i in range(len(brks))` loop of
`_merge_brackets`: `if brks[i] in ['1', '0']`, fuse the plane digit into
`brks[i-1]`.  `n` is the (fixed) length of the list, and Python's
negative-index semantics are explicit: `brks[i-1]` with `i = 0` reads and
writes slot `n-1`. -/
def mergeDigit (n : Nat) (brks : List PyStr) (i : Nat) : List PyStr :=
  if brks.getD i [] = ['1'] ∨ brks.getD i [] = ['0'] then
    (brks.set (if i = 0 then n - 1 else i - 1)
      (brks.getD (if i = 0 then n - 1 else i - 1) [] ++ brks.getD i [])).set i []
  else brks

/-- Second half of iteration `i`: `if brks[i] == "*"`, fuse the flag into
`brks[i-2]`.  Python's `brks[-2]` on a length-one list raises `IndexError`
(`i = 0`, `n = 1`); otherwise a negative `i - 2` wraps to `n + i - 2`. -/
def mergeStar (n : Nat) (brks : List PyStr) (i : Nat) : Except PyError (List PyStr) :=
  if brks.getD i [] = ['*'] then
    if i = 0 ∧ n = 1 then .error .indexError
    else .ok ((brks.set (if 2 ≤ i then i - 2 else n + i - 2)
      (brks.getD (if 2 ≤ i then i - 2 else n + i - 2) [] ++ ['*'])).set i [])
  else .ok brks

/-- One whole iteration of the merging loop: the digit fusion followed by
the `*` fusion, on the mutated list. -/
def mergeStep (n : Nat) (brks : List PyStr) (i : Nat) : Except PyError (List PyStr) :=
  mergeStar n (mergeDigit n brks i) i

/-- `D_Brk7BitsEncoding._merge_brackets`: run the merging loop over
`range(len(brks))`, then drop the emptied slots
(`[brk for brk in brks if brk != ""]`). -/
def merge_brackets (brks : List PyStr) : Except PyError (List PyStr) :=
  ((List.range brks.length).foldlM (mergeStep brks.length) brks).map
    (List.filter (fun b => !b.isEmpty))

/-! ## The decoder -/

/-- The two scan directions of a decoding pass. -/
inductive Dir where
  | l2r : Dir
  | r2l : Dir
deriving DecidableEq, Repr

/-- A decoded label: bracket payload `xi` and dependency relation `li`. -/
structure DLabel where
  xi : PyStr
  li : String
deriving DecidableEq, Repr

/-- One row of a linearized tree: `(word, postag, features, label)`. -/
structure LinRow where
  word : String
  postag : String
  feats : List String
  label : DLabel
deriving DecidableEq, Repr

/-- Modelled from the spec: `LinearizedTree` (its class is not under `src/`;
only its construction and `iterrows` uses are) — an ordered sequence of
`(word, tag, features, Label)` rows that can be traversed forward and
backward without mutation (§3). -/
structure LinearizedTree where
  rows : List LinRow
deriving DecidableEq, Repr

/-- Modelled from the spec: the decode-target tree (`D_Tree`, not under
`src/`) — a dense array of nodes indexed `0..n-1`, each holding word, tag,
relation and an initially unset head (§3, §4.1). -/
structure DTree where
  words : List String
  postags : List String
  rels : List String
  heads : List (Option Nat)
deriving DecidableEq, Repr

/-- Modelled from the spec: `D_Tree.update_word` — idempotent in-place field
mutator (§4.1). -/
def DTree.update_word (t : DTree) (i : Nat) (w : String) : DTree :=
  { t with words := t.words.set i w }

/-- Modelled from the spec: `D_Tree.update_upos` (§4.1). -/
def DTree.update_upos (t : DTree) (i : Nat) (p : String) : DTree :=
  { t with postags := t.postags.set i p }

/-- Modelled from the spec: `D_Tree.update_relation` (§4.1). -/
def DTree.update_relation (t : DTree) (i : Nat) (r : String) : DTree :=
  { t with rels := t.rels.set i r }

/-- Modelled from the spec: `D_Tree.update_head` (§4.1). -/
def DTree.update_head (t : DTree) (i : Nat) (h : Nat) : DTree :=
  { t with heads := t.heads.set i (some h) }

/-- Modelled from the spec: `D_Tree.empty_tree` is not under `src/` (only its
caller `decode` is).  The spec requires `decode` on a zero-length sequence to
fail with `EmptyInputError` (§6, §7), and the empty-tree construction is the
only size-dependent step of `decode` before the passes, so the model raises
`EmptyInputError` for size zero and otherwise builds the size-`n` tree with
all heads unset (§4.1). -/
def empty_tree (n : Nat) : Except PyError DTree :=
  if n = 0 then .error .emptyInput
  else .ok ⟨List.replicate n "", List.replicate n "", List.replicate n "",
            List.replicate n none⟩

/-- Modelled from the spec: `D_Tree.remove_dummy` — removal of the virtual
root sentinel (node 0) after decoding (§4.1). -/
def remove_dummy (t : DTree) : DTree :=
  ⟨t.words.drop 1, t.postags.drop 1, t.rels.drop 1, t.heads.drop 1⟩

/-- `s_append_brk`: the pass's opening marker, `"/" + planar_idx` for `l2r`
and `"\" + planar_idx` for `r2l`. -/
def s_append_brk (p : Char) : Dir → PyStr
  | .l2r => ['/', p]
  | .r2l => ['\\', p]

/-- `s_peek_brk`: the pass's resolving marker, `">" + planar_idx` for `l2r`
and `"<" + planar_idx` for `r2l`. -/
def s_peek_brk (p : Char) : Dir → PyStr
  | .l2r => ['>', p]
  | .r2l => ['<', p]

/-- Python string comparison (lexicographic by code point). -/
def pyStrLe : PyStr → PyStr → Bool
  | [], _ => true
  | _ :: _, [] => false
  | a :: as, b :: bs => if a < b then true else if b < a then false else pyStrLe as bs

/-- The sort key comparison of `brks.sort(key = lambda x: (x == ("\\"+planar_idx), x))`:
tuples `(bool, str)` compare lexicographically, `False < True`. -/
def brkKeyLe (p : Char) (x y : PyStr) : Bool :=
  if decide (x = ['\\', p]) = decide (y = ['\\', p]) then pyStrLe x y
  else !decide (x = ['\\', p])

/-- Insert into a sorted list, before the first element not `le`-below the
inserted one (so the sort built on it is stable). -/
def insertLe {α : Type} (le : α → α → Bool) (x : α) : List α → List α
  | [] => [x]
  | y :: ys => if le x y then x :: y :: ys else y :: insertLe le x ys

/-- Stable insertion sort. -/
def sortLe {α : Type} (le : α → α → Bool) : List α → List α
  | [] => []
  | x :: xs => insertLe le x (sortLe le xs)

/-- The `brks.sort(...)` call of the `r2l` branch of `_decoding_step`.
Python `list.sort` is a stable sort by the key; elements with equal keys
here are equal strings, and `sortLe` is a stable sort by the same key, so
the results agree. -/
def pySortBrks (p : Char) (bs : List PyStr) : List PyStr :=
  sortLe (brkKeyLe p) bs

/-- The per-row token list of `_decoding_step`: split the payload into
characters (empty for the `-NONE-` sentinel), merge brackets, and for `r2l`
sort them. -/
def rowBrks (p : Char) (dir : Dir) (xi : PyStr) : Except PyError (List PyStr) := do
  let raw : List PyStr := if xi ≠ D_NONE_LABEL then xi.map (fun c => [c]) else []
  let bs ← merge_brackets raw
  return match dir with
    | .r2l => pySortBrks p bs
    | .l2r => bs

/-- The body of `for char in brks` in `_decoding_step`: push on the opening
marker, then on the resolving marker assign the head from the stack top
(0 when empty) and pop when the token carries `*` — `stack.pop()` on an
empty stack is Python's `IndexError`. -/
def procToken (sApp sPk : PyStr) (cur : Nat) (st : List Nat) (t : DTree)
    (tok : PyStr) : Except PyError (List Nat × DTree) :=
  let st := if hasSub sApp tok then cur :: st else st
  if hasSub sPk tok then
    let t := t.update_head cur (st.headD 0)
    if '*' ∈ tok then
      match st with
      | [] => .error .indexError
      | _ :: st' => .ok (st', t)
    else .ok (st, t)
  else .ok (st, t)

/-- The full `for char in brks` loop. -/
def procTokens (sApp sPk : PyStr) (cur : Nat) :
    List PyStr → List Nat → DTree → Except PyError (List Nat × DTree)
  | [], st, t => .ok (st, t)
  | tok :: toks, st, t => do
      let (st', t') ← procToken sApp sPk cur st t tok
      procTokens sApp sPk cur toks st' t'

/-- One row of a decoding pass: compute the merged (and, for `r2l`, sorted)
tokens, write word/tag/relation, then run the token loop. -/
def procRow (p : Char) (dir : Dir) (cur : Nat) (row : LinRow)
    (st : List Nat) (t : DTree) : Except PyError (List Nat × DTree) := do
  let bs ← rowBrks p dir row.label.xi
  let t := ((t.update_word cur row.word).update_upos cur row.postag).update_relation
    cur row.label.li
  procTokens (s_append_brk p dir) (s_peek_brk p dir) cur bs st t

/-- The rows of a pass, each paired with its `current_node` index:
`l2r` visits rows `0..n-1` ascending, `r2l` visits them descending. -/
def passRows (lt : LinearizedTree) : Dir → List (Nat × LinRow)
  | .l2r => lt.rows.enum
  | .r2l => lt.rows.enum.reverse

/-- The row loop of `_decoding_step`. -/
def decodingAux (p : Char) (dir : Dir) :
    List (Nat × LinRow) → List Nat → DTree → Except PyError DTree
  | [], _, t => .ok t
  | (cur, row) :: rest, st, t => do
      let (st', t') ← procRow p dir cur row st t
      decodingAux p dir rest st' t'

/-- `D_Brk7BitsEncoding._decoding_step`. -/
def decoding_step (lt : LinearizedTree) (t : DTree) (p : Char) (dir : Dir) :
    Except PyError DTree :=
  decodingAux p dir (passRows lt dir) [] t

/-- `D_Brk7BitsEncoding.decode`: allocate the empty target tree, then run the
four passes (plane 0 l2r, plane 0 r2l, plane 1 l2r, plane 1 r2l).  The
`remove_dummy` call present in other decoders is commented out in the source
and is therefore not performed. -/
def decode (lt : LinearizedTree) : Except PyError DTree := do
  let t ← empty_tree lt.rows.length
  let t ← decoding_step lt t '0' .l2r
  let t ← decoding_step lt t '0' .r2l
  let t ← decoding_step lt t '1' .l2r
  let t ← decoding_step lt t '1' .r2l
  return t

/-! ## Pass write-logs

The decoder only ever reads the linearized tree and writes the target tree,
so each pass is equivalent to computing a pure per-row write log from the
label sequence alone and then applying it.  These ghost definitions make
that explicit; they are related to `decoding_step` by proved lemmas and are
the vehicle for the commutation and correctness arguments. -/

/-- The token loop of a row as a pure computation: final stack plus the last
head value assigned to the row's node (`none` when no resolving token). -/
def tokenWrite (sApp sPk : PyStr) (cur : Nat) :
    List PyStr → List Nat → Option Nat → Except PyError (List Nat × Option Nat)
  | [], st, acc => .ok (st, acc)
  | tok :: toks, st, acc =>
    let st1 := if hasSub sApp tok then cur :: st else st
    if hasSub sPk tok then
      let v := st1.headD 0
      if '*' ∈ tok then
        match st1 with
        | [] => .error .indexError
        | _ :: st' => tokenWrite sApp sPk cur toks st' (some v)
      else tokenWrite sApp sPk cur toks st1 (some v)
    else tokenWrite sApp sPk cur toks st1 acc

/-- The per-row write of a pass: word, tag and relation are rewritten from
the row, and the head is set when a resolving token fired. -/
structure RowWrite where
  w : String
  pt : String
  r : String
  h : Option Nat
deriving DecidableEq, Repr

/-- Apply a row write at a node index. -/
def applyRowWrite (t : DTree) (cur : Nat) (rw : RowWrite) : DTree :=
  let t := ((t.update_word cur rw.w).update_upos cur rw.pt).update_relation cur rw.r
  match rw.h with
  | some v => t.update_head cur v
  | none => t

/-- The write log of one row: merged (and for `r2l` sorted) tokens, then the
pure token loop. -/
def rowWrite (p : Char) (dir : Dir) (cur : Nat) (row : LinRow) (st : List Nat) :
    Except PyError (List Nat × RowWrite) := do
  let bs ← rowBrks p dir row.label.xi
  let (st', h) ← tokenWrite (s_append_brk p dir) (s_peek_brk p dir) cur bs st none
  return (st', ⟨row.word, row.postag, row.label.li, h⟩)

/-- The write log of a whole pass, one entry per visited row. -/
def passWrites (p : Char) (dir : Dir) :
    List (Nat × LinRow) → List Nat → Except PyError (List (Nat × RowWrite))
  | [], _ => .ok []
  | (cur, row) :: rest, st => do
      let (st', rw) ← rowWrite p dir cur row st
      let ws ← passWrites p dir rest st'
      return (cur, rw) :: ws

/-- The list of the four pass configurations of `decode`, in source order. -/
def pass_order : List (Char × Dir) :=
  [('0', .l2r), ('0', .r2l), ('1', .l2r), ('1', .r2l)]

/-- Run the decode passes in a given configuration order over the decode
target built by `empty_tree` (the claim C9 compares permutations of
`pass_order` under this runner). -/
def decodePasses (lt : LinearizedTree) (cfgs : List (Char × Dir)) :
    Except PyError DTree := do
  let t ← empty_tree lt.rows.length
  cfgs.foldlM (fun t cfg => decoding_step lt t cfg.1 cfg.2) t

/-! ## The encoder -/

/-- A dependency-tree node as consumed by `encode` (`D_Node` is not under
`src/`; the fields and the `id`/`head` conventions are the spec's §3 data
model: dense ids with `0` the virtual root sentinel, `head = 0` meaning
root-attached). -/
structure DNode where
  id : Nat
  head : Nat
  relation : String
  word : String
  upos : String
  feats : List String
deriving DecidableEq, Repr

/-- `D_Node.is_left_arc`: the node's arc points left (`dependent < governor`). -/
def DNode.is_left_arc (n : DNode) : Bool := n.id < n.head

/-- The input tree of `encode`: the ordered node list, index `0` holding the
virtual root sentinel (spec §3). -/
abbrev DepTree := List DNode

/-- Lower endpoint of a node's arc span (spec §3). -/
def DNode.span_lo (n : DNode) : Nat := min n.id n.head

/-- Upper endpoint of a node's arc span (spec §3). -/
def DNode.span_hi (n : DNode) : Nat := max n.id n.head

/-- Modelled from the spec: the arc-crossing predicate of §4.2 (the class is
not under `src/`): two spans cross iff exactly one endpoint of the second
lies strictly inside the open first interval while the other lies outside
the closed interval, i.e. the arcs interleave. -/
def crosses (a b : DNode) : Bool :=
  decide ((a.span_lo < b.span_lo ∧ b.span_lo < a.span_hi ∧ a.span_hi < b.span_hi) ∨
          (b.span_lo < a.span_lo ∧ a.span_lo < b.span_hi ∧ b.span_hi < a.span_hi))

/-- Modelled from the spec: the greedy two-planar partitioner's fold step
(§4.3) — for each arc try plane 0, else plane 1, else mark unencodable;
arcs of the virtual root sentinel are not arcs (§3: arcs are derived for
`id != 0` only). -/
def greedyStep (acc : List DNode × List DNode × List DNode) (n : DNode) :
    List DNode × List DNode × List DNode :=
  let (p1, p2, un) := acc
  if n.id = 0 then acc
  else if p1.all (fun m => !crosses n m) then (p1 ++ [n], p2, un)
  else if p2.all (fun m => !crosses n m) then (p1, p2 ++ [n], un)
  else (p1, p2, un ++ [n])

/-- Modelled from the spec: `D_Tree.two_planar_greedy` (§4.3) together with
the unencodable remainder — process arcs in ascending dependent-id order
(the node list of a well-formed tree is already in that order). -/
def two_planar_greedy_full (t : DepTree) : List DNode × List DNode × List DNode :=
  t.foldl greedyStep ([], [], [])

/-- The pair of plane node-views returned to `encode`. -/
def two_planar_greedy (t : DepTree) : List DNode × List DNode :=
  ((two_planar_greedy_full t).1, (two_planar_greedy_full t).2.1)

/-- The arcs the greedy partitioner could place in neither plane
(`UnencodableArcWarning`, spec §7). -/
def greedy_unencodable (t : DepTree) : List DNode :=
  (two_planar_greedy_full t).2.2

/-- Modelled from the spec: `plane.is_leftmost(node)` (§4.3) — the node is
the smallest-id left-arc dependent among the plane's left arcs sharing its
governor. -/
def is_leftmost (plane : List DNode) (n : DNode) : Bool :=
  plane.all (fun m => !(m.is_left_arc && m.head == n.head) || n.id ≤ m.id)

/-- Modelled from the spec: `plane.is_rightmost(node)` (§4.3) — the node is
the largest-id right-arc dependent among the plane's right arcs sharing its
governor. -/
def is_rightmost (plane : List DNode) (n : DNode) : Bool :=
  plane.all (fun m => !(!m.is_left_arc && m.head == n.head) || m.id ≤ n.id)

/-- The body of the loop of `encoding_step` inside `encode`: skip the
virtual root; append the dependent marker (plus `*` for the
leftmost/rightmost dependent) to the dependent's fragment, and append the
governor marker to the governor's fragment unless already present. -/
def encStep (plane : List DNode) (bc0 bc1 bc2 bc3 : PyStr)
    (lb : List PyStr) (n : DNode) : List PyStr :=
  if n.id = 0 then lb
  else if n.is_left_arc then
    let lb := lb.set n.id
      (lb.getD n.id [] ++ bc0 ++ (if is_leftmost plane n then ['*'] else []))
    lb.set n.head
      (lb.getD n.head [] ++ (if hasSub bc1 (lb.getD n.head []) then [] else bc1))
  else
    let lb := lb.set n.id
      (lb.getD n.id [] ++ bc2 ++ (if is_rightmost plane n then ['*'] else []))
    lb.set n.head
      (lb.getD n.head [] ++ (if hasSub bc3 (lb.getD n.head []) then [] else bc3))

/-- The inner function `encoding_step` of `encode`, folded over the plane's
node view. -/
def encoding_step (plane : List DNode) (labels_brk : List PyStr)
    (bc0 bc1 bc2 bc3 : PyStr) : List PyStr :=
  plane.foldl (encStep plane bc0 bc1 bc2 bc3) labels_brk

/-- `D_Brk7BitsEncoding.encode` with the default `GREED` planar algorithm:
partition the arcs over two planes, run `encoding_step` for plane 0 with
brackets `[<0 \0 >0 /0]` and for plane 1 with `[<1 \1 >1 /1]`, then emit one
label per node of the tree. -/
def encode (t : DepTree) : LinearizedTree :=
  let labels_brk : List PyStr := List.replicate (t.length + 1) []
  let planes := two_planar_greedy t
  let lb := encoding_step planes.1 labels_brk ['<', '0'] ['\\', '0'] ['>', '0'] ['/', '0']
  let lb := encoding_step planes.2 lb ['<', '1'] ['\\', '1'] ['>', '1'] ['/', '1']
  { rows := t.map (fun n => ⟨n.word, n.upos, n.feats, ⟨lb.getD n.id [], n.relation⟩⟩) }

/-! ## Concrete inputs used by counterexamples and witnesses -/

/-- A one-column row with a given word and bracket payload. -/
def mkRow (w : String) (xi : PyStr) : LinRow := ⟨w, "PT", [], ⟨xi, "rel"⟩⟩

/-- One row whose payload is the single character `*` (adversarial). -/
def ltStar : LinearizedTree := ⟨[mkRow "w" ['*']]⟩

/-- One row with an unmatched starred resolving token `>0*`. -/
def ltStarPeek : LinearizedTree := ⟨[mkRow "w" ['>', '0', '*']]⟩

/-- One row with no brackets at all (the `-NONE-` sentinel payload). -/
def ltNone : LinearizedTree := ⟨[mkRow "w" D_NONE_LABEL]⟩

/-- Two rows carrying an unmatched bare `>0` and an unused `\0`. -/
def ltPlain : LinearizedTree := ⟨[mkRow "a" ['>', '0'], mkRow "b" ['\\', '0']]⟩

/-- Two rows whose first payload carries resolving markers of two different
pass configurations (`>0` for plane-0 l2r and `<0` for plane-0 r2l). -/
def ltTwoMarks : LinearizedTree :=
  ⟨[mkRow "a" ['>', '0', '<', '0'], mkRow "b" ['\\', '0']]⟩

/-- Two rows whose second payload lists the opening token `/0` before the
resolving token `>0`. -/
def ltOpenFirst : LinearizedTree :=
  ⟨[mkRow "a" ['/', '0'], mkRow "b" ['/', '0', '>', '0']]⟩

/-- A 4-node dependency tree (virtual root sentinel at index 0, real heads
`[2, 0, 2]`), the projective scenario of the spec. -/
def tree3 : DepTree :=
  [⟨0, 0, "-root-", "-ROOT-", "ROOT", []⟩,
   ⟨1, 2, "nsubj", "He", "PRON", []⟩,
   ⟨2, 0, "root", "runs", "VERB", []⟩,
   ⟨3, 2, "obj", "fast", "ADV", []⟩]

/-- A 5-node dependency tree with one crossing arc pair (heads
`[3, 4, 0, 3]`: the arcs `1→3` and `2→4` interleave), exercising both
planes. -/
def tree4 : DepTree :=
  [⟨0, 0, "-root-", "-ROOT-", "ROOT", []⟩,
   ⟨1, 3, "a", "w1", "X", []⟩,
   ⟨2, 4, "b", "w2", "X", []⟩,
   ⟨3, 0, "root", "w3", "X", []⟩,
   ⟨4, 3, "d", "w4", "X", []⟩]


/-- A self-contained bracket token: a boundary character (not a digit, not
`*`), its plane digit, and optionally a `*` flag — the shape of every token
the encoder writes into a fragment. -/
def isBrkTok : PyStr → Bool
  | [b, d] => !(b == '0' || b == '1' || b == '*') && (d == '0' || d == '1')
  | [b, d, s] => !(b == '0' || b == '1' || b == '*') && (d == '0' || d == '1') && s == '*'
  | _ => false


/-- Apply an optional head assignment at a node index. -/
def applyOptHead (cur : Nat) (o : Option Nat) (t : DTree) : DTree :=
  match o with
  | some v => t.update_head cur v
  | none => t

/-- Apply a whole pass write log to a tree. -/
def applyWrites (ws : List (Nat × RowWrite)) (t : DTree) : DTree :=
  ws.foldl (fun t x => applyRowWrite t x.1 x.2) t

/-- The effect of a pass write log on the heads column alone. -/
def headsFold (ws : List (Nat × RowWrite)) (l : List (Option Nat)) : List (Option Nat) :=
  ws.foldl (fun l x =>
    match x.2.h with
    | some v => l.set x.1 (some v)
    | none => l) l

/-- The write log of one full pass configuration over a label sequence. -/
def passLog (lt : LinearizedTree) (cfg : Char × Dir) :
    Except PyError (List (Nat × RowWrite)) :=
  passWrites cfg.1 cfg.2 (passRows lt cfg.2) []

/-- Whether a row's merged token list carries the resolving marker of a pass
configuration (false when the merge itself fails). -/
def rowPeekB (c : Char × Dir) (row : LinRow) : Bool :=
  match rowBrks c.1 c.2 row.label.xi with
  | .ok bs => bs.any (fun tok => hasSub (s_peek_brk c.1 c.2) tok)
  | .error _ => false

/-- The heads column produced by running a sequence of pass configurations,
computed purely from the per-pass write logs. -/
def headsRun (lt : LinearizedTree) (cfgs : List (Char × Dir)) :
    Except PyError (List (Option Nat)) := do
  let t ← empty_tree lt.rows.length
  cfgs.foldlM (fun hs c => (passLog lt c).map (fun ws => headsFold ws hs)) t.heads


/-- The dependent-marker token a node contributes to its own fragment:
`<p` or `>p`, with `*` fused when the node is the plane's leftmost/rightmost
dependent of its governor. -/
def depTok (P : List DNode) (p : Char) (n : DNode) : PyStr :=
  (if n.is_left_arc then ['<', p] else ['>', p]) ++
    (if (if n.is_left_arc then is_leftmost P n else is_rightmost P n) then ['*'] else [])

/-- Does the plane contain a left-arc dependent of governor `k`? -/
def hasLdep (P : List DNode) (k : Nat) : Bool :=
  P.any (fun m => m.is_left_arc && m.head == k)

/-- Does the plane contain a right-arc dependent of governor `k`? -/
def hasRdep (P : List DNode) (k : Nat) : Bool :=
  P.any (fun m => !m.is_left_arc && m.head == k)

/-- The dependent-marker portion of slot `k`: the plane's node with id `k`,
if any. -/
def ownToks (P : List DNode) (p : Char) (k : Nat) : List PyStr :=
  match P.find? (fun m => m.id == k) with
  | some n => [depTok P p n]
  | none => []

/-- The tokens one plane contributes to fragment `k`, in the order the
ascending-dependent-id fold appends them: the left-governor marker (written
at the first left-dependent), the node's own dependent marker, the
right-governor marker (written at the first right-dependent). -/
def planeToks (P : List DNode) (p : Char) (k : Nat) : List PyStr :=
  (if hasLdep P k then [['\\', p]] else []) ++ ownToks P p k ++
    (if hasRdep P k then [['/', p]] else [])

/-- The token list of fragment `k` after both plane encodings. -/
def slotToks (t : DepTree) (k : Nat) : List PyStr :=
  planeToks (two_planar_greedy t).1 '0' k ++ planeToks (two_planar_greedy t).2 '1' k

/-- Well-formedness of an `encode` input tree: the node at position `i` has
id `i` (dense ids, virtual root sentinel at 0), and every real node's head
is another in-range node. -/
def WF (t : DepTree) : Prop :=
  (∀ x ∈ t.enum, x.2.id = x.1) ∧
  (∀ n ∈ t, n.id ≠ 0 → n.head < t.length ∧ n.head ≠ n.id)

/-- The canonical token list slot `k` holds after the plane's fold has
processed the prefix `Q` of plane `P` (flags read the whole plane, as the
source passes the full plane to each step). -/
def planeToksAux (Q P : List DNode) (p : Char) (k : Nat) : List PyStr :=
  (if hasLdep Q k then [['\\', p]] else []) ++
    (match Q.find? (fun m => m.id == k) with
     | some n => [depTok P p n]
     | none => []) ++
    (if hasRdep Q k then [['/', p]] else [])

/-- The pass order with the two plane-0 passes swapped. -/
def permOrder : List (Char × Dir) :=
  [('0', .r2l), ('0', .l2r), ('1', .l2r), ('1', .r2l)]





/-- All properties of a greedy plane the decode-correctness argument needs. -/
def planeOK (t : DepTree) (P : List DNode) : Prop :=
  P.Sublist t ∧ P.Pairwise (fun a b => a.id < b.id) ∧
  (∀ a ∈ P, ∀ b ∈ P, crosses a b = false) ∧
  (∀ m ∈ P, m.id ≠ 0 ∧ m.id < t.length ∧ m.head < t.length ∧ m.head ≠ m.id)

/-- The plane node a pass resolves at row `k` (matching direction only). -/
def resNode (P : List DNode) (dir : Dir) (k : Nat) : Option DNode :=
  match P.find? (fun m => m.id == k) with
  | some n =>
      match dir with
      | .l2r => if n.is_left_arc then none else some n
      | .r2l => if n.is_left_arc then some n else none
  | none => none

/-- Whether the resolving token of row `k` carries the fused `*` flag. -/
def rowStarB (P : List DNode) (dir : Dir) (k : Nat) : Bool :=
  match resNode P dir k with
  | some n => match dir with
    | .l2r => is_rightmost P n
    | .r2l => is_leftmost P n
  | none => false

/-- Whether row `k` carries the pass's opening token. -/
def rowAppB (P : List DNode) (dir : Dir) (k : Nat) : Bool :=
  match dir with
  | .l2r => hasRdep P k
  | .r2l => hasLdep P k

/-- The head value the pass writes at row `k` (stack top before pushing). -/
def rowHeadOut (P : List DNode) (dir : Dir) (k : Nat) (st : List Nat)
    (acc : Option Nat) : Option Nat :=
  match resNode P dir k with
  | some _ => some (st.headD 0)
  | none => acc

/-- The stack after row `k`: optional pop by the starred resolve, then the
optional push of the row's own index. -/
def rowStackOut (P : List DNode) (dir : Dir) (k cur : Nat) (st : List Nat) : List Nat :=
  (if rowAppB P dir k then [cur] else []) ++
    (if rowStarB P dir k then st.tail else st)

/-- Rightmost right-arc dependent position of a governor within a plane. -/
def maxRdep (P : List DNode) (g : Nat) : Nat :=
  (P.filter (fun m => !m.is_left_arc && m.head == g)).foldl (fun a m => max a m.id) 0

/-- Leftmost left-arc dependent position of a governor within a plane. -/
def minLdep (P : List DNode) (g : Nat) : Nat :=
  (P.filter (fun m => m.is_left_arc && m.head == g)).foldl (fun a m => min a m.id) g

/-- The l2r decoder stack before row `j`: governors below `j` whose last
right-arc dependent is still ahead, innermost (largest) on top. -/
def stackL2R (P : List DNode) (j : Nat) : List Nat :=
  ((List.range j).reverse).filter (fun g => hasRdep P g && decide (j ≤ maxRdep P g))

/-- The r2l decoder stack before row `j`: governors above `j` whose last
left-arc dependent is still ahead, innermost (smallest) on top. -/
def stackR2L (P : List DNode) (N j : Nat) : List Nat :=
  (List.range' (j + 1) (N - (j + 1))).filter
    (fun g => hasLdep P g && decide (minLdep P g ≤ j))

end Brk7

namespace Brk7

/-! # Theorems

First the helper lemmas, then one theorem per claim (with its witness or
counterexample where required). -/

/-- `Except` bind on a success. -/
theorem except_bind_ok {ε α β : Type} (a : α) (f : α → Except ε β) :
    (Except.ok a >>= f : Except ε β) = f a := rfl

/-- `Except` bind on a failure. -/
theorem except_bind_error {ε α β : Type} (e : ε) (f : α → Except ε β) :
    (Except.error e >>= f : Except ε β) = .error e := rfl

/-- `Except` map on a success. -/
theorem except_map_ok {ε α β : Type} (a : α) (f : α → β) :
    (Except.ok a : Except ε α).map f = .ok (f a) := rfl

/-- `Except` map on a failure. -/
theorem except_map_error {ε α β : Type} (e : ε) (f : α → β) :
    (Except.error e : Except ε α).map f = (.error e : Except ε β) := rfl

/-- An erroring `foldlM` over `Except` has an erroring step. -/
theorem foldlM_except_error {ε α β : Type} {f : β → α → Except ε β} :
    ∀ {l : List α} {b : β} {e : ε}, l.foldlM f b = .error e →
      ∃ b' a, a ∈ l ∧ f b' a = .error e := by
  intro l
  induction l with
  | nil => intro b e h; exact Except.noConfusion h
  | cons x xs ih =>
      intro b e h
      simp only [List.foldlM_cons] at h
      cases hfx : f b x with
      | error e' =>
          rw [hfx] at h
          simp only [except_bind_error] at h
          cases h
          exact ⟨b, x, List.mem_cons_self x xs, hfx⟩
      | ok b' =>
          rw [hfx] at h
          simp only [except_bind_ok] at h
          obtain ⟨b'', a, ha, hfa⟩ := ih h
          exact ⟨b'', a, List.mem_cons_of_mem x ha, hfa⟩

/-- `mergeStar` can only raise `IndexError`. -/
theorem mergeStar_error {n : Nat} {brks : List PyStr} {i : Nat} {e : PyError}
    (h : mergeStar n brks i = .error e) : e = .indexError := by
  unfold mergeStar at h
  iterate 3 (all_goals try split at h)
  all_goals cases h <;> rfl

/-- `mergeStep` can only raise `IndexError`. -/
theorem mergeStep_error {n : Nat} {brks : List PyStr} {i : Nat} {e : PyError}
    (h : mergeStep n brks i = .error e) : e = .indexError := by
  unfold mergeStep at h
  exact mergeStar_error h

/-- `_merge_brackets` can only raise `IndexError`. -/
theorem merge_brackets_error {brks : List PyStr} {e : PyError}
    (h : merge_brackets brks = .error e) : e = .indexError := by
  unfold merge_brackets at h
  cases hl : (List.range brks.length).foldlM (mergeStep brks.length) brks with
  | error e' =>
      rw [hl] at h
      cases h
      obtain ⟨b', a, _, hstep⟩ := foldlM_except_error hl
      exact mergeStep_error hstep
  | ok v => rw [hl] at h; cases h

/-- `rowBrks` can only raise `IndexError`. -/
theorem rowBrks_error {p : Char} {dir : Dir} {xi : PyStr} {e : PyError}
    (h : rowBrks p dir xi = .error e) : e = .indexError := by
  unfold rowBrks at h
  dsimp only at h
  cases hm : merge_brackets (if xi ≠ D_NONE_LABEL then xi.map (fun c => [c]) else []) with
  | error e' =>
      rw [hm] at h
      simp only [except_bind_error] at h
      cases h
      exact merge_brackets_error hm
  | ok v => rw [hm] at h; simp only [except_bind_ok] at h; cases h

/-- `procToken` can only raise `IndexError`. -/
theorem procToken_error {sApp sPk : PyStr} {cur : Nat} {st : List Nat} {t : DTree}
    {tok : PyStr} {e : PyError}
    (h : procToken sApp sPk cur st t tok = .error e) : e = .indexError := by
  unfold procToken at h
  dsimp only at h
  iterate 5 (all_goals try split at h)
  all_goals cases h <;> rfl

/-- `procTokens` can only raise `IndexError`. -/
theorem procTokens_error {sApp sPk : PyStr} {cur : Nat} :
    ∀ {toks : List PyStr} {st : List Nat} {t : DTree} {e : PyError},
      procTokens sApp sPk cur toks st t = .error e → e = .indexError := by
  intro toks
  induction toks with
  | nil => intro st t e h; simp [procTokens] at h
  | cons tok toks ih =>
      intro st t e h
      simp only [procTokens] at h
      cases hp : procToken sApp sPk cur st t tok with
      | error e' =>
          rw [hp] at h; simp only [except_bind_error] at h; cases h
          exact procToken_error hp
      | ok r =>
          rw [hp] at h
          simp only [except_bind_ok] at h
          exact ih h

/-- `procRow` can only raise `IndexError`. -/
theorem procRow_error {p : Char} {dir : Dir} {cur : Nat} {row : LinRow}
    {st : List Nat} {t : DTree} {e : PyError}
    (h : procRow p dir cur row st t = .error e) : e = .indexError := by
  unfold procRow at h
  dsimp only at h
  cases hb : rowBrks p dir row.label.xi with
  | error e' =>
      rw [hb] at h; simp only [except_bind_error] at h; cases h
      exact rowBrks_error hb
  | ok bs =>
      rw [hb] at h
      simp only [except_bind_ok] at h
      exact procTokens_error h

/-- `decodingAux` can only raise `IndexError`. -/
theorem decodingAux_error {p : Char} {dir : Dir} :
    ∀ {rows : List (Nat × LinRow)} {st : List Nat} {t : DTree} {e : PyError},
      decodingAux p dir rows st t = .error e → e = .indexError := by
  intro rows
  induction rows with
  | nil => intro st t e h; simp [decodingAux] at h
  | cons r rest ih =>
      intro st t e h
      obtain ⟨cur, row⟩ := r
      simp only [decodingAux] at h
      cases hp : procRow p dir cur row st t with
      | error e' =>
          rw [hp] at h; simp only [except_bind_error] at h; cases h
          exact procRow_error hp
      | ok r' =>
          rw [hp] at h
          simp only [except_bind_ok] at h
          exact ih h

/-- A decoding pass can only raise `IndexError`. -/
theorem decoding_step_error {lt : LinearizedTree} {t : DTree} {p : Char} {dir : Dir}
    {e : PyError} (h : decoding_step lt t p dir = .error e) : e = .indexError :=
  decodingAux_error h

/-- **C8.**  `decode` fails with `EmptyInputError` on the zero-length label
sequence, and on no other: for every nonempty sequence the result is never
the `EmptyInputError` failure (the passes can only raise `IndexError`), so
the zero-length failure is confined to the empty-input call. -/
theorem C8_empty_input :
    decode ⟨[]⟩ = .error .emptyInput ∧
    ∀ lt : LinearizedTree, lt.rows ≠ [] → decode lt ≠ .error .emptyInput := by
  refine ⟨rfl, fun lt hne h => ?_⟩
  unfold decode at h
  have hn : lt.rows.length ≠ 0 := fun h0 => hne (List.length_eq_zero.mp h0)
  rw [show empty_tree lt.rows.length
      = .ok ⟨List.replicate lt.rows.length "", List.replicate lt.rows.length "",
             List.replicate lt.rows.length "", List.replicate lt.rows.length none⟩ by
    unfold empty_tree; simp [hn]] at h
  simp only [except_bind_ok] at h
  cases h1 : decoding_step lt _ '0' .l2r with
  | error e =>
      rw [h1] at h; simp only [except_bind_error] at h; cases h
      cases decoding_step_error h1
  | ok t1 =>
      rw [h1] at h; simp only [except_bind_ok] at h
      cases h2 : decoding_step lt t1 '0' .r2l with
      | error e =>
          rw [h2] at h; simp only [except_bind_error] at h; cases h
          cases decoding_step_error h2
      | ok t2 =>
          rw [h2] at h; simp only [except_bind_ok] at h
          cases h3 : decoding_step lt t2 '1' .l2r with
          | error e =>
              rw [h3] at h; simp only [except_bind_error] at h; cases h
              cases decoding_step_error h3
          | ok t3 =>
              rw [h3] at h; simp only [except_bind_ok] at h
              cases h4 : decoding_step lt t3 '1' .r2l with
              | error e =>
                  rw [h4] at h; simp only [except_bind_error] at h; cases h
                  cases decoding_step_error h4
              | ok t4 => rw [h4] at h; simp at h

/-- Witness for `C8_empty_input` at a concrete nonempty input. -/
theorem C8_witness :
    decode ⟨[]⟩ = .error .emptyInput ∧ decode ltNone ≠ .error .emptyInput :=
  ⟨C8_empty_input.1, C8_empty_input.2 ltNone (by decide)⟩

/-- Inserting is a permutation of consing. -/
theorem insertLe_perm {α : Type} (le : α → α → Bool) (x : α) :
    ∀ l : List α, (insertLe le x l).Perm (x :: l) := by
  intro l
  induction l with
  | nil => simp [insertLe]
  | cons y ys ih =>
      by_cases h : le x y = true
      · simp [insertLe, h]
      · simp only [insertLe, h, if_false, Bool.false_eq_true]
        exact (ih.cons y).trans (List.Perm.swap x y ys)

/-- The insertion sort permutes its input. -/
theorem sortLe_perm {α : Type} (le : α → α → Bool) :
    ∀ l : List α, (sortLe le l).Perm l := by
  intro l
  induction l with
  | nil => simp [sortLe]
  | cons x xs ih => exact (insertLe_perm le x (sortLe le xs)).trans (ih.cons x)

/-- Inserting into a `le`-pairwise list keeps it pairwise, for a total
transitive `le`. -/
theorem insertLe_pairwise {α : Type} (le : α → α → Bool)
    (htot : ∀ x y, le x y = true ∨ le y x = true)
    (htrans : ∀ x y z, le x y = true → le y z = true → le x z = true) (x : α) :
    ∀ l : List α, l.Pairwise (fun a b => le a b = true) →
      (insertLe le x l).Pairwise (fun a b => le a b = true) := by
  intro l
  induction l with
  | nil => intro _; simp [insertLe]
  | cons y ys ih =>
      intro hp
      rcases List.pairwise_cons.mp hp with ⟨hy, hys⟩
      by_cases h : le x y = true
      · simp only [insertLe, h, if_true]
        refine List.pairwise_cons.mpr ⟨?_, hp⟩
        intro b hb
        rcases List.mem_cons.mp hb with rfl | hb
        · exact h
        · exact htrans x y b h (hy b hb)
      · simp only [insertLe, h, if_false, Bool.false_eq_true]
        refine List.pairwise_cons.mpr ⟨?_, ih hys⟩
        intro b hb
        rcases List.mem_cons.mp ((insertLe_perm le x ys).mem_iff.mp hb) with rfl | hb
        · rcases htot b y with hxy | hyx
          · exact absurd hxy h
          · exact hyx
        · exact hy b hb

/-- The insertion sort is `le`-pairwise, for a total transitive `le`. -/
theorem sortLe_pairwise {α : Type} (le : α → α → Bool)
    (htot : ∀ x y, le x y = true ∨ le y x = true)
    (htrans : ∀ x y z, le x y = true → le y z = true → le x z = true) :
    ∀ l : List α, (sortLe le l).Pairwise (fun a b => le a b = true) := by
  intro l
  induction l with
  | nil => simp [sortLe]
  | cons x xs ih => exact insertLe_pairwise le htot htrans x (sortLe le xs) ih

/-- Python string comparison is total. -/
theorem pyStrLe_total : ∀ x y : PyStr, pyStrLe x y = true ∨ pyStrLe y x = true := by
  intro x
  induction x with
  | nil => intro y; left; rfl
  | cons a as ih =>
      intro y
      cases y with
      | nil => right; rfl
      | cons b bs =>
          rcases lt_trichotomy a b with h | h | h
          · left; simp [pyStrLe, h]
          · subst h
            rcases ih bs with h' | h'
            · left; simp [pyStrLe, lt_irrefl, h']
            · right; simp [pyStrLe, lt_irrefl, h']
          · right; simp [pyStrLe, h]

/-- Python string comparison is transitive. -/
theorem pyStrLe_trans :
    ∀ x y z : PyStr, pyStrLe x y = true → pyStrLe y z = true → pyStrLe x z = true := by
  intro x
  induction x with
  | nil => intro y z _ _; rfl
  | cons a as ih =>
      intro y z h1 h2
      cases y with
      | nil => simp [pyStrLe] at h1
      | cons b bs =>
          cases z with
          | nil => simp [pyStrLe] at h2
          | cons c cs =>
              by_cases hab : a < b
              · by_cases hbc : b < c
                · simp [pyStrLe, lt_trans hab hbc]
                · by_cases hcb : c < b
                  · simp [pyStrLe, hbc, hcb] at h2
                  · have : b = c := le_antisymm (not_lt.mp hcb) (not_lt.mp hbc)
                    subst this
                    simp [pyStrLe, hab]
              · by_cases hba : b < a
                · simp [pyStrLe, hab, hba] at h1
                · have hab' : a = b := le_antisymm (not_lt.mp hba) (not_lt.mp hab)
                  subst hab'
                  by_cases hac : a < c
                  · simp [pyStrLe, hac]
                  · by_cases hca : c < a
                    · simp [pyStrLe, hac, hca] at h2
                    · simp only [pyStrLe, hac, hca, if_false] at h2 ⊢
                      simp only [pyStrLe, lt_irrefl, if_false] at h1
                      exact ih bs cs h1 h2

/-- Python string comparison is reflexive. -/
theorem pyStrLe_refl : ∀ x : PyStr, pyStrLe x x = true := by
  intro x
  induction x with
  | nil => rfl
  | cons a as ih => simp [pyStrLe, lt_irrefl, ih]

/-- The Python sort key comparison is total. -/
theorem brkKeyLe_total (p : Char) :
    ∀ x y : PyStr, brkKeyLe p x y = true ∨ brkKeyLe p y x = true := by
  intro x y
  unfold brkKeyLe
  by_cases hx : x = ['\\', p] <;> by_cases hy : y = ['\\', p] <;>
    simp [hx, hy, pyStrLe_refl, pyStrLe_total x y]

/-- The Python sort key comparison is transitive. -/
theorem brkKeyLe_trans (p : Char) :
    ∀ x y z : PyStr, brkKeyLe p x y = true → brkKeyLe p y z = true →
      brkKeyLe p x z = true := by
  intro x y z h1 h2
  unfold brkKeyLe at h1 h2 ⊢
  by_cases hx : x = ['\\', p] <;> by_cases hy : y = ['\\', p] <;>
    by_cases hz : z = ['\\', p] <;>
    first
      | simp [hx, hy, hz, pyStrLe_refl] at h1 h2 ⊢
      | skip
  all_goals exact pyStrLe_trans _ _ _ h1 h2


/-- Tokens whose non-head characters are only digits or `*` — the shape
every slot of the merging loop keeps. -/
def TameTail (s : PyStr) : Prop := ∀ c ∈ s.drop 1, c = '0' ∨ c = '1' ∨ c = '*'

/-- Membership in the 1-drop of an append. -/
theorem mem_drop_one_append {c : Char} {u v : PyStr}
    (h : c ∈ (u ++ v).drop 1) : c ∈ u.drop 1 ∨ c ∈ v := by
  cases u with
  | nil => exact Or.inr (List.mem_of_mem_drop h)
  | cons a as =>
      simp only [List.cons_append, List.drop_succ_cons, List.drop_zero] at h
      rcases List.mem_append.mp h with h | h
      · exact Or.inl (by simpa using h)
      · exact Or.inr h

/-- A `getD` value is an element or the default. -/
theorem getD_mem_or {α : Type} (l : List α) (i : Nat) (d : α) :
    l.getD i d ∈ l ∨ l.getD i d = d := by
  rw [List.getD_eq_getElem?_getD]
  cases h : l[i]? with
  | none => right; rfl
  | some a => left; simp only [Option.getD_some]; exact List.getElem?_mem h

/-- The characters a merge iteration ever appends. -/
theorem tame_merge_set {l : List PyStr} (j i : Nat) {v : PyStr}
    (hl : ∀ s ∈ l, TameTail s) (hv : ∀ c ∈ v, c = '0' ∨ c = '1' ∨ c = '*') :
    ∀ s ∈ (l.set j (l.getD j [] ++ v)).set i [], TameTail s := by
  intro s hs
  rcases List.mem_or_eq_of_mem_set hs with hs | rfl
  · rcases List.mem_or_eq_of_mem_set hs with hs | rfl
    · exact hl s hs
    · intro c hc
      rcases mem_drop_one_append hc with hc | hc
      · rcases getD_mem_or l j [] with h | h
        · exact hl _ h c hc
        · rw [h] at hc; simp at hc
      · exact hv c hc
  · intro c hc; simp at hc

/-- The digit fusion keeps every slot tame-tailed. -/
theorem mergeDigit_tame {n : Nat} {brks : List PyStr} {i : Nat}
    (htame : ∀ s ∈ brks, TameTail s) : ∀ s ∈ mergeDigit n brks i, TameTail s := by
  unfold mergeDigit
  split
  · rename_i h1
    refine tame_merge_set _ i htame ?_
    intro c hc
    rcases h1 with h | h <;> rw [h] at hc <;> simp at hc <;> simp [hc]
  · exact htame

/-- The `*` fusion keeps every slot tame-tailed. -/
theorem mergeStar_tame {n : Nat} {brks brks' : List PyStr} {i : Nat}
    (hok : mergeStar n brks i = .ok brks') (htame : ∀ s ∈ brks, TameTail s) :
    ∀ s ∈ brks', TameTail s := by
  unfold mergeStar at hok
  iterate 3 (all_goals try split at hok)
  all_goals cases hok
  all_goals first
    | exact htame
    | exact tame_merge_set _ i htame (by intro c hc; simp at hc; simp [hc])

/-- One merge iteration keeps every slot tame-tailed. -/
theorem mergeStep_tame {n : Nat} {brks brks' : List PyStr} {i : Nat}
    (hok : mergeStep n brks i = .ok brks') (htame : ∀ s ∈ brks, TameTail s) :
    ∀ s ∈ brks', TameTail s := by
  unfold mergeStep at hok
  exact mergeStar_tame hok (mergeDigit_tame htame)

/-- The merging loop only produces tame-tailed tokens. -/
theorem merge_brackets_tame {raw bs : List PyStr}
    (hok : merge_brackets raw = .ok bs) (htame : ∀ s ∈ raw, TameTail s) :
    ∀ s ∈ bs, TameTail s := by
  unfold merge_brackets at hok
  cases hl : (List.range raw.length).foldlM (mergeStep raw.length) raw with
  | error e => rw [hl] at hok; cases hok
  | ok v =>
      rw [hl] at hok
      cases hok
      have hfold : ∀ (is : List Nat) (b v : List PyStr), (∀ s ∈ b, TameTail s) →
          is.foldlM (mergeStep raw.length) b = .ok v → ∀ s ∈ v, TameTail s := by
        intro is
        induction is with
        | nil => intro b v hb h; cases h; exact hb
        | cons i is ih =>
            intro b v hb h
            simp only [List.foldlM_cons] at h
            cases hs : mergeStep raw.length b i with
            | error e => rw [hs] at h; cases h
            | ok b' =>
                rw [hs] at h
                simp only [except_bind_ok] at h
                exact ih b' v (mergeStep_tame hs hb) h
      intro s hs
      exact hfold _ _ _ htame hl s (List.mem_of_mem_filter hs)

/-- In a tame-tailed token, a substring headed by a boundary character pins
down the token's head. -/
theorem tame_hasSub_head {b d : Char} {tok : PyStr} (htame : TameTail tok)
    (hb0 : b ≠ '0') (hb1 : b ≠ '1') (hbs : b ≠ '*')
    (h : hasSub [b, d] tok = true) : ∃ rest, tok = b :: rest := by
  have hmem : b ∈ tok := by
    have : [b, d] <:+: tok := of_decide_eq_true h
    exact this.subset (by simp)
  cases tok with
  | nil => simp at hmem
  | cons x xs =>
      rcases List.mem_cons.mp hmem with rfl | hmemt
      · exact ⟨xs, rfl⟩
      · rcases htame b (by simpa using hmemt) with h | h | h
        · exact absurd h hb0
        · exact absurd h hb1
        · exact absurd h hbs

/-- `rowBrks` for an `l2r` pass is the bracket merge, unsorted. -/
theorem rowBrks_l2r (p : Char) (xi : PyStr) :
    rowBrks p .l2r xi
      = merge_brackets (if xi ≠ D_NONE_LABEL then xi.map (fun c => [c]) else []) := by
  unfold rowBrks
  dsimp only
  cases hm : merge_brackets (if xi ≠ D_NONE_LABEL then xi.map (fun c => [c]) else []) <;>
    simp [hm, except_bind_ok, except_bind_error]

/-- `rowBrks` for an `r2l` pass is the bracket merge followed by the sort. -/
theorem rowBrks_r2l (p : Char) (xi : PyStr) :
    rowBrks p .r2l xi
      = (merge_brackets (if xi ≠ D_NONE_LABEL then xi.map (fun c => [c]) else [])).map
          (pySortBrks p) := by
  unfold rowBrks
  dsimp only
  cases hm : merge_brackets (if xi ≠ D_NONE_LABEL then xi.map (fun c => [c]) else []) <;>
    simp [hm, except_bind_ok, except_bind_error, Except.map]

/-- Everything the bare opening token is `brkKeyLe`-below is bare itself. -/
theorem brkKeyLe_bare_left {p : Char} {t : PyStr}
    (h : brkKeyLe p ['\\', p] t = true) : t = ['\\', p] := by
  unfold brkKeyLe at h
  by_cases ht : t = ['\\', p]
  · exact ht
  · simp [ht] at h

/-- Between non-bare tokens the key comparison is the string comparison. -/
theorem brkKeyLe_nonbare {p : Char} {x y : PyStr}
    (hx : x ≠ ['\\', p]) (hy : y ≠ ['\\', p]) :
    brkKeyLe p x y = pyStrLe x y := by
  unfold brkKeyLe
  simp [hx, hy]

/-- A `brkKeyLe`-pairwise list splits into non-bare tokens (lexicographically
pairwise) followed by bare opening tokens. -/
theorem sorted_split (p : Char) : ∀ l : List PyStr,
    l.Pairwise (fun a b => brkKeyLe p a b = true) →
    ∃ front back, l = front ++ back ∧ (∀ t ∈ front, t ≠ ['\\', p]) ∧
      (∀ t ∈ back, t = ['\\', p]) ∧
      front.Pairwise (fun a b => pyStrLe a b = true) := by
  intro l
  induction l with
  | nil => exact fun _ => ⟨[], [], rfl, by simp, by simp, by simp⟩
  | cons x xs ih =>
      intro hp
      rcases List.pairwise_cons.mp hp with ⟨hx, hxs⟩
      by_cases hbare : x = ['\\', p]
      · refine ⟨[], x :: xs, rfl, by simp, ?_, by simp⟩
        intro t ht
        rcases List.mem_cons.mp ht with rfl | ht
        · exact hbare
        · exact brkKeyLe_bare_left (hbare ▸ hx t ht)
      · obtain ⟨f, b, heq, hf, hb, hfp⟩ := ih hxs
        refine ⟨x :: f, b, by rw [heq, List.cons_append], ?_, hb, ?_⟩
        · intro t ht
          rcases List.mem_cons.mp ht with rfl | ht
          · exact hbare
          · exact hf t ht
        · refine List.pairwise_cons.mpr ⟨?_, hfp⟩
          intro y hy
          have hyx : y ∈ xs := heq ▸ List.mem_append_left b hy
          have := hx y hyx
          rwa [brkKeyLe_nonbare hbare (hf y hy)] at this

/-- **C10.**  The two decode directions process a node's merged tokens in
different orders: the `r2l` pass sorts them so that all tokens other than the
bare opening token `\p` come first, pairwise ascending in lexicographic
string order, with the bare `\p` tokens last, while the `l2r` pass keeps the
merged fragment order unchanged. -/
theorem C10_reorder (p : Char) (xi : PyStr) (bs : List PyStr)
    (h : rowBrks p .l2r xi = .ok bs) :
    rowBrks p .r2l xi = .ok (pySortBrks p bs) ∧
    (pySortBrks p bs).Perm bs ∧
    ∃ front back, pySortBrks p bs = front ++ back ∧
      (∀ t ∈ front, t ≠ ['\\', p]) ∧ (∀ t ∈ back, t = ['\\', p]) ∧
      front.Pairwise (fun a b => pyStrLe a b = true) := by
  rw [rowBrks_l2r] at h
  refine ⟨by rw [rowBrks_r2l, h]; rfl, sortLe_perm _ bs, ?_⟩
  exact sorted_split p _ (sortLe_pairwise _ (brkKeyLe_total p) (brkKeyLe_trans p) bs)

/-- Witness for `C10_reorder` at the concrete payload `\0<0/0`. -/
theorem C10_witness :
    rowBrks '0' .r2l ['\\', '0', '<', '0', '/', '0']
      = .ok (pySortBrks '0' [['\\', '0'], ['<', '0'], ['/', '0']]) ∧
    (pySortBrks '0' [['\\', '0'], ['<', '0'], ['/', '0']]).Perm
      [['\\', '0'], ['<', '0'], ['/', '0']] ∧
    ∃ front back,
      pySortBrks '0' [['\\', '0'], ['<', '0'], ['/', '0']] = front ++ back ∧
      (∀ t ∈ front, t ≠ ['\\', '0']) ∧ (∀ t ∈ back, t = ['\\', '0']) ∧
      front.Pairwise (fun a b => pyStrLe a b = true) :=
  C10_reorder '0' ['\\', '0', '<', '0', '/', '0']
    [['\\', '0'], ['<', '0'], ['/', '0']] rfl


/-- On two tokens headed by `\` and `<`, string comparison orders `<` first. -/
theorem pyStrLe_backslash_lt {u v : PyStr} :
    pyStrLe ('\\' :: u) ('<' :: v) = false := by
  simp [pyStrLe, show ¬('\\' < '<') by decide, show '<' < '\\' by decide]

/-- **C5, amended (r2l half).**  In every `r2l` pass the processed token
sequence splits into a prefix containing no opening marker `\p` (so no
pushes) followed by a suffix containing no resolving marker `<p` (so no head
assignments): every head assignment of a node happens before any push of the
node's id.  This holds for the merge output of an arbitrary payload, because
the sort places every `<p`-headed token before every `\p`-headed token. -/
theorem C5_amended (p : Char) (xi : PyStr) (bs : List PyStr)
    (h : merge_brackets (if xi ≠ D_NONE_LABEL then xi.map (fun c => [c]) else [])
          = .ok bs) :
    ∃ front back, pySortBrks p bs = front ++ back ∧
      (∀ t ∈ front, hasSub (s_append_brk p .r2l) t = false) ∧
      (∀ t ∈ back, hasSub (s_peek_brk p .r2l) t = false) := by
  have htame : ∀ s ∈ bs, TameTail s := by
    refine merge_brackets_tame h ?_
    intro s hs
    split at hs
    · rcases List.mem_map.mp hs with ⟨c, _, rfl⟩
      intro c' hc'; simp at hc'
    · simp at hs
  have hperm : (pySortBrks p bs).Perm bs := sortLe_perm _ bs
  have htame' : ∀ s ∈ pySortBrks p bs, TameTail s := fun s hs =>
    htame s (hperm.mem_iff.mp hs)
  have hpair : (pySortBrks p bs).Pairwise (fun a b => brkKeyLe p a b = true) :=
    sortLe_pairwise _ (brkKeyLe_total p) (brkKeyLe_trans p) bs
  refine ⟨(pySortBrks p bs).takeWhile (fun t => !hasSub ['\\', p] t),
         (pySortBrks p bs).dropWhile (fun t => !hasSub ['\\', p] t),
         (List.takeWhile_append_dropWhile _ _).symm, ?_, ?_⟩
  · intro t ht
    have := List.mem_takeWhile_imp ht
    simpa using this
  · intro t ht
    cases hpkc : hasSub (s_peek_brk p Dir.r2l) t with
    | false => rfl
    | true =>
    exfalso
    have hpk : hasSub ['<', p] t = true := hpkc
    have hback : ((pySortBrks p bs).dropWhile (fun t => !hasSub ['\\', p] t)).Sublist
        (pySortBrks p bs) := List.dropWhile_sublist _
    have htmem : t ∈ pySortBrks p bs := hback.subset ht
    obtain ⟨u, rfl⟩ := tame_hasSub_head (htame' t htmem) (by decide) (by decide)
      (by decide) hpk
    cases hbb : (pySortBrks p bs).dropWhile (fun t => !hasSub ['\\', p] t) with
    | nil => rw [hbb] at ht; simp at ht
    | cons bh bt =>
        have hbhmem : bh ∈ pySortBrks p bs := hback.subset (hbb ▸ List.mem_cons_self _ _)
        have hbhsub : hasSub ['\\', p] bh = true := by
          have hne : (pySortBrks p bs).dropWhile (fun t => !hasSub ['\\', p] t) ≠ [] := by
            rw [hbb]; simp
          have := List.head_dropWhile_not (fun t => !hasSub ['\\', p] t)
            (pySortBrks p bs) hne
          revert this
          rw [show ((pySortBrks p bs).dropWhile (fun t => !hasSub ['\\', p] t)).head hne
              = bh by rw [List.head_eq_iff_head?_eq_some]; rw [hbb]; rfl]
          intro this
          simpa using this
        obtain ⟨w, hw⟩ := tame_hasSub_head (htame' bh hbhmem) (by decide) (by decide)
          (by decide) hbhsub
        rw [hbb] at ht
        rcases List.mem_cons.mp ht with rfl | ht
        · simp at hw
        · have hpback : (bh :: bt).Pairwise (fun a b => brkKeyLe p a b = true) :=
            List.Pairwise.sublist (hbb ▸ hback) hpair
          have hle : brkKeyLe p bh ('<' :: u) = true :=
            (List.pairwise_cons.mp hpback).1 _ ht
          by_cases hbare : bh = ['\\', p]
          · have := brkKeyLe_bare_left (hbare ▸ hle)
            cases this
          · rw [brkKeyLe_nonbare hbare (by rintro ⟨⟩)] at hle
            rw [hw] at hle
            rw [pyStrLe_backslash_lt] at hle
            cases hle

/-- Witness for `C5_amended` at the concrete payload `\0<0`. -/
theorem C5_witness :
    ∃ front back, pySortBrks '0' [['\\', '0'], ['<', '0']] = front ++ back ∧
      (∀ t ∈ front, hasSub (s_append_brk '0' .r2l) t = false) ∧
      (∀ t ∈ back, hasSub (s_peek_brk '0' .r2l) t = false) :=
  C5_amended '0' ['\\', '0', '<', '0'] [['\\', '0'], ['<', '0']] rfl


/-- `procToken` preserves the four field lengths of the target tree. -/
theorem procToken_sizes {sApp sPk : PyStr} {cur : Nat} {st : List Nat} {t : DTree}
    {tok : PyStr} {r : List Nat × DTree}
    (h : procToken sApp sPk cur st t tok = .ok r) :
    r.2.words.length = t.words.length ∧ r.2.postags.length = t.postags.length ∧
    r.2.rels.length = t.rels.length ∧ r.2.heads.length = t.heads.length := by
  unfold procToken at h
  dsimp only at h
  iterate 5 (all_goals try split at h)
  all_goals cases h
  all_goals simp [DTree.update_head, List.length_set]

/-- `procTokens` preserves the four field lengths of the target tree. -/
theorem procTokens_sizes {sApp sPk : PyStr} {cur : Nat} :
    ∀ {toks : List PyStr} {st : List Nat} {t : DTree} {r : List Nat × DTree},
      procTokens sApp sPk cur toks st t = .ok r →
      r.2.words.length = t.words.length ∧ r.2.postags.length = t.postags.length ∧
      r.2.rels.length = t.rels.length ∧ r.2.heads.length = t.heads.length := by
  intro toks
  induction toks with
  | nil => intro st t r h; cases h; exact ⟨rfl, rfl, rfl, rfl⟩
  | cons tok toks ih =>
      intro st t r h
      simp only [procTokens] at h
      cases hp : procToken sApp sPk cur st t tok with
      | error e => rw [hp] at h; cases h
      | ok r' =>
          rw [hp] at h
          simp only [except_bind_ok] at h
          obtain ⟨h1, h2, h3, h4⟩ := procToken_sizes hp
          obtain ⟨g1, g2, g3, g4⟩ := ih h
          exact ⟨g1.trans h1, g2.trans h2, g3.trans h3, g4.trans h4⟩

/-- One decoded row preserves the four field lengths of the target tree. -/
theorem procRow_sizes {p : Char} {dir : Dir} {cur : Nat} {row : LinRow}
    {st : List Nat} {t : DTree} {r : List Nat × DTree}
    (h : procRow p dir cur row st t = .ok r) :
    r.2.words.length = t.words.length ∧ r.2.postags.length = t.postags.length ∧
    r.2.rels.length = t.rels.length ∧ r.2.heads.length = t.heads.length := by
  unfold procRow at h
  dsimp only at h
  cases hb : rowBrks p dir row.label.xi with
  | error e => rw [hb] at h; cases h
  | ok bs =>
      rw [hb] at h
      simp only [except_bind_ok] at h
      obtain ⟨h1, h2, h3, h4⟩ := procTokens_sizes h
      simp only [DTree.update_word, DTree.update_upos, DTree.update_relation,
        List.length_set] at h1 h2 h3 h4
      exact ⟨h1, h2, h3, h4⟩

/-- A decoding pass preserves the four field lengths of the target tree. -/
theorem decodingAux_sizes {p : Char} {dir : Dir} :
    ∀ {rows : List (Nat × LinRow)} {st : List Nat} {t t' : DTree},
      decodingAux p dir rows st t = .ok t' →
      t'.words.length = t.words.length ∧ t'.postags.length = t.postags.length ∧
      t'.rels.length = t.rels.length ∧ t'.heads.length = t.heads.length := by
  intro rows
  induction rows with
  | nil => intro st t t' h; cases h; exact ⟨rfl, rfl, rfl, rfl⟩
  | cons r rest ih =>
      intro st t t' h
      obtain ⟨cur, row⟩ := r
      simp only [decodingAux] at h
      cases hp : procRow p dir cur row st t with
      | error e => rw [hp] at h; cases h
      | ok r' =>
          rw [hp] at h
          simp only [except_bind_ok] at h
          obtain ⟨h1, h2, h3, h4⟩ := procRow_sizes hp
          obtain ⟨g1, g2, g3, g4⟩ := ih h
          exact ⟨g1.trans h1, g2.trans h2, g3.trans h3, g4.trans h4⟩

/-- **C2, amended.**  `decode` returns the four-pass result unchanged — the
`remove_dummy` call is commented out — so the returned tree keeps one node
slot per input row, the virtual root sentinel's included. -/
theorem C2_amended (lt : LinearizedTree) :
    decode lt = decodePasses lt pass_order ∧
    ∀ d, decode lt = .ok d →
      d.words.length = lt.rows.length ∧ d.postags.length = lt.rows.length ∧
      d.rels.length = lt.rows.length ∧ d.heads.length = lt.rows.length := by
  constructor
  · rfl
  · intro d h
    unfold decode at h
    cases he : empty_tree lt.rows.length with
    | error e => rw [he] at h; cases h
    | ok t0 =>
        rw [he] at h
        simp only [except_bind_ok] at h
        have ht0 : t0.words.length = lt.rows.length ∧
            t0.postags.length = lt.rows.length ∧
            t0.rels.length = lt.rows.length ∧ t0.heads.length = lt.rows.length := by
          unfold empty_tree at he
          split at he
          · cases he
          · cases he; simp
        cases h1 : decoding_step lt t0 '0' .l2r with
        | error e => rw [h1] at h; cases h
        | ok t1 =>
            rw [h1] at h
            simp only [except_bind_ok] at h
            cases h2 : decoding_step lt t1 '0' .r2l with
            | error e => rw [h2] at h; cases h
            | ok t2 =>
                rw [h2] at h
                simp only [except_bind_ok] at h
                cases h3 : decoding_step lt t2 '1' .l2r with
                | error e => rw [h3] at h; cases h
                | ok t3 =>
                    rw [h3] at h
                    simp only [except_bind_ok] at h
                    cases h4 : decoding_step lt t3 '1' .r2l with
                    | error e => rw [h4] at h; cases h
                    | ok t4 =>
                        rw [h4] at h
                        simp only [except_bind_ok] at h
                        cases h
                        obtain ⟨a1, a2, a3, a4⟩ := decodingAux_sizes h1
                        obtain ⟨b1, b2, b3, b4⟩ := decodingAux_sizes h2
                        obtain ⟨c1, c2, c3, c4⟩ := decodingAux_sizes h3
                        obtain ⟨e1, e2, e3, e4⟩ := decodingAux_sizes h4
                        exact ⟨e1.trans (c1.trans (b1.trans (a1.trans ht0.1))),
                          e2.trans (c2.trans (b2.trans (a2.trans ht0.2.1))),
                          e3.trans (c3.trans (b3.trans (a3.trans ht0.2.2.1))),
                          e4.trans (c4.trans (b4.trans (a4.trans ht0.2.2.2)))⟩

/-- Witness for `C2_amended` at a concrete one-row input. -/
theorem C2_witness :
    decode ltNone = decodePasses ltNone pass_order ∧
    (⟨["w"], ["PT"], ["rel"], [none]⟩ : DTree).words.length = ltNone.rows.length :=
  ⟨(C2_amended ltNone).1, ((C2_amended ltNone).2 ⟨["w"], ["PT"], ["rel"], [none]⟩ rfl).1⟩


/-- Star-freeness of all slots survives a `set` of a star-free value. -/
theorem nostar_set {l : List PyStr} {j : Nat} {v : PyStr}
    (hl : ∀ s ∈ l, '*' ∉ s) (hv : '*' ∉ v) : ∀ s ∈ l.set j v, '*' ∉ s := by
  intro s hs
  rcases List.mem_or_eq_of_mem_set hs with hs | rfl
  · exact hl s hs
  · exact hv

/-- A `getD []` read of a star-free list is star-free. -/
theorem nostar_getD {l : List PyStr} {j : Nat} (hl : ∀ s ∈ l, '*' ∉ s) :
    '*' ∉ l.getD j [] := by
  rcases getD_mem_or l j [] with h | h
  · exact hl _ h
  · rw [h]; simp

/-- The digit fusion keeps every slot star-free. -/
theorem mergeDigit_nostar {n : Nat} {brks : List PyStr} {i : Nat}
    (hst : ∀ s ∈ brks, '*' ∉ s) : ∀ s ∈ mergeDigit n brks i, '*' ∉ s := by
  unfold mergeDigit
  split
  · refine nostar_set (nostar_set hst ?_) (by simp)
    intro hmem
    rcases List.mem_append.mp hmem with hmem | hmem
    · exact nostar_getD hst hmem
    · exact nostar_getD hst hmem
  · exact hst

/-- On star-free slots the `*` fusion (the only erroring branch of a merge
iteration) is a no-op. -/
theorem mergeStar_nostar {n : Nat} {brks : List PyStr} {i : Nat}
    (hst : ∀ s ∈ brks, '*' ∉ s) : mergeStar n brks i = .ok brks := by
  unfold mergeStar
  rw [if_neg (fun hEq => nostar_getD hst (by rw [hEq]; simp))]

/-- On star-free slots a merge iteration succeeds and keeps star-freeness. -/
theorem mergeStep_nostar {n i : Nat} {brks : List PyStr}
    (hst : ∀ s ∈ brks, '*' ∉ s) :
    ∃ brks', mergeStep n brks i = .ok brks' ∧ ∀ s ∈ brks', '*' ∉ s := by
  refine ⟨mergeDigit n brks i, ?_, mergeDigit_nostar hst⟩
  unfold mergeStep
  exact mergeStar_nostar (mergeDigit_nostar hst)

/-- `_merge_brackets` succeeds on star-free slots, with star-free tokens. -/
theorem merge_brackets_nostar {raw : List PyStr} (h : ∀ s ∈ raw, '*' ∉ s) :
    ∃ bs, merge_brackets raw = .ok bs ∧ ∀ s ∈ bs, '*' ∉ s := by
  have hfold : ∀ (is : List Nat) (b : List PyStr), (∀ s ∈ b, '*' ∉ s) →
      ∃ v, is.foldlM (mergeStep raw.length) b = .ok v ∧ ∀ s ∈ v, '*' ∉ s := by
    intro is
    induction is with
    | nil => exact fun b hb => ⟨b, rfl, hb⟩
    | cons i is ih =>
        intro b hb
        obtain ⟨b', hb', hst⟩ := mergeStep_nostar (n := raw.length) (i := i) hb
        obtain ⟨v, hv, hvst⟩ := ih b' hst
        exact ⟨v, by simp only [List.foldlM_cons, hb', except_bind_ok, hv], hvst⟩
  obtain ⟨v, hv, hvst⟩ := hfold (List.range raw.length) raw h
  refine ⟨v.filter (fun b => !b.isEmpty), ?_, ?_⟩
  · unfold merge_brackets
    rw [hv]
    rfl
  · intro s hs
    exact hvst s (List.mem_of_mem_filter hs)

/-- `rowBrks` succeeds on a star-free payload, with star-free tokens. -/
theorem rowBrks_nostar (p : Char) (dir : Dir) {xi : PyStr} (h : '*' ∉ xi) :
    ∃ bs, rowBrks p dir xi = .ok bs ∧ ∀ s ∈ bs, '*' ∉ s := by
  have hraw : ∀ s ∈ (if xi ≠ D_NONE_LABEL then xi.map (fun c => [c]) else []),
      '*' ∉ s := by
    intro s hs
    split at hs
    · rcases List.mem_map.mp hs with ⟨c, hc, rfl⟩
      intro hmem
      simp only [List.mem_singleton] at hmem
      exact h (hmem ▸ hc)
    · simp at hs
  obtain ⟨bs, hbs, hst⟩ := merge_brackets_nostar hraw
  cases dir with
  | l2r => exact ⟨bs, by rw [rowBrks_l2r]; exact hbs, hst⟩
  | r2l =>
      refine ⟨pySortBrks p bs, by rw [rowBrks_r2l, hbs]; rfl, ?_⟩
      intro s hs
      exact hst s ((sortLe_perm _ bs).mem_iff.mp hs)

/-- The token loop succeeds whenever no token carries `*` (the empty-stack
pop is gated on `*`). -/
theorem procTokens_nostar (sApp sPk : PyStr) (cur : Nat) :
    ∀ {toks : List PyStr} (st : List Nat) (t : DTree),
      (∀ tok ∈ toks, '*' ∉ tok) →
      ∃ r, procTokens sApp sPk cur toks st t = .ok r := by
  intro toks
  induction toks with
  | nil => exact fun _ _ _ => ⟨_, rfl⟩
  | cons tok toks ih =>
      intro st t hst
      have hnotok : '*' ∉ tok := hst tok (List.mem_cons_self _ _)
      have hstep : ∃ r', procToken sApp sPk cur st t tok = .ok r' := by
        unfold procToken
        dsimp only
        iterate 3 (all_goals try split)
        all_goals try exact ⟨_, rfl⟩
        all_goals exact absurd (show '*' ∈ tok by assumption) hnotok
      obtain ⟨r', hr'⟩ := hstep
      obtain ⟨r, hr⟩ := ih r'.1 r'.2
        (fun tok' h' => hst tok' (List.mem_cons_of_mem _ h'))
      exact ⟨r, by simp only [procTokens, hr', except_bind_ok, hr]⟩

/-- A row of any pass succeeds on a star-free payload. -/
theorem procRow_nostar (p : Char) (dir : Dir) (cur : Nat) {row : LinRow}
    (st : List Nat) (t : DTree) (h : '*' ∉ row.label.xi) :
    ∃ r, procRow p dir cur row st t = .ok r := by
  obtain ⟨bs, hbs, hst⟩ := rowBrks_nostar p dir h
  obtain ⟨r, hr⟩ := procTokens_nostar (s_append_brk p dir) (s_peek_brk p dir) cur st
    (((t.update_word cur row.word).update_upos cur row.postag).update_relation
      cur row.label.li)
    (fun tok h' => hst tok h')
  exact ⟨r, by unfold procRow; rw [hbs]; simpa [except_bind_ok] using hr⟩

/-- Row membership in a pass's visit list. -/
theorem passRows_mem {lt : LinearizedTree} {dir : Dir} {cur : Nat} {row : LinRow}
    (h : (cur, row) ∈ passRows lt dir) : row ∈ lt.rows := by
  cases dir with
  | l2r =>
      obtain ⟨hlt, heq⟩ := List.mem_enum h
      exact heq ▸ List.getElem_mem hlt
  | r2l =>
      have h' : (cur, row) ∈ lt.rows.enum := List.mem_reverse.mp h
      obtain ⟨hlt, heq⟩ := List.mem_enum h'
      exact heq ▸ List.getElem_mem hlt

/-- A pass succeeds when all payloads are star-free. -/
theorem decodingAux_nostar {p : Char} {dir : Dir} {lt : LinearizedTree}
    (hstar : ∀ row ∈ lt.rows, '*' ∉ row.label.xi) :
    ∀ {rows : List (Nat × LinRow)} (st : List Nat) (t : DTree),
      (∀ x ∈ rows, x ∈ passRows lt dir) →
      ∃ t', decodingAux p dir rows st t = .ok t' := by
  intro rows
  induction rows with
  | nil => exact fun _ _ _ => ⟨_, rfl⟩
  | cons r rest ih =>
      intro st t hmem
      obtain ⟨cur, row⟩ := r
      have hrow : row ∈ lt.rows := passRows_mem (hmem _ (List.mem_cons_self _ _))
      obtain ⟨r', hr'⟩ := procRow_nostar p dir cur st t (hstar row hrow)
      obtain ⟨t', ht'⟩ := ih r'.1 r'.2
        (fun x hx => hmem x (List.mem_cons_of_mem _ hx))
      exact ⟨t', by simp only [decodingAux, hr', except_bind_ok, ht']⟩

/-- **C3, amended.**  `decode` returns a well-formed tree for every nonempty
label sequence whose payloads contain no `*` character: the merge cannot hit
its negative-index `IndexError` and no pass can pop an empty stack, so all
four passes succeed and the result has one node slot per row.  (The
counterexample shows totality fails once `*` payloads are allowed.) -/
theorem C3_amended (lt : LinearizedTree) (hne : lt.rows ≠ [])
    (hstar : ∀ row ∈ lt.rows, '*' ∉ row.label.xi) :
    ∃ d, decode lt = .ok d ∧ d.words.length = lt.rows.length ∧
      d.heads.length = lt.rows.length := by
  have hn : lt.rows.length ≠ 0 := fun h0 => hne (List.length_eq_zero.mp h0)
  have he : empty_tree lt.rows.length
      = .ok ⟨List.replicate lt.rows.length "", List.replicate lt.rows.length "",
             List.replicate lt.rows.length "", List.replicate lt.rows.length none⟩ := by
    unfold empty_tree
    rw [if_neg hn]
  have hpass : ∀ (pc : Char) (dir : Dir) (t : DTree),
      ∃ t', decoding_step lt t pc dir = .ok t' := by
    intro pc dir t
    exact decodingAux_nostar hstar [] t (fun x hx => hx)
  obtain ⟨t1, h1⟩ := hpass '0' .l2r _
  obtain ⟨t2, h2⟩ := hpass '0' .r2l t1
  obtain ⟨t3, h3⟩ := hpass '1' .l2r t2
  obtain ⟨t4, h4⟩ := hpass '1' .r2l t3
  refine ⟨t4, ?_, ?_, ?_⟩
  · unfold decode
    rw [he]
    simp only [except_bind_ok]
    rw [h1]
    simp only [except_bind_ok]
    rw [h2]
    simp only [except_bind_ok]
    rw [h3]
    simp only [except_bind_ok]
    rw [h4]
    rfl
  · obtain ⟨a1, _, _, _⟩ := decodingAux_sizes h1
    obtain ⟨b1, _, _, _⟩ := decodingAux_sizes h2
    obtain ⟨c1, _, _, _⟩ := decodingAux_sizes h3
    obtain ⟨d1, _, _, _⟩ := decodingAux_sizes h4
    simp only [d1, c1, b1, a1, List.length_replicate]
  · obtain ⟨_, _, _, a4⟩ := decodingAux_sizes h1
    obtain ⟨_, _, _, b4⟩ := decodingAux_sizes h2
    obtain ⟨_, _, _, c4⟩ := decodingAux_sizes h3
    obtain ⟨_, _, _, d4⟩ := decodingAux_sizes h4
    simp only [d4, c4, b4, a4, List.length_replicate]

/-- Witness for `C3_amended` at a concrete star-free adversarial input. -/
theorem C3_witness :
    ∃ d, decode ltPlain = .ok d ∧ d.words.length = ltPlain.rows.length ∧
      d.heads.length = ltPlain.rows.length :=
  C3_amended ltPlain (by decide) (by decide)


/-- Setting past a prefix. -/
theorem set_append_right' {α : Type} (A l : List α) (k : Nat) (v : α) :
    (A ++ l).set (A.length + k) v = A ++ l.set k v := by
  rw [List.set_append, if_neg (by omega)]
  congr 1
  congr 1
  omega

/-- Reading past a prefix. -/
theorem getD_append_right' {α : Type} (A l : List α) (k : Nat) (d : α) :
    (A ++ l).getD (A.length + k) d = l.getD k d := by
  rw [List.getD_append_right A l d _ (by omega)]
  congr 1
  omega

/-- Reading inside the middle section. -/
theorem getD_mid (A l R : List PyStr) (k : Nat) (hk : k < l.length) :
    (A ++ l ++ R).getD (A.length + k) [] = l.getD k [] := by
  rw [List.append_assoc, getD_append_right']
  exact List.getD_append l R [] k hk

/-- Writing inside the middle section. -/
theorem set_mid (A l R : List PyStr) (k : Nat) (v : PyStr) (hk : k < l.length) :
    (A ++ l ++ R).set (A.length + k) v = A ++ l.set k v ++ R := by
  rw [List.append_assoc, set_append_right', List.set_append, if_pos hk,
    List.append_assoc]


/-- Reading at exactly the prefix length. -/
theorem getD_append_len {α : Type} (A l : List α) (d : α) :
    (A ++ l).getD A.length d = l.getD 0 d := by
  simpa using getD_append_right' A l 0 d

/-- Writing at exactly the prefix length. -/
theorem set_append_len {α : Type} (A l : List α) (v : α) :
    (A ++ l).set A.length v = A ++ l.set 0 v := by
  simpa using set_append_right' A l 0 v

/-- The merging loop turns the two raw characters of an unstarred token back
into the token followed by an emptied slot, whatever the surroundings. -/
theorem merge_tok2 (n : Nat) (A R : List PyStr) (b d : Char)
    (hb : ¬(b = '0' ∨ b = '1' ∨ b = '*')) (hd : d = '0' ∨ d = '1') :
    (List.range' A.length 2 1).foldlM (mergeStep n) (A ++ [b] :: [d] :: R)
      = .ok (A ++ [b, d] :: [] :: R) := by
  have hg0 : (A ++ [b] :: [d] :: R).getD A.length [] = [b] := by
    rw [getD_append_len]; rfl
  have hg1 : (A ++ [b] :: [d] :: R).getD (A.length + 1) [] = [d] := by
    rw [getD_append_right']; rfl
  have hbne : ¬([b] = ['1'] ∨ [b] = ['0']) := by
    rintro (h | h)
    · simp at h; exact hb (Or.inr (Or.inl h))
    · simp at h; exact hb (Or.inl h)
  have hD0 : mergeDigit n (A ++ [b] :: [d] :: R) A.length = A ++ [b] :: [d] :: R := by
    unfold mergeDigit
    rw [hg0, if_neg hbne]
  have hS0 : mergeStar n (A ++ [b] :: [d] :: R) A.length
      = .ok (A ++ [b] :: [d] :: R) := by
    unfold mergeStar
    rw [hg0, if_neg (by intro h; simp at h; exact hb (Or.inr (Or.inr h)))]
  have hD1 : mergeDigit n (A ++ [b] :: [d] :: R) (A.length + 1)
      = A ++ [b, d] :: [] :: R := by
    unfold mergeDigit
    rw [hg1, if_pos (by rcases hd with rfl | rfl <;> simp), if_neg (by omega),
      Nat.add_sub_cancel, hg0, set_append_len, set_append_right']
    rfl
  have hS1 : mergeStar n (A ++ [b, d] :: [] :: R) (A.length + 1)
      = .ok (A ++ [b, d] :: [] :: R) := by
    unfold mergeStar
    rw [show (A ++ [b, d] :: [] :: R).getD (A.length + 1) [] = [] from by
      rw [getD_append_right']; rfl]
    rw [if_neg (by simp)]
  rw [show List.range' A.length 2 1 = [A.length, A.length + 1] from by
    simp [List.range']]
  simp only [List.foldlM_cons, List.foldlM_nil]
  rw [show mergeStep n (A ++ [b] :: [d] :: R) A.length
      = .ok (A ++ [b] :: [d] :: R) from by unfold mergeStep; rw [hD0]; exact hS0]
  simp only [except_bind_ok]
  rw [show mergeStep n (A ++ [b] :: [d] :: R) (A.length + 1)
      = .ok (A ++ [b, d] :: [] :: R) from by unfold mergeStep; rw [hD1]; exact hS1]
  rfl

/-- The merging loop turns the three raw characters of a starred token back
into the token followed by two emptied slots. -/
theorem merge_tok3 (n : Nat) (A R : List PyStr) (b d : Char)
    (hb : ¬(b = '0' ∨ b = '1' ∨ b = '*')) (hd : d = '0' ∨ d = '1') :
    (List.range' A.length 3 1).foldlM (mergeStep n) (A ++ [b] :: [d] :: ['*'] :: R)
      = .ok (A ++ [b, d, '*'] :: [] :: [] :: R) := by
  have hg0 : (A ++ [b] :: [d] :: ['*'] :: R).getD A.length [] = [b] := by
    rw [getD_append_len]; rfl
  have hg1 : (A ++ [b] :: [d] :: ['*'] :: R).getD (A.length + 1) [] = [d] := by
    rw [getD_append_right']; rfl
  have hbne : ¬([b] = ['1'] ∨ [b] = ['0']) := by
    rintro (h | h)
    · simp at h; exact hb (Or.inr (Or.inl h))
    · simp at h; exact hb (Or.inl h)
  have hD0 : mergeDigit n (A ++ [b] :: [d] :: ['*'] :: R) A.length
      = A ++ [b] :: [d] :: ['*'] :: R := by
    unfold mergeDigit
    rw [hg0, if_neg hbne]
  have hS0 : mergeStar n (A ++ [b] :: [d] :: ['*'] :: R) A.length
      = .ok (A ++ [b] :: [d] :: ['*'] :: R) := by
    unfold mergeStar
    rw [hg0, if_neg (by intro h; simp at h; exact hb (Or.inr (Or.inr h)))]
  have hD1 : mergeDigit n (A ++ [b] :: [d] :: ['*'] :: R) (A.length + 1)
      = A ++ [b, d] :: [] :: ['*'] :: R := by
    unfold mergeDigit
    rw [hg1, if_pos (by rcases hd with rfl | rfl <;> simp), if_neg (by omega),
      Nat.add_sub_cancel, hg0, set_append_len, set_append_right']
    rfl
  have hS1 : mergeStar n (A ++ [b, d] :: [] :: ['*'] :: R) (A.length + 1)
      = .ok (A ++ [b, d] :: [] :: ['*'] :: R) := by
    unfold mergeStar
    rw [show (A ++ [b, d] :: [] :: ['*'] :: R).getD (A.length + 1) [] = [] from by
      rw [getD_append_right']; rfl]
    rw [if_neg (by simp)]
  have hg2 : (A ++ [b, d] :: [] :: ['*'] :: R).getD (A.length + 2) [] = ['*'] := by
    rw [getD_append_right']; rfl
  have hD2 : mergeDigit n (A ++ [b, d] :: [] :: ['*'] :: R) (A.length + 2)
      = A ++ [b, d] :: [] :: ['*'] :: R := by
    unfold mergeDigit
    rw [hg2, if_neg (by simp)]
  have hS2 : mergeStar n (A ++ [b, d] :: [] :: ['*'] :: R) (A.length + 2)
      = .ok (A ++ [b, d, '*'] :: [] :: [] :: R) := by
    unfold mergeStar
    rw [hg2, if_pos rfl, if_neg (by omega), if_pos (by omega), Nat.add_sub_cancel,
      show (A ++ [b, d] :: [] :: ['*'] :: R).getD A.length [] = [b, d] from by
        rw [getD_append_len]; rfl,
      set_append_len, set_append_right']
    rfl
  rw [show List.range' A.length 3 1 = [A.length, A.length + 1, A.length + 2] from by
    simp [List.range']]
  simp only [List.foldlM_cons, List.foldlM_nil]
  rw [show mergeStep n (A ++ [b] :: [d] :: ['*'] :: R) A.length
      = .ok (A ++ [b] :: [d] :: ['*'] :: R) from by unfold mergeStep; rw [hD0]; exact hS0]
  simp only [except_bind_ok]
  rw [show mergeStep n (A ++ [b] :: [d] :: ['*'] :: R) (A.length + 1)
      = .ok (A ++ [b, d] :: [] :: ['*'] :: R) from by unfold mergeStep; rw [hD1]; exact hS1]
  simp only [except_bind_ok]
  rw [show mergeStep n (A ++ [b, d] :: [] :: ['*'] :: R) (A.length + 2)
      = .ok (A ++ [b, d, '*'] :: [] :: [] :: R) from by unfold mergeStep; rw [hD2]; exact hS2]
  rfl


/-- Shape analysis of a well-formed bracket token. -/
theorem isBrkTok_shape {t : PyStr} (h : isBrkTok t = true) :
    (∃ b d, ¬(b = '0' ∨ b = '1' ∨ b = '*') ∧ (d = '0' ∨ d = '1') ∧ t = [b, d]) ∨
    (∃ b d, ¬(b = '0' ∨ b = '1' ∨ b = '*') ∧ (d = '0' ∨ d = '1') ∧ t = [b, d, '*']) := by
  match t, h with
  | [b, d], h =>
      simp only [isBrkTok, Bool.and_eq_true, Bool.not_eq_true', Bool.or_eq_false_iff,
        Bool.or_eq_true, beq_iff_eq, beq_eq_false_iff_ne, ne_eq] at h
      exact Or.inl ⟨b, d, by tauto, h.2, rfl⟩
  | [b, d, s], h =>
      simp only [isBrkTok, Bool.and_eq_true, Bool.not_eq_true', Bool.or_eq_false_iff,
        Bool.or_eq_true, beq_iff_eq, beq_eq_false_iff_ne, ne_eq] at h
      exact Or.inr ⟨b, d, by tauto, h.1.2, by rw [h.2]⟩

/-- Merging the raw character stream of a token sequence reproduces the
tokens in place, each followed by its emptied slots. -/
theorem merge_tokens_seg (n : Nat) :
    ∀ (ts : List PyStr) (A : List PyStr), (∀ t ∈ ts, isBrkTok t = true) →
      (List.range' A.length
          (ts.flatMap (fun t => t.map (fun c => ([c] : PyStr)))).length 1).foldlM
        (mergeStep n) (A ++ ts.flatMap (fun t => t.map (fun c => [c])))
        = .ok (A ++ ts.flatMap (fun t => t :: List.replicate (t.length - 1) [])) := by
  intro ts
  induction ts with
  | nil => intro A _; simp; rfl
  | cons t ts ih =>
      intro A hts
      have htok := hts t (List.mem_cons_self _ _)
      have hrest : ∀ t' ∈ ts, isBrkTok t' = true :=
        fun t' h' => hts t' (List.mem_cons_of_mem _ h')
      rcases isBrkTok_shape htok with ⟨b, d, hb, hd, rfl⟩ | ⟨b, d, hb, hd, rfl⟩
      · rw [List.flatMap_cons]
        rw [show (([b, d].map (fun c => ([c] : PyStr)))
              ++ ts.flatMap (fun t => t.map (fun c => [c]))).length
            = (ts.flatMap (fun t => t.map (fun c => ([c] : PyStr)))).length + 2 from by
          simp]
        rw [← List.range'_append A.length 2
          (ts.flatMap (fun t => t.map (fun c => ([c] : PyStr)))).length 1]
        rw [List.foldlM_append]
        have hfirst := merge_tok2 n A (ts.flatMap (fun t => t.map (fun c => [c]))) b d hb hd
        rw [show A ++ ([b, d].map (fun c => ([c] : PyStr))
              ++ ts.flatMap (fun t => t.map (fun c => [c])))
            = A ++ [b] :: [d] :: ts.flatMap (fun t => t.map (fun c => [c])) from rfl]
        rw [hfirst]
        simp only [except_bind_ok]
        have hih := ih (A ++ [[b, d], []]) hrest
        rw [show (A ++ [[b, d], []]).length = A.length + 1 * 2 from by simp] at hih
        rw [show (A ++ [[b, d], []])
              ++ ts.flatMap (fun t => t.map (fun c => ([c] : PyStr)))
            = A ++ [b, d] :: [] :: ts.flatMap (fun t => t.map (fun c => [c])) from by
          simp] at hih
        rw [hih]
        congr 1
        simp
      · rw [List.flatMap_cons]
        rw [show (([b, d, '*'].map (fun c => ([c] : PyStr)))
              ++ ts.flatMap (fun t => t.map (fun c => [c]))).length
            = (ts.flatMap (fun t => t.map (fun c => ([c] : PyStr)))).length + 3 from by
          simp]
        rw [← List.range'_append A.length 3
          (ts.flatMap (fun t => t.map (fun c => ([c] : PyStr)))).length 1]
        rw [List.foldlM_append]
        have hfirst := merge_tok3 n A (ts.flatMap (fun t => t.map (fun c => [c]))) b d hb hd
        rw [show A ++ ([b, d, '*'].map (fun c => ([c] : PyStr))
              ++ ts.flatMap (fun t => t.map (fun c => [c])))
            = A ++ [b] :: [d] :: ['*'] :: ts.flatMap (fun t => t.map (fun c => [c]))
          from rfl]
        rw [hfirst]
        simp only [except_bind_ok]
        have hih := ih (A ++ [[b, d, '*'], [], []]) hrest
        rw [show (A ++ [[b, d, '*'], [], []]).length = A.length + 1 * 3 from by simp] at hih
        rw [show (A ++ [[b, d, '*'], [], []])
              ++ ts.flatMap (fun t => t.map (fun c => ([c] : PyStr)))
            = A ++ [b, d, '*'] :: [] :: [] :: ts.flatMap (fun t => t.map (fun c => [c]))
          from by simp] at hih
        rw [hih]
        congr 1
        simp

/-- Dropping the emptied slots recovers exactly the token sequence. -/
theorem filter_merged_slots : ∀ ts : List PyStr, (∀ t ∈ ts, isBrkTok t = true) →
    (ts.flatMap (fun t => t :: List.replicate (t.length - 1) [])).filter
      (fun b => !b.isEmpty) = ts := by
  intro ts
  induction ts with
  | nil => intro _; rfl
  | cons t ts ih =>
      intro hts
      have htok := hts t (List.mem_cons_self _ _)
      have htne : ¬t.isEmpty := by
        rcases isBrkTok_shape htok with ⟨b, d, _, _, rfl⟩ | ⟨b, d, _, _, rfl⟩ <;> simp
      rw [List.flatMap_cons, List.filter_append, List.filter_cons,
        if_pos (by simpa using htne), List.filter_replicate,
        if_neg (by simp)]
      rw [ih (fun t' h' => hts t' (List.mem_cons_of_mem _ h'))]
      rfl

/-- Merging the raw character stream of a well-formed token sequence yields
exactly that token sequence, in order. -/
theorem merge_brackets_tokens (ts : List PyStr) (h : ∀ t ∈ ts, isBrkTok t = true) :
    merge_brackets (ts.flatten.map (fun c => [c])) = .ok ts := by
  have heq : ts.flatten.map (fun c => ([c] : PyStr))
      = ts.flatMap (fun t => t.map (fun c => [c])) := by
    simp [List.flatMap_def, List.map_flatten]
  unfold merge_brackets
  rw [heq, List.range_eq_range']
  have hseg := merge_tokens_seg
    (ts.flatMap (fun t => t.map (fun c => ([c] : PyStr)))).length ts [] h
  simp only [List.nil_append, List.length_nil] at hseg
  rw [hseg]
  show Except.ok _ = _
  rw [filter_merged_slots ts h]

/-- A list whose slots are neither bare digits, bare `*`, nor empty is a
fixed point of `_merge_brackets`. -/
theorem merge_brackets_fixed (l : List PyStr)
    (h : ∀ s ∈ l, s ≠ ['0'] ∧ s ≠ ['1'] ∧ s ≠ ['*'] ∧ s ≠ []) :
    merge_brackets l = .ok l := by
  have hstep : ∀ i, mergeStep l.length l i = .ok l := by
    intro i
    have hget : l.getD i [] ≠ ['1'] ∧ l.getD i [] ≠ ['0'] ∧ l.getD i [] ≠ ['*'] := by
      rcases getD_mem_or l i [] with hm | hm
      · exact ⟨(h _ hm).2.1, (h _ hm).1, (h _ hm).2.2.1⟩
      · rw [hm]; refine ⟨by simp, by simp, by simp⟩
    have hD : mergeDigit l.length l i = l := by
      unfold mergeDigit
      rw [if_neg (by tauto)]
    unfold mergeStep
    rw [hD]
    unfold mergeStar
    rw [if_neg hget.2.2]
  have hfold : ∀ is : List Nat, is.foldlM (mergeStep l.length) l = .ok l := by
    intro is
    induction is with
    | nil => rfl
    | cons i is ih => simp only [List.foldlM_cons, hstep, except_bind_ok, ih]
  unfold merge_brackets
  rw [hfold]
  show Except.ok _ = _
  rw [List.filter_eq_self.mpr ?_]
  intro a ha
  simpa [List.isEmpty_iff] using (h a ha).2.2.2

/-- **C7, amended.**  On raw character sequences that are concatenations of
well-formed bracket tokens — the fragments the encoder produces — the merge
reproduces exactly the token sequence in order (order preservation), the
merged sequence is a fixed point, and hence merging twice equals merging
once (idempotence).  The counterexample shows idempotence fails on arbitrary
raw sequences. -/
theorem C7_amended (ts : List PyStr) (h : ∀ t ∈ ts, isBrkTok t = true) :
    merge_brackets (ts.flatten.map (fun c => [c])) = .ok ts ∧
    merge_brackets ts = .ok ts ∧
    (merge_brackets (ts.flatten.map (fun c => [c]))).bind merge_brackets
      = merge_brackets (ts.flatten.map (fun c => [c])) := by
  have h1 := merge_brackets_tokens ts h
  have h2 : merge_brackets ts = .ok ts := by
    refine merge_brackets_fixed ts ?_
    intro s hs
    rcases isBrkTok_shape (h s hs) with ⟨b, d, hb, _, rfl⟩ | ⟨b, d, hb, _, rfl⟩ <;>
      refine ⟨by simp, by simp, by simp, by simp⟩ <;> intro hEq <;> simp at hEq
  refine ⟨h1, h2, ?_⟩
  rw [h1]
  simpa [Except.bind] using h2

/-- Witness for `C7_amended` at the concrete token sequence `<0* \0 /0`. -/
theorem C7_witness :
    merge_brackets (([['<', '0', '*'], ['\\', '0'], ['/', '0']] : List PyStr).flatten.map
        (fun c => [c]))
      = .ok [['<', '0', '*'], ['\\', '0'], ['/', '0']] ∧
    merge_brackets [['<', '0', '*'], ['\\', '0'], ['/', '0']]
      = .ok [['<', '0', '*'], ['\\', '0'], ['/', '0']] ∧
    (merge_brackets (([['<', '0', '*'], ['\\', '0'], ['/', '0']] : List PyStr).flatten.map
        (fun c => [c]))).bind merge_brackets
      = merge_brackets (([['<', '0', '*'], ['\\', '0'], ['/', '0']] : List PyStr).flatten.map
        (fun c => [c])) :=
  C7_amended [['<', '0', '*'], ['\\', '0'], ['/', '0']] (by decide)

/-- **C7, counterexample.**  Bracket-token merge is *not* idempotent on every
raw character sequence: on the raw sequence `/00` one application yields the
tokens `["/0", "0"]`, and a second application fuses the dangling digit
again, yielding `["/00"]`. -/
theorem C7_counterexample :
    merge_brackets (['/', '0', '0'].map (fun c => [c])) = .ok [['/', '0'], ['0']] ∧
    merge_brackets [['/', '0'], ['0']] = .ok [['/', '0', '0']] ∧
    ([['/', '0'], ['0']] : List PyStr) ≠ [['/', '0', '0']] :=
  ⟨rfl, rfl, by decide⟩

/-- **C3, counterexample.**  `decode` is *not* total over every finite label
sequence with arbitrary payloads: the one-row sequence whose payload is the
single character `*` makes `_merge_brackets` read `brks[-2]` of a length-one
list, a Python `IndexError`, so `decode` raises on a nonzero-length input. -/
theorem C3_counterexample :
    ltStar.rows.length = 1 ∧ decode ltStar = .error .indexError :=
  ⟨rfl, rfl⟩

/-- **C4, counterexample.**  When the resolving token carries the fused `*`
flag and the stack is empty, the decoder does *not* continue: after
assigning head 0 it executes `stack.pop()` on the empty stack, a Python
`IndexError`, so `decode` raises on the one-row payload `>0*`. -/
theorem C4_counterexample :
    rowBrks '0' .l2r ['>', '0', '*'] = .ok [['>', '0', '*']] ∧
    decode ltStarPeek = .error .indexError :=
  ⟨rfl, rfl⟩

/-- **C4, amended.**  With an empty stack and a fragment token containing the
resolving marker (and not the opening one): if the token does not carry `*`,
the decoder assigns head 0 and continues; if it does carry `*`, the head
assignment still happens but the empty-stack pop then raises `IndexError`. -/
theorem C4_amended (sApp sPk : PyStr) (cur : Nat) (t : DTree) (tok : PyStr)
    (hpk : hasSub sPk tok = true) (happ : hasSub sApp tok = false) :
    ('*' ∉ tok → procToken sApp sPk cur [] t tok = .ok ([], t.update_head cur 0)) ∧
    ('*' ∈ tok → procToken sApp sPk cur [] t tok = .error .indexError) := by
  refine ⟨fun hs => ?_, fun hs => ?_⟩ <;> simp [procToken, hpk, happ, hs]

/-- Witness for `C4_amended` at the concrete unmatched token `>0`. -/
theorem C4_witness :
    procToken ['/', '0'] ['>', '0'] 3 [] ⟨["w"], ["PT"], ["rel"], [none]⟩ ['>', '0']
      = .ok ([], DTree.update_head ⟨["w"], ["PT"], ["rel"], [none]⟩ 3 0) :=
  (C4_amended ['/', '0'] ['>', '0'] 3 ⟨["w"], ["PT"], ["rel"], [none]⟩ ['>', '0']
    rfl rfl).1 (by decide)

/-- **C2, counterexample.**  `decode` does *not* discard the virtual root
sentinel before returning (the `remove_dummy()` call is commented out): on a
one-row input the returned tree is exactly the four-pass result, which
differs from its sentinel-discarded form. -/
theorem C2_counterexample :
    decodePasses ltNone pass_order = .ok ⟨["w"], ["PT"], ["rel"], [none]⟩ ∧
    decode ltNone = .ok ⟨["w"], ["PT"], ["rel"], [none]⟩ ∧
    remove_dummy ⟨["w"], ["PT"], ["rel"], [none]⟩ ≠ ⟨["w"], ["PT"], ["rel"], [none]⟩ :=
  ⟨rfl, rfl, by decide⟩

/-- **C9, counterexample.**  The four decode passes can *not* be permuted
freely: on a payload carrying the resolving markers of two different pass
configurations (`>0<0`), the source order assigns head 1 to node 0 while the
order with the two plane-0 passes swapped assigns head 0. -/
theorem C9_counterexample :
    permOrder.Perm pass_order ∧
    decodePasses ltTwoMarks pass_order
      = .ok ⟨["a", "b"], ["PT", "PT"], ["rel", "rel"], [some 1, none]⟩ ∧
    decodePasses ltTwoMarks permOrder
      = .ok ⟨["a", "b"], ["PT", "PT"], ["rel", "rel"], [some 0, none]⟩ ∧
    (some 1 : Option Nat) ≠ some 0 :=
  ⟨by decide, rfl, rfl, by decide⟩

/-- **C5, counterexample.**  In an `l2r` pass the tokens are processed in
fragment order, so a fragment listing the opening token before the resolving
token (`/0>0`) pushes first and then resolves: node 1 receives head 1 (its
own id, the value pushed a moment earlier), not the head 0 that
resolve-before-push from the incoming stack `[0]` would give. -/
theorem C5_counterexample :
    rowBrks '0' .l2r ['/', '0', '>', '0'] = .ok [['/', '0'], ['>', '0']] ∧
    hasSub (s_peek_brk '0' .l2r) ['>', '0'] = true ∧
    hasSub (s_append_brk '0' .l2r) ['/', '0'] = true ∧
    rowWrite '0' .l2r 0 (mkRow "a" ['/', '0']) [] = .ok ([0], ⟨"a", "PT", "rel", none⟩) ∧
    tokenWrite ['/', '0'] ['>', '0'] 1 [['/', '0'], ['>', '0']] [0] none
      = .ok ([1, 0], some 1) ∧
    tokenWrite ['/', '0'] ['>', '0'] 1 [['>', '0'], ['/', '0']] [0] none
      = .ok ([1, 0], some 0) ∧
    decode ltOpenFirst = .ok ⟨["a", "b"], ["PT", "PT"], ["rel", "rel"], [none, some 1]⟩ ∧
    (some 1 : Option Nat) ≠ some 0 :=
  ⟨rfl, rfl, rfl, rfl, rfl, rfl, rfl, by decide⟩


/-- Two head updates at the same node collapse to the last. -/
theorem applyOptHead_update (cur : Nat) (acc : Option Nat) (t : DTree) (v : Nat) :
    (applyOptHead cur acc t).update_head cur v = applyOptHead cur (some v) t := by
  cases acc with
  | none => rfl
  | some a => simp [applyOptHead, DTree.update_head, List.set_set]

/-- The token loop is the pure `tokenWrite` log applied to the tree. -/
theorem procTokens_eq_tokenWrite (sApp sPk : PyStr) (cur : Nat) :
    ∀ (toks : List PyStr) (st : List Nat) (acc : Option Nat) (t : DTree),
      procTokens sApp sPk cur toks st (applyOptHead cur acc t)
        = (tokenWrite sApp sPk cur toks st acc).map
            (fun r => (r.1, applyOptHead cur r.2 t)) := by
  intro toks
  induction toks with
  | nil => intro st acc t; rfl
  | cons tok toks ih =>
      intro st acc t
      simp only [procTokens, tokenWrite, procToken]
      by_cases hpk : hasSub sPk tok = true
      · simp only [hpk, if_true]
        by_cases hstar : '*' ∈ tok
        · simp only [hstar, if_true]
          cases hst1 : (if hasSub sApp tok = true then cur :: st else st) with
          | nil => rfl
          | cons x st' =>
              simp only [applyOptHead_update, except_bind_ok]
              exact ih st' (some _) t
        · simp only [hstar, if_false, applyOptHead_update, except_bind_ok]
          exact ih _ (some _) t
      · simp only [hpk, if_false, except_bind_ok]
        exact ih _ acc t

/-- One row of a pass is its pure write log applied to the tree. -/
theorem procRow_eq_rowWrite {p : Char} {dir : Dir} {cur : Nat} {row : LinRow}
    {st : List Nat} {t : DTree} :
    procRow p dir cur row st t
      = (rowWrite p dir cur row st).map (fun r => (r.1, applyRowWrite t cur r.2)) := by
  unfold procRow rowWrite
  dsimp only
  cases hb : rowBrks p dir row.label.xi with
  | error e => rfl
  | ok bs =>
      simp only [except_bind_ok]
      have := procTokens_eq_tokenWrite (s_append_brk p dir)
        (s_peek_brk p dir) cur bs st none
        (((t.update_word cur row.word).update_upos cur row.postag).update_relation
          cur row.label.li)
      rw [show applyOptHead cur none
          (((t.update_word cur row.word).update_upos cur row.postag).update_relation
            cur row.label.li)
        = ((t.update_word cur row.word).update_upos cur row.postag).update_relation
            cur row.label.li from rfl] at this
      rw [this]
      cases tokenWrite (s_append_brk p dir) (s_peek_brk p dir) cur bs st none with
      | error e => rfl
      | ok r => rfl

/-- A pass is its pure write log applied to the tree. -/
theorem decodingAux_eq_passWrites {p : Char} {dir : Dir} :
    ∀ (rows : List (Nat × LinRow)) (st : List Nat) (t : DTree),
      decodingAux p dir rows st t
        = (passWrites p dir rows st).map (fun ws => applyWrites ws t) := by
  intro rows
  induction rows with
  | nil => intro st t; rfl
  | cons r rest ih =>
      intro st t
      obtain ⟨cur, row⟩ := r
      simp only [decodingAux, passWrites]
      rw [procRow_eq_rowWrite]
      cases hb : rowWrite p dir cur row st with
      | error e => rfl
      | ok r' =>
          simp only [Except.map, except_bind_ok]
          rw [ih r'.1 (applyRowWrite t cur r'.2)]
          cases passWrites p dir rest r'.1 with
          | error e => rfl
          | ok ws => simp [Except.map, applyWrites]

/-- A decoding pass in terms of its write log. -/
theorem decoding_step_eq_passLog (lt : LinearizedTree) (t : DTree) (cfg : Char × Dir) :
    decoding_step lt t cfg.1 cfg.2 = (passLog lt cfg).map (fun ws => applyWrites ws t) :=
  decodingAux_eq_passWrites (passRows lt cfg.2) [] t

/-- Applying a write log only changes the heads column through `headsFold`. -/
theorem applyWrites_heads :
    ∀ (ws : List (Nat × RowWrite)) (t : DTree),
      (applyWrites ws t).heads = headsFold ws t.heads := by
  intro ws
  induction ws with
  | nil => intro t; rfl
  | cons x ws ih =>
      intro t
      simp only [applyWrites, List.foldl_cons, headsFold]
      rw [show (List.foldl (fun t x => applyRowWrite t x.1 x.2)
          (applyRowWrite t x.1 x.2) ws) = applyWrites ws (applyRowWrite t x.1 x.2)
        from rfl]
      rw [ih]
      congr 1
      cases hx : x.2.h with
      | none =>
          simp [applyRowWrite, hx, DTree.update_word, DTree.update_upos,
            DTree.update_relation]
      | some v =>
          simp [applyRowWrite, hx, DTree.update_word, DTree.update_upos,
            DTree.update_relation, DTree.update_head]

/-- `tokenWrite` can only raise `IndexError`. -/
theorem tokenWrite_error {sApp sPk : PyStr} {cur : Nat} :
    ∀ {toks : List PyStr} {st : List Nat} {acc : Option Nat} {e : PyError},
      tokenWrite sApp sPk cur toks st acc = .error e → e = .indexError := by
  intro toks
  induction toks with
  | nil => intro st acc e h; cases h
  | cons tok toks ih =>
      intro st acc e h
      simp only [tokenWrite] at h
      split at h
      · split at h
        · split at h
          · cases h; rfl
          · exact ih h
        · exact ih h
      · exact ih h

/-- A pass write log can only raise `IndexError`. -/
theorem passWrites_error {p : Char} {dir : Dir} :
    ∀ {rows : List (Nat × LinRow)} {st : List Nat} {e : PyError},
      passWrites p dir rows st = .error e → e = .indexError := by
  intro rows
  induction rows with
  | nil => intro st e h; cases h
  | cons r rest ih =>
      intro st e h
      obtain ⟨cur, row⟩ := r
      simp only [passWrites] at h
      cases hb : rowWrite p dir cur row st with
      | error e' =>
          rw [hb] at h
          simp only [except_bind_error] at h
          cases h
          unfold rowWrite at hb
          dsimp only at hb
          cases hrb : rowBrks p dir row.label.xi with
          | error e'' =>
              rw [hrb] at hb
              simp only [except_bind_error] at hb
              cases hb
              exact rowBrks_error hrb
          | ok bs =>
              rw [hrb] at hb
              simp only [except_bind_ok] at hb
              cases htw : tokenWrite (s_append_brk p dir) (s_peek_brk p dir) cur bs st none with
              | error e'' =>
                  rw [htw] at hb
                  simp only [except_bind_error] at hb
                  cases hb
                  exact tokenWrite_error htw
              | ok r' => rw [htw] at hb; simp only [except_bind_ok] at hb; cases hb
      | ok r' =>
          rw [hb] at h
          simp only [except_bind_ok] at h
          cases hws : passWrites p dir rest r'.1 with
          | error e' =>
              rw [hws] at h
              simp only [except_bind_error] at h
              cases h
              exact ih hws
          | ok ws => rw [hws] at h; simp only [except_bind_ok] at h; cases h

/-- A head value can only be recorded when some token carries the resolving
marker. -/
theorem tokenWrite_some_peek {sApp sPk : PyStr} {cur : Nat} :
    ∀ {toks : List PyStr} {st : List Nat} {acc : Option Nat} {st' : List Nat}
      {h : Option Nat},
      tokenWrite sApp sPk cur toks st acc = .ok (st', h) →
      h = acc ∨ ∃ tok ∈ toks, hasSub sPk tok = true := by
  intro toks
  induction toks with
  | nil => intro st acc st' h hA; cases hA; exact Or.inl rfl
  | cons tok toks ih =>
      intro st acc st' h hA
      simp only [tokenWrite] at hA
      split at hA
      · split at hA
        · split at hA
          · cases hA
          · exact Or.inr ⟨tok, List.mem_cons_self _ _, by assumption⟩
        · exact Or.inr ⟨tok, List.mem_cons_self _ _, by assumption⟩
      · rcases ih hA with h1 | ⟨tok', htok', hsub⟩
        · exact Or.inl h1
        · exact Or.inr ⟨tok', List.mem_cons_of_mem _ htok', hsub⟩

/-- A head write in a pass log marks a row that carries the pass's resolving
marker. -/
theorem passWrites_head_peek {p : Char} {dir : Dir} :
    ∀ {rows : List (Nat × LinRow)} {st : List Nat} {ws : List (Nat × RowWrite)},
      passWrites p dir rows st = .ok ws →
      ∀ x ∈ ws, x.2.h.isSome = true →
        ∃ row, (x.1, row) ∈ rows ∧ rowPeekB (p, dir) row = true := by
  intro rows
  induction rows with
  | nil => intro st ws h x hx _; cases h; simp at hx
  | cons r rest ih =>
      intro st ws h x hx hsome
      obtain ⟨cur, row⟩ := r
      simp only [passWrites] at h
      cases hb : rowWrite p dir cur row st with
      | error e => rw [hb] at h; cases h
      | ok r' =>
          rw [hb] at h
          simp only [except_bind_ok] at h
          cases hws : passWrites p dir rest r'.1 with
          | error e => rw [hws] at h; cases h
          | ok ws' =>
              rw [hws] at h
              simp only [except_bind_ok] at h
              cases h
              rcases List.mem_cons.mp hx with rfl | hx
              · refine ⟨row, List.mem_cons_self _ _, ?_⟩
                unfold rowWrite at hb
                dsimp only at hb
                cases hrb : rowBrks p dir row.label.xi with
                | error e => rw [hrb] at hb; cases hb
                | ok bs =>
                    rw [hrb] at hb
                    simp only [except_bind_ok] at hb
                    cases htw : tokenWrite (s_append_brk p dir) (s_peek_brk p dir)
                        cur bs st none with
                    | error e => rw [htw] at hb; cases hb
                    | ok rw' =>
                        rw [htw] at hb
                        simp only [except_bind_ok] at hb
                        cases hb
                        obtain ⟨st2, h2⟩ := rw'
                        rcases tokenWrite_some_peek htw with rfl | ⟨tok, htok, hsub⟩
                        · simp at hsome
                        · unfold rowPeekB
                          rw [hrb]
                          simp only [List.any_eq_true]
                          exact ⟨tok, htok, hsub⟩
              · obtain ⟨row', hrow', hpk⟩ := ih hws x hx hsome
                exact ⟨row', List.mem_cons_of_mem _ hrow', hpk⟩

/-- `headsFold` commutes with a `set` at an index the log never writes. -/
theorem headsFold_set_comm :
    ∀ {ws : List (Nat × RowWrite)} {l : List (Option Nat)} {i : Nat} {v : Option Nat},
      (∀ x ∈ ws, x.2.h.isSome = true → x.1 ≠ i) →
      headsFold ws (l.set i v) = (headsFold ws l).set i v := by
  intro ws
  induction ws with
  | nil => intro l i v _; rfl
  | cons x ws ih =>
      intro l i v hni
      simp only [headsFold, List.foldl_cons]
      cases hx : x.2.h with
      | none =>
          exact ih (fun y hy => hni y (List.mem_cons_of_mem _ hy))
      | some u =>
          have hne : x.1 ≠ i := hni x (List.mem_cons_self _ _) (by simp [hx])
          dsimp only
          rw [List.set_comm _ _ _ (fun hEq => hne hEq.symm)]
          exact ih (fun y hy => hni y (List.mem_cons_of_mem _ hy))

/-- Two pass logs with disjoint head-write sets commute on the heads
column. -/
theorem headsFold_comm :
    ∀ {wa wb : List (Nat × RowWrite)} {l : List (Option Nat)},
      (∀ x ∈ wa, ∀ y ∈ wb, x.2.h.isSome = true → y.2.h.isSome = true → x.1 ≠ y.1) →
      headsFold wb (headsFold wa l) = headsFold wa (headsFold wb l) := by
  intro wa
  induction wa with
  | nil => intro wb l _; rfl
  | cons x wa ih =>
      intro wb l hdisj
      simp only [headsFold, List.foldl_cons]
      cases hx : x.2.h with
      | none =>
          exact ih (fun x' hx' y hy => hdisj x' (List.mem_cons_of_mem _ hx') y hy)
      | some u =>
          have h1 : headsFold wb (headsFold wa (l.set x.1 (some u)))
              = headsFold wa (headsFold wb (l.set x.1 (some u))) :=
            ih (fun x' hx' y hy => hdisj x' (List.mem_cons_of_mem _ hx') y hy)
          have h2 : headsFold wb (l.set x.1 (some u))
              = (headsFold wb l).set x.1 (some u) :=
            headsFold_set_comm (fun y hy hys =>
              (hdisj x (List.mem_cons_self _ _) y hy (by simp [hx]) hys).symm)
          dsimp only
          show headsFold wb (headsFold wa (l.set x.1 (some u)))
            = headsFold wa ((headsFold wb l).set x.1 (some u))
          rw [h1, h2]

/-- Fold of pairwise-commuting `Except` steps is permutation-invariant. -/
theorem foldlM_perm_of_comm {β α : Type} (f : β → α → Except PyError β) :
    ∀ {l1 l2 : List α}, l1.Perm l2 →
      (∀ x ∈ l1, ∀ y ∈ l1, ∀ b,
        (f b x >>= fun b' => f b' y) = (f b y >>= fun b' => f b' x)) →
      ∀ b, l1.foldlM f b = l2.foldlM f b := by
  intro l1 l2 hperm
  induction hperm with
  | nil => intro _ b; rfl
  | cons x p ih =>
      intro hcomm b
      simp only [List.foldlM_cons]
      cases hfx : f b x with
      | error e => rfl
      | ok b' =>
          simp only [except_bind_ok]
          exact ih (fun a ha c hc => hcomm a (List.mem_cons_of_mem _ ha) c
            (List.mem_cons_of_mem _ hc)) b'
  | swap x y l =>
      intro hcomm b
      simp only [List.foldlM_cons]
      have hxy := hcomm y (List.mem_cons_self _ _) x
        (List.mem_cons_of_mem _ (List.mem_cons_self _ _)) b
      cases hfy : f b y with
      | error e =>
          rw [except_bind_error]
          rw [hfy, except_bind_error] at hxy
          cases hfx : f b x with
          | error e' =>
              rw [except_bind_error]
              rw [hfx, except_bind_error] at hxy
              exact hxy
          | ok bx =>
              rw [except_bind_ok]
              rw [hfx, except_bind_ok] at hxy
              rw [← hxy, except_bind_error]
      | ok by' =>
          rw [except_bind_ok]
          rw [hfy, except_bind_ok] at hxy
          cases hfx : f b x with
          | error e' =>
              rw [except_bind_error]
              rw [hfx, except_bind_error] at hxy
              rw [hxy, except_bind_error]
          | ok bx =>
              rw [except_bind_ok]
              rw [hfx, except_bind_ok] at hxy
              rw [hxy]
  | trans p1 p2 ih1 ih2 =>
      intro hcomm b
      rw [ih1 hcomm b]
      refine ih2 (fun a ha c hc => ?_) b
      exact hcomm a (p1.mem_iff.mpr ha) c (p1.mem_iff.mpr hc)

/-- The heads column of a pass sequence is computed by the pure
`headsRun`. -/
theorem decodePasses_heads (lt : LinearizedTree) (cfgs : List (Char × Dir)) :
    (decodePasses lt cfgs).map DTree.heads = headsRun lt cfgs := by
  unfold decodePasses headsRun
  cases he : empty_tree lt.rows.length with
  | error e => rfl
  | ok t0 =>
      simp only [except_bind_ok]
      have hgen : ∀ (cs : List (Char × Dir)) (t : DTree),
          (cs.foldlM (fun t cfg => decoding_step lt t cfg.1 cfg.2) t).map DTree.heads
            = cs.foldlM (fun hs c => (passLog lt c).map (fun ws => headsFold ws hs))
                t.heads := by
        intro cs
        induction cs with
        | nil => intro t; rfl
        | cons c cs ih =>
            intro t
            simp only [List.foldlM_cons]
            rw [decoding_step_eq_passLog lt t c]
            cases hl : passLog lt c with
            | error e => rw [except_map_error, except_bind_error, except_map_error,
                except_map_error, except_bind_error]
            | ok ws =>
                rw [except_map_ok, except_bind_ok, except_map_ok, except_bind_ok,
                  ih (applyWrites ws t), applyWrites_heads]
      exact hgen cfgs t0

/-- Two distinct satisfying members force a filtered length above one. -/
theorem two_mem_filter_length {α : Type} {pkeep : α → Bool} {l : List α} {c1 c2 : α}
    (h1 : c1 ∈ l) (h2 : c2 ∈ l) (hne : c1 ≠ c2)
    (hp1 : pkeep c1 = true) (hp2 : pkeep c2 = true) :
    ¬ (l.filter pkeep).length ≤ 1 := by
  intro hlen
  have hm1 : c1 ∈ l.filter pkeep := List.mem_filter.mpr ⟨h1, hp1⟩
  have hm2 : c2 ∈ l.filter pkeep := List.mem_filter.mpr ⟨h2, hp2⟩
  cases hf : l.filter pkeep with
  | nil => rw [hf] at hm1; simp at hm1
  | cons x xs =>
      cases xs with
      | nil =>
          rw [hf] at hm1 hm2
          simp only [List.mem_singleton] at hm1 hm2
          exact hne (hm1.trans hm2.symm)
      | cons y ys => rw [hf] at hlen; simp at hlen


/-- A pass visit-list entry is an entry of the row enumeration. -/
theorem passRows_mem_enum {lt : LinearizedTree} {dir : Dir} {i : Nat} {row : LinRow}
    (h : (i, row) ∈ passRows lt dir) : (i, row) ∈ lt.rows.enum := by
  cases dir with
  | l2r => exact h
  | r2l => exact List.mem_reverse.mp h

/-- **C9, amended.**  When no row's merged token list carries the resolving
markers of two different pass configurations, running the four decode passes
in any permutation of the source order yields identical head assignments:
each pass writes heads only at rows carrying its own resolving marker, so
the four head-write index sets are pairwise disjoint and the per-pass head
updates commute (pass failures are order-independent as well, as every pass
failure is the same `IndexError`). -/
theorem C9_amended (lt : LinearizedTree)
    (H : ∀ row ∈ lt.rows, (pass_order.filter (fun c => rowPeekB c row)).length ≤ 1) :
    ∀ cfgs : List (Char × Dir), cfgs.Perm pass_order →
      (decodePasses lt cfgs).map DTree.heads
        = (decodePasses lt pass_order).map DTree.heads := by
  intro cfgs hperm
  rw [decodePasses_heads, decodePasses_heads]
  unfold headsRun
  cases he : empty_tree lt.rows.length with
  | error e => rfl
  | ok t0 =>
      simp only [except_bind_ok]
      refine foldlM_perm_of_comm _ hperm ?_ t0.heads
      intro x hx y hy b
      by_cases hxyeq : x = y
      · rw [hxyeq]
      · show ((passLog lt x).map (fun ws => headsFold ws b) >>= fun b' =>
            (passLog lt y).map (fun ws => headsFold ws b'))
          = ((passLog lt y).map (fun ws => headsFold ws b) >>= fun b' =>
            (passLog lt x).map (fun ws => headsFold ws b'))
        have hxp : x ∈ pass_order := hperm.subset hx
        have hyp : y ∈ pass_order := hperm.subset hy
        cases hlx : passLog lt x with
        | error ex =>
            have hex : ex = .indexError := passWrites_error hlx
            cases hly : passLog lt y with
            | error ey =>
                have hey : ey = .indexError := passWrites_error hly
                rw [except_map_error, except_bind_error, except_map_error,
                  except_bind_error, hex, hey]
            | ok wy =>
                rw [except_map_error, except_bind_error, except_map_ok,
                  except_bind_ok, except_map_error]
        | ok wx =>
            cases hly : passLog lt y with
            | error ey =>
                rw [except_map_ok, except_bind_ok, except_map_error,
                  except_map_error, except_bind_error]
            | ok wy =>
                rw [except_map_ok, except_bind_ok, except_map_ok, except_map_ok,
                  except_bind_ok, except_map_ok]
                have hdisj : ∀ a ∈ wx, ∀ c ∈ wy,
                    a.2.h.isSome = true → c.2.h.isSome = true → a.1 ≠ c.1 := by
                  intro a ha c hc has hcs hEq
                  obtain ⟨rowa, hrowa, hpka⟩ := passWrites_head_peek hlx a ha has
                  obtain ⟨rowc, hrowc, hpkc⟩ := passWrites_head_peek hly c hc hcs
                  obtain ⟨hia, heqa⟩ := List.mem_enum (passRows_mem_enum hrowa)
                  obtain ⟨hic, heqc⟩ := List.mem_enum (passRows_mem_enum hrowc)
                  have hsomea : lt.rows[a.1]? = some rowa := by
                    rw [List.getElem?_eq_getElem hia, heqa]
                  have hsomec : lt.rows[c.1]? = some rowc := by
                    rw [List.getElem?_eq_getElem hic, heqc]
                  rw [hEq] at hsomea
                  rw [hsomea] at hsomec
                  have hroweq : rowa = rowc := Option.some.inj hsomec
                  have hmem : rowc ∈ lt.rows := heqc ▸ List.getElem_mem hic
                  exact two_mem_filter_length hxp hyp hxyeq
                    (hroweq ▸ hpka) hpkc (H rowc hmem)
                rw [headsFold_comm hdisj]

/-- Witness for `C9_amended` at a concrete input with pairwise-distinct
resolving markers, under the swapped plane-0 order. -/
theorem C9_witness :
    (decodePasses ltPlain permOrder).map DTree.heads
      = (decodePasses ltPlain pass_order).map DTree.heads :=
  C9_amended ltPlain (by decide) permOrder (by decide)

theorem getD_set_self {α : Type} (l : List α) (i : Nat) (v d : α) (h : i < l.length) :
    (l.set i v).getD i d = v := by
  rw [List.getD_eq_getElem?_getD, List.getElem?_set_self h]; rfl

theorem getD_set_ne {α : Type} (l : List α) {i j : Nat} (v d : α) (h : i ≠ j) :
    (l.set i v).getD j d = l.getD j d := by
  rw [List.getD_eq_getElem?_getD, List.getElem?_set_ne h, ← List.getD_eq_getElem?_getD]

/-- A two-character needle headed by a boundary character sits inside a
token-plus-remainder concatenation either at the token's head or wholly in
the remainder: the token shapes forbid it from straddling the seam. -/
theorem infix_pair_tok_split {b d : Char} (hb0 : b ≠ '0') (hb1 : b ≠ '1') (hbs : b ≠ '*')
    {t : PyStr} (ht : isBrkTok t = true) {rest : PyStr}
    (h : [b, d] <:+: (t ++ rest)) :
    t.take 2 = [b, d] ∨ [b, d] <:+: rest := by
  obtain ⟨s, u, hsu⟩ := h
  rcases isBrkTok_shape ht with ⟨b2, d2, hb2, hd2, rfl⟩ | ⟨b2, d2, hb2, hd2, rfl⟩
  · match s, hsu with
    | [], hsu =>
        simp only [List.nil_append, List.cons_append, List.cons.injEq] at hsu
        obtain ⟨rfl, rfl, -⟩ := hsu
        exact Or.inl rfl
    | [x], hsu =>
        simp only [List.cons_append, List.nil_append, List.cons.injEq] at hsu
        obtain ⟨-, rfl, -⟩ := hsu
        rcases hd2 with h2 | h2
        · exact absurd h2 hb0
        · exact absurd h2 hb1
    | x :: y :: s2, hsu =>
        simp only [List.cons_append, List.cons.injEq] at hsu
        exact Or.inr ⟨s2, u, hsu.2.2⟩
  · match s, hsu with
    | [], hsu =>
        simp only [List.nil_append, List.cons_append, List.cons.injEq] at hsu
        obtain ⟨rfl, rfl, -⟩ := hsu
        exact Or.inl rfl
    | [x], hsu =>
        simp only [List.cons_append, List.nil_append, List.cons.injEq] at hsu
        obtain ⟨-, rfl, -⟩ := hsu
        rcases hd2 with h2 | h2
        · exact absurd h2 hb0
        · exact absurd h2 hb1
    | [x, y], hsu =>
        simp only [List.cons_append, List.nil_append, List.cons.injEq] at hsu
        obtain ⟨-, -, rfl, -⟩ := hsu
        exact absurd rfl hbs
    | x :: y :: z :: s2, hsu =>
        simp only [List.cons_append, List.cons.injEq] at hsu
        exact Or.inr ⟨s2, u, hsu.2.2.2⟩

/-- Substring presence of a boundary-headed two-character marker in the
flattening of a token list is head-of-token presence. -/
theorem flatten_hasSub_pair {b d : Char} (hb0 : b ≠ '0') (hb1 : b ≠ '1') (hbs : b ≠ '*') :
    ∀ {ts : List PyStr}, (∀ t ∈ ts, isBrkTok t = true) →
      (hasSub [b, d] ts.flatten = true ↔ ∃ t ∈ ts, t.take 2 = [b, d]) := by
  intro ts
  induction ts with
  | nil =>
      intro _
      constructor
      · intro h
        have : [b, d] <:+: ([] : PyStr) := of_decide_eq_true h
        rcases this with ⟨s, u, hsu⟩
        simp at hsu
      · rintro ⟨t, ht, -⟩
        simp at ht
  | cons t ts ih =>
      intro hall
      have ht := hall t (List.mem_cons_self _ _)
      have hts : ∀ t ∈ ts, isBrkTok t = true := fun x hx => hall x (List.mem_cons_of_mem _ hx)
      constructor
      · intro h
        have hinf : [b, d] <:+: (t ++ ts.flatten) := by
          have := of_decide_eq_true h
          simpa using this
        rcases infix_pair_tok_split hb0 hb1 hbs ht hinf with h2 | h2
        · exact ⟨t, List.mem_cons_self _ _, h2⟩
        · rcases (ih hts).mp (decide_eq_true h2) with ⟨t2, ht2, he2⟩
          exact ⟨t2, List.mem_cons_of_mem _ ht2, he2⟩
      · rintro ⟨t2, ht2, he2⟩
        rcases List.mem_cons.mp ht2 with rfl | ht2
        · apply decide_eq_true
          have hpre : [b, d] <+: t2 := he2 ▸ List.take_prefix 2 t2
          obtain ⟨v, hv⟩ := hpre
          simp only [List.flatten_cons]
          exact ⟨[], v ++ ts.flatten, by rw [← hv]; simp⟩
        · have : hasSub [b, d] ts.flatten = true := (ih hts).mpr ⟨t2, ht2, he2⟩
          apply decide_eq_true
          have h2 : [b, d] <:+: ts.flatten := of_decide_eq_true this
          simp only [List.flatten_cons]
          rcases h2 with ⟨s, u, hsu⟩
          exact ⟨t ++ s, u, by rw [← hsu]; simp [List.append_assoc]⟩



/-- Every token `planeToksAux` lists is a well-formed bracket token. -/
theorem planeToksAux_brkTok {p : Char} (hp : p = '0' ∨ p = '1')
    (Q P : List DNode) (k : Nat) :
    ∀ t ∈ planeToksAux Q P p k, isBrkTok t = true := by
  intro t ht
  unfold planeToksAux at ht
  rcases List.mem_append.mp ht with ht | ht
  · rcases List.mem_append.mp ht with ht | ht
    · split at ht
      · rcases List.mem_singleton.mp ht with rfl
        rcases hp with rfl | rfl <;> decide
      · simp at ht
    · split at ht
      · rcases List.mem_singleton.mp ht with rfl
        unfold depTok
        rcases hp with rfl | rfl <;> split <;> split <;> decide
      · simp at ht
  · split at ht
    · rcases List.mem_singleton.mp ht with rfl
      rcases hp with rfl | rfl <;> decide
    · simp at ht

/-- The head of a dependent-marker token. -/
theorem depTok_take2 (P : List DNode) (p : Char) (n : DNode) :
    (depTok P p n).take 2 = if n.is_left_arc then ['<', p] else ['>', p] := by
  unfold depTok
  split <;> split <;> rfl

/-- On a slot holding initial tokens plus the plane's canonical tokens, the
governor-marker substring tests of `encStep` read exactly the `hasLdep` /
`hasRdep` flags. -/
theorem slot_hasSub_ldep {p : Char} (hp : p = '0' ∨ p = '1') (Q P : List DNode)
    (tl0k : List PyStr) (k : Nat)
    (hin : ∀ tok ∈ tl0k, isBrkTok tok = true ∧ tok.take 2 ≠ ['\\', p] ∧
      tok.take 2 ≠ ['/', p]) :
    hasSub ['\\', p] ((tl0k ++ planeToksAux Q P p k).flatten) = hasLdep Q k := by
  have hall : ∀ t ∈ tl0k ++ planeToksAux Q P p k, isBrkTok t = true := by
    intro t ht
    rcases List.mem_append.mp ht with ht | ht
    · exact (hin t ht).1
    · exact planeToksAux_brkTok hp Q P k t ht
  apply Bool.eq_iff_iff.mpr
  rw [flatten_hasSub_pair (by decide) (by decide) (by decide) hall]
  constructor
  · rintro ⟨t, ht, he⟩
    rcases List.mem_append.mp ht with ht | ht
    · exact absurd he (hin t ht).2.1
    · unfold planeToksAux at ht
      rcases List.mem_append.mp ht with ht | ht
      · rcases List.mem_append.mp ht with ht | ht
        · split at ht
          · assumption
          · simp at ht
        · split at ht
          · rcases List.mem_singleton.mp ht with rfl
            rw [depTok_take2] at he
            split at he <;> cases he
          · simp at ht
      · split at ht
        · rcases List.mem_singleton.mp ht with rfl
          cases he
        · simp at ht
  · intro hl
    refine ⟨['\\', p], ?_, rfl⟩
    apply List.mem_append.mpr
    right
    unfold planeToksAux
    apply List.mem_append.mpr
    left
    apply List.mem_append.mpr
    left
    rw [hl]
    exact List.mem_singleton.mpr rfl

theorem slot_hasSub_rdep {p : Char} (hp : p = '0' ∨ p = '1') (Q P : List DNode)
    (tl0k : List PyStr) (k : Nat)
    (hin : ∀ tok ∈ tl0k, isBrkTok tok = true ∧ tok.take 2 ≠ ['\\', p] ∧
      tok.take 2 ≠ ['/', p]) :
    hasSub ['/', p] ((tl0k ++ planeToksAux Q P p k).flatten) = hasRdep Q k := by
  have hall : ∀ t ∈ tl0k ++ planeToksAux Q P p k, isBrkTok t = true := by
    intro t ht
    rcases List.mem_append.mp ht with ht | ht
    · exact (hin t ht).1
    · exact planeToksAux_brkTok hp Q P k t ht
  apply Bool.eq_iff_iff.mpr
  rw [flatten_hasSub_pair (by decide) (by decide) (by decide) hall]
  constructor
  · rintro ⟨t, ht, he⟩
    rcases List.mem_append.mp ht with ht | ht
    · exact absurd he (hin t ht).2.2
    · unfold planeToksAux at ht
      rcases List.mem_append.mp ht with ht | ht
      · rcases List.mem_append.mp ht with ht | ht
        · split at ht
          · rcases List.mem_singleton.mp ht with rfl
            cases he
          · simp at ht
        · split at ht
          · rcases List.mem_singleton.mp ht with rfl
            rw [depTok_take2] at he
            split at he <;> cases he
          · simp at ht
      · split at ht
        · assumption
        · simp at ht
  · intro hl
    refine ⟨['/', p], ?_, rfl⟩
    apply List.mem_append.mpr
    right
    unfold planeToksAux
    apply List.mem_append.mpr
    right
    rw [hl]
    exact List.mem_singleton.mpr rfl



/-- `hasLdep` over a snoc. -/
theorem hasLdep_snoc (Q : List DNode) (n : DNode) (k : Nat) :
    hasLdep (Q ++ [n]) k = (hasLdep Q k || (n.is_left_arc && n.head == k)) := by
  unfold hasLdep
  simp [List.any_append]

/-- `hasRdep` over a snoc. -/
theorem hasRdep_snoc (Q : List DNode) (n : DNode) (k : Nat) :
    hasRdep (Q ++ [n]) k = (hasRdep Q k || (!n.is_left_arc && n.head == k)) := by
  unfold hasRdep
  simp [List.any_append]

/-- `find?` over a snoc. -/
theorem find?_snoc (Q : List DNode) (n : DNode) (k : Nat) :
    (Q ++ [n]).find? (fun m => m.id == k)
      = (Q.find? (fun m => m.id == k)).or (if n.id == k then some n else none) := by
  rw [List.find?_append]
  congr 1
  rw [List.find?_cons]
  cases h : (n.id == k) <;> simp [h]

/-- No right-arc dependent of a governor at or below the ids seen so far. -/
theorem hasRdep_high (Q : List DNode) (n : DNode) (k : Nat)
    (hQlt : ∀ m ∈ Q, m.id < n.id) (hk : n.id ≤ k) :
    hasRdep Q k = false := by
  apply Bool.eq_false_iff.mpr
  intro hx
  rcases List.any_eq_true.mp hx with ⟨m, hm, hmp⟩
  simp only [Bool.and_eq_true, Bool.not_eq_true', beq_iff_eq] at hmp
  have h1 := hQlt m hm
  have h3 : ¬(m.id < m.head) := by
    have := hmp.1
    simp only [DNode.is_left_arc, decide_eq_false_iff_not] at this
    exact this
  omega

/-- No processed node has a given id at or above the current one. -/
theorem find?_high (Q : List DNode) (n : DNode) (k : Nat)
    (hQlt : ∀ m ∈ Q, m.id < n.id) (hk : n.id ≤ k) :
    Q.find? (fun m => m.id == k) = none := by
  rw [List.find?_eq_none]
  intro m hm
  simp only [beq_iff_eq]
  have := hQlt m hm
  omega

/-- Processing a node leaves the canonical token list of every slot other
than its own and its governor's unchanged. -/
theorem planeToksAux_snoc_other (Q P : List DNode) (p : Char) (n : DNode) (k : Nat)
    (hid : n.id ≠ k) (hhd : n.head ≠ k) :
    planeToksAux (Q ++ [n]) P p k = planeToksAux Q P p k := by
  unfold planeToksAux
  rw [hasLdep_snoc, hasRdep_snoc, find?_snoc]
  have h1 : (n.head == k) = false := beq_eq_false_iff_ne.mpr hhd
  have h2 : (n.id == k) = false := beq_eq_false_iff_ne.mpr hid
  rw [h1, h2]
  simp

/-- Processing node `n` appends its dependent marker to the canonical list
of its own slot (the slot cannot yet hold an own marker or a `/p`). -/
theorem planeToksAux_snoc_dep (Q P : List DNode) (p : Char) (n : DNode)
    (hQlt : ∀ m ∈ Q, m.id < n.id) (hne : n.head ≠ n.id) :
    planeToksAux (Q ++ [n]) P p n.id = planeToksAux Q P p n.id ++ [depTok P p n] := by
  have hfind := find?_high Q n n.id hQlt (Nat.le_refl _)
  have hRd := hasRdep_high Q n n.id hQlt (Nat.le_refl _)
  unfold planeToksAux
  rw [hasLdep_snoc, hasRdep_snoc, find?_snoc, hfind, hRd]
  have h1 : (n.head == n.id) = false := beq_eq_false_iff_ne.mpr hne
  have h2 : (n.id == n.id) = true := beq_self_eq_true n.id
  rw [h1, h2]
  simp

/-- Processing a left-arc node whose governor already carries `\p` leaves
the governor's canonical list unchanged. -/
theorem planeToksAux_snoc_gov_left_pres (Q P : List DNode) (p : Char) (n : DNode)
    (hl : n.is_left_arc = true) (hLd : hasLdep Q n.head = true) (hne : n.head ≠ n.id) :
    planeToksAux (Q ++ [n]) P p n.head = planeToksAux Q P p n.head := by
  unfold planeToksAux
  rw [hasLdep_snoc, hasRdep_snoc, find?_snoc, hLd, hl]
  have h2 : (n.id == n.head) = false := beq_eq_false_iff_ne.mpr (Ne.symm hne)
  rw [h2]
  simp

/-- Processing the first left-arc dependent of a governor: the governor's
slot is canonically empty before and holds exactly the bare `\p` after. -/
theorem planeToksAux_snoc_gov_left_new (Q P : List DNode) (p : Char) (n : DNode)
    (hl : n.is_left_arc = true) (hLd : hasLdep Q n.head = false)
    (hQlt : ∀ m ∈ Q, m.id < n.id) :
    planeToksAux Q P p n.head = [] ∧
    planeToksAux (Q ++ [n]) P p n.head = [['\\', p]] := by
  have hlt : n.id < n.head := by
    have := hl
    simp only [DNode.is_left_arc, decide_eq_true_eq] at this
    exact this
  have hfind := find?_high Q n n.head hQlt (Nat.le_of_lt hlt)
  have hRd := hasRdep_high Q n n.head hQlt (Nat.le_of_lt hlt)
  constructor
  · unfold planeToksAux
    rw [hfind, hLd, hRd]
    simp
  · unfold planeToksAux
    rw [hasLdep_snoc, hasRdep_snoc, find?_snoc, hfind, hLd, hRd, hl]
    have h2 : (n.id == n.head) = false := beq_eq_false_iff_ne.mpr (Nat.ne_of_lt hlt)
    have h3 : (n.head == n.head) = true := beq_self_eq_true n.head
    rw [h2, h3]
    simp

/-- Processing a right-arc node whose governor already carries `/p` leaves
the governor's canonical list unchanged. -/
theorem planeToksAux_snoc_gov_right_pres (Q P : List DNode) (p : Char) (n : DNode)
    (hr : n.is_left_arc = false) (hRd : hasRdep Q n.head = true) (hne : n.head ≠ n.id) :
    planeToksAux (Q ++ [n]) P p n.head = planeToksAux Q P p n.head := by
  unfold planeToksAux
  rw [hasLdep_snoc, hasRdep_snoc, find?_snoc, hRd, hr]
  have h2 : (n.id == n.head) = false := beq_eq_false_iff_ne.mpr (Ne.symm hne)
  rw [h2]
  simp

/-- Processing the first right-arc dependent of a governor appends the bare
`/p` marker at the end of the governor's canonical list. -/
theorem planeToksAux_snoc_gov_right_new (Q P : List DNode) (p : Char) (n : DNode)
    (hr : n.is_left_arc = false) (hRd : hasRdep Q n.head = false) (hne : n.head ≠ n.id) :
    planeToksAux (Q ++ [n]) P p n.head = planeToksAux Q P p n.head ++ [['/', p]] := by
  unfold planeToksAux
  rw [hasLdep_snoc, hasRdep_snoc, find?_snoc, hRd, hr]
  have h2 : (n.id == n.head) = false := beq_eq_false_iff_ne.mpr (Ne.symm hne)
  have h3 : (n.head == n.head) = true := beq_self_eq_true n.head
  rw [h2, h3]
  simp



/-- One step of the encoding fold preserves the canonical-slot invariant:
after processing node `n` every slot holds its initial tokens followed by
the canonical tokens of the processed prefix. -/
theorem encStep_spec {p : Char} (hp : p = '0' ∨ p = '1') {P Q R2 : List DNode} {n : DNode}
    (hP : P = Q ++ n :: R2)
    (hasc : P.Pairwise (fun a b => a.id < b.id))
    {N : Nat}
    (hrange : ∀ m ∈ P, m.id ≠ 0 ∧ m.id < N ∧ m.head < N ∧ m.head ≠ m.id)
    {tl0 : List (List PyStr)}
    (hinit : ∀ k, ∀ tok ∈ tl0.getD k [], isBrkTok tok = true ∧
      tok.take 2 ≠ ['\\', p] ∧ tok.take 2 ≠ ['/', p])
    {lb : List PyStr} (hlen : lb.length = N)
    (hslots : ∀ k, lb.getD k [] = (tl0.getD k [] ++ planeToksAux Q P p k).flatten) :
    (encStep P ['<', p] ['\\', p] ['>', p] ['/', p] lb n).length = N ∧
    ∀ k, (encStep P ['<', p] ['\\', p] ['>', p] ['/', p] lb n).getD k []
      = (tl0.getD k [] ++ planeToksAux (Q ++ [n]) P p k).flatten := by
  have hnP : n ∈ P := by
    rw [hP]
    exact List.mem_append_right _ (List.mem_cons_self _ _)
  obtain ⟨hn0, hidN, hhdN, hnei⟩ := hrange n hnP
  have hQlt : ∀ m ∈ Q, m.id < n.id := by
    rw [hP] at hasc
    have h2 := (List.pairwise_append.mp hasc).2.2
    intro m hm
    exact h2 m hm n (List.mem_cons_self _ _)
  have hneid : n.id ≠ n.head := Ne.symm hnei
  unfold encStep
  rw [if_neg hn0]
  by_cases hl : n.is_left_arc = true
  · rw [if_pos hl]
    dsimp only
    rw [getD_set_ne _ _ _ hneid, hslots n.head,
      slot_hasSub_ldep hp Q P _ n.head (hinit n.head)]
    constructor
    · rw [List.length_set, List.length_set, hlen]
    intro k
    by_cases hkh : k = n.head
    · subst hkh
      rw [getD_set_self _ _ _ _ (by rw [List.length_set, hlen]; exact hhdN)]
      cases hLd : hasLdep Q n.head with
      | true =>
          rw [planeToksAux_snoc_gov_left_pres Q P p n hl hLd hnei]
          simp
      | false =>
          obtain ⟨hq0, hq1⟩ := planeToksAux_snoc_gov_left_new Q P p n hl hLd hQlt
          rw [hq0, hq1]
          simp
    · by_cases hki : k = n.id
      · subst hki
        rw [getD_set_ne _ _ _ (fun h => hkh h.symm),
          getD_set_self _ _ _ _ (by rw [hlen]; exact hidN),
          hslots n.id, planeToksAux_snoc_dep Q P p n hQlt hnei]
        simp [depTok, hl, List.flatten_append, List.append_assoc]
      · rw [getD_set_ne _ _ _ (fun h => hkh h.symm),
          getD_set_ne _ _ _ (fun h => hki h.symm),
          hslots k, planeToksAux_snoc_other Q P p n k
            (fun h => hki h.symm) (fun h => hkh h.symm)]
  · have hr : n.is_left_arc = false := Bool.eq_false_iff.mpr hl
    rw [if_neg hl]
    dsimp only
    rw [getD_set_ne _ _ _ hneid, hslots n.head,
      slot_hasSub_rdep hp Q P _ n.head (hinit n.head)]
    constructor
    · rw [List.length_set, List.length_set, hlen]
    intro k
    by_cases hkh : k = n.head
    · subst hkh
      rw [getD_set_self _ _ _ _ (by rw [List.length_set, hlen]; exact hhdN)]
      cases hRd : hasRdep Q n.head with
      | true =>
          rw [planeToksAux_snoc_gov_right_pres Q P p n hr hRd hnei]
          simp
      | false =>
          rw [planeToksAux_snoc_gov_right_new Q P p n hr hRd hnei]
          simp [List.flatten_append]
    · by_cases hki : k = n.id
      · subst hki
        rw [getD_set_ne _ _ _ (fun h => hkh h.symm),
          getD_set_self _ _ _ _ (by rw [hlen]; exact hidN),
          hslots n.id, planeToksAux_snoc_dep Q P p n hQlt hnei]
        simp [depTok, hr, List.flatten_append, List.append_assoc]
      · rw [getD_set_ne _ _ _ (fun h => hkh h.symm),
          getD_set_ne _ _ _ (fun h => hki h.symm),
          hslots k, planeToksAux_snoc_other Q P p n k
            (fun h => hki h.symm) (fun h => hkh h.symm)]



/-- The encoding fold keeps every slot at its initial tokens plus the
canonical tokens of the processed prefix. -/
theorem encStep_fold_inv {p : Char} (hp : p = '0' ∨ p = '1') {P : List DNode}
    {N : Nat} (hasc : P.Pairwise (fun a b => a.id < b.id))
    (hrange : ∀ m ∈ P, m.id ≠ 0 ∧ m.id < N ∧ m.head < N ∧ m.head ≠ m.id)
    {tl0 : List (List PyStr)}
    (hinit : ∀ k, ∀ tok ∈ tl0.getD k [], isBrkTok tok = true ∧
      tok.take 2 ≠ ['\\', p] ∧ tok.take 2 ≠ ['/', p]) :
    ∀ (R Q : List DNode) (lb : List PyStr),
      P = Q ++ R →
      lb.length = N →
      (∀ k, lb.getD k [] = (tl0.getD k [] ++ planeToksAux Q P p k).flatten) →
      (R.foldl (encStep P ['<', p] ['\\', p] ['>', p] ['/', p]) lb).length = N ∧
      ∀ k, (R.foldl (encStep P ['<', p] ['\\', p] ['>', p] ['/', p]) lb).getD k []
        = (tl0.getD k [] ++ planeToksAux (Q ++ R) P p k).flatten := by
  intro R
  induction R with
  | nil =>
      intro Q lb hPQ hlen hslots
      simp only [List.foldl_nil, List.append_nil]
      exact ⟨hlen, hslots⟩
  | cons n R2 ih =>
      intro Q lb hPQ hlen hslots
      have hstep := encStep_spec hp hPQ hasc hrange hinit hlen hslots
      have h2 := ih (Q ++ [n]) _ (by rw [hPQ]; simp) hstep.1 hstep.2
      rw [List.foldl_cons]
      refine ⟨h2.1, fun k => ?_⟩
      have h3 := h2.2 k
      rwa [List.append_assoc, List.singleton_append] at h3

/-- `encoding_step` run over token-structured fragments: the result keeps
the length and appends exactly the plane's canonical tokens to every slot. -/
theorem encoding_step_spec {p : Char} (hp : p = '0' ∨ p = '1') {P : List DNode}
    {N : Nat} (hasc : P.Pairwise (fun a b => a.id < b.id))
    (hrange : ∀ m ∈ P, m.id ≠ 0 ∧ m.id < N ∧ m.head < N ∧ m.head ≠ m.id)
    {tl0 : List (List PyStr)} (hN : tl0.length = N)
    (hinit : ∀ k, ∀ tok ∈ tl0.getD k [], isBrkTok tok = true ∧
      tok.take 2 ≠ ['\\', p] ∧ tok.take 2 ≠ ['/', p]) :
    (encoding_step P (tl0.map List.flatten) ['<', p] ['\\', p] ['>', p] ['/', p]).length
      = N ∧
    ∀ k, (encoding_step P (tl0.map List.flatten)
        ['<', p] ['\\', p] ['>', p] ['/', p]).getD k []
      = (tl0.getD k [] ++ planeToks P p k).flatten := by
  have h0 : ∀ k, (tl0.map List.flatten).getD k []
      = (tl0.getD k [] ++ planeToksAux [] P p k).flatten := by
    intro k
    have he : planeToksAux [] P p k = [] := rfl
    rw [he, List.append_nil]
    have hm := List.getD_map tl0 [] (n := k) List.flatten
    simpa using hm
  have h := encStep_fold_inv hp hasc hrange hinit P [] (tl0.map List.flatten)
    (by simp) (by simp [hN]) h0
  unfold encoding_step
  refine ⟨h.1, fun k => ?_⟩
  have h3 := h.2 k
  rw [List.nil_append] at h3
  rw [h3]
  rfl

/-- In an ascending plane, the first node found by id is the node itself. -/
theorem find?_id_self {P : List DNode} (hasc : P.Pairwise (fun a b => a.id < b.id))
    {n : DNode} (hn : n ∈ P) : P.find? (fun m => m.id == n.id) = some n := by
  induction P with
  | nil => cases hn
  | cons m P2 ih =>
      rcases List.mem_cons.mp hn with rfl | hn2
      · rw [List.find?_cons]
        simp
      · have hlt : m.id < n.id := (List.pairwise_cons.mp hasc).1 n hn2
        rw [List.find?_cons]
        have hne : (m.id == n.id) = false := beq_eq_false_iff_ne.mpr (Nat.ne_of_lt hlt)
        rw [hne]
        exact ih (List.pairwise_cons.mp hasc).2 hn2

/-- A replicated-empty fragment table reads empty everywhere. -/
theorem getD_replicate_nil {m k : Nat} :
    (List.replicate m ([] : List PyStr)).getD k [] = [] := by
  rw [List.getD_eq_getElem?_getD]
  rcases h : (List.replicate m ([] : List PyStr))[k]? with _ | v
  · rfl
  · have hv : v ∈ List.replicate m ([] : List PyStr) := List.getElem?_mem h
    rw [List.eq_of_mem_replicate hv]
    rfl



/-- **C6.** For every plane digit and every arc of the plane, `encoding_step`
appends to the dependent's fragment the dependent marker (`<p` for left arcs,
`>p` for right arcs) immediately followed by `*` exactly when the dependent is
flagged leftmost/rightmost, and the governor's fragment gains the governor
marker (`\p` for left arcs, `/p` for right arcs) exactly once no matter how
many same-direction dependents of the plane share the governor. -/
theorem C6_markers {p : Char} (hp : p = '0' ∨ p = '1') {P : List DNode}
    {N : Nat} (hasc : P.Pairwise (fun a b => a.id < b.id))
    (hrange : ∀ m ∈ P, m.id ≠ 0 ∧ m.id < N ∧ m.head < N ∧ m.head ≠ m.id)
    {tl0 : List (List PyStr)} (hN : tl0.length = N)
    (hinit : ∀ k, ∀ tok ∈ tl0.getD k [], isBrkTok tok = true ∧
      tok.take 2 ≠ ['\\', p] ∧ tok.take 2 ≠ ['/', p])
    {n : DNode} (hn : n ∈ P) :
    (encoding_step P (tl0.map List.flatten)
        ['<', p] ['\\', p] ['>', p] ['/', p]).getD n.id []
      = (tl0.getD n.id []).flatten
        ++ (if hasLdep P n.id then ['\\', p] else [])
        ++ ((if n.is_left_arc then ['<', p] else ['>', p])
            ++ (if (if n.is_left_arc then is_leftmost P n else is_rightmost P n)
                then ['*'] else []))
        ++ (if hasRdep P n.id then ['/', p] else []) ∧
    ∃ ts : List PyStr, (encoding_step P (tl0.map List.flatten)
          ['<', p] ['\\', p] ['>', p] ['/', p]).getD n.head []
        = (tl0.getD n.head []).flatten ++ ts.flatten ∧
      ts.countP (fun tok =>
        decide (tok.take 2 = if n.is_left_arc then ['\\', p] else ['/', p])) = 1 := by
  have hspec := encoding_step_spec hp hasc hrange hN hinit
  constructor
  · rw [hspec.2 n.id]
    unfold planeToks ownToks
    rw [find?_id_self hasc hn]
    cases hLd : hasLdep P n.id <;> cases hRd : hasRdep P n.id <;>
      simp [depTok, List.flatten_append, List.append_assoc]
  · refine ⟨planeToks P p n.head, ?_, ?_⟩
    · rw [hspec.2 n.head, List.flatten_append]
    · unfold planeToks
      by_cases hl : n.is_left_arc = true
      · have hLd : hasLdep P n.head = true :=
          List.any_eq_true.mpr ⟨n, hn, by simp [hl]⟩
        simp only [hl, if_true, hLd]
        rw [List.countP_append, List.countP_append]
        have h1 : List.countP (fun tok => decide (tok.take 2 = ['\\', p]))
            [['\\', p]] = 1 := by
          simp [List.countP_cons]
        have h2 : List.countP (fun tok => decide (tok.take 2 = ['\\', p]))
            (ownToks P p n.head) = 0 := by
          unfold ownToks
          cases hf : P.find? (fun m => m.id == n.head) with
          | none => rfl
          | some m =>
              simp only [List.countP_cons, List.countP_nil, depTok_take2]
              split <;> simp
        have h3 : List.countP (fun tok => decide (tok.take 2 = ['\\', p]))
            (if hasRdep P n.head then [['/', p]] else []) = 0 := by
          split <;> simp [List.countP_cons]
        rw [h1, h2, h3]
      · have hr : n.is_left_arc = false := Bool.eq_false_iff.mpr hl
        have hRd : hasRdep P n.head = true :=
          List.any_eq_true.mpr ⟨n, hn, by simp [hr]⟩
        simp only [hr, Bool.false_eq_true, if_false, hRd, if_true]
        rw [List.countP_append, List.countP_append]
        have h1 : List.countP (fun tok => decide (tok.take 2 = ['/', p]))
            [['/', p]] = 1 := by
          simp [List.countP_cons]
        have h2 : List.countP (fun tok => decide (tok.take 2 = ['/', p]))
            (ownToks P p n.head) = 0 := by
          unfold ownToks
          cases hf : P.find? (fun m => m.id == n.head) with
          | none => rfl
          | some m =>
              simp only [List.countP_cons, List.countP_nil]
              rw [depTok_take2]
              split <;> simp
        have h3 : List.countP (fun tok => decide (tok.take 2 = ['/', p]))
            (if hasLdep P n.head then [['\\', p]] else []) = 0 := by
          split <;> simp [List.countP_cons]
        rw [h1, h2, h3]



/-- Witness for `C6_markers`: the one-arc plane holding the left arc `1 ← 2`
over empty initial fragments of a 3-slot table. -/
theorem C6_witness :
    (encoding_step [⟨1, 2, "r", "a", "X", []⟩]
        ((List.replicate 3 ([] : List PyStr)).map List.flatten)
        ['<', '0'] ['\\', '0'] ['>', '0'] ['/', '0']).getD 1 [] = ['<', '0', '*'] ∧
    ∃ ts : List PyStr,
      (encoding_step [⟨1, 2, "r", "a", "X", []⟩]
          ((List.replicate 3 ([] : List PyStr)).map List.flatten)
          ['<', '0'] ['\\', '0'] ['>', '0'] ['/', '0']).getD 2 []
        = ((List.replicate 3 ([] : List PyStr)).getD 2 []).flatten ++ ts.flatten ∧
      ts.countP (fun tok => decide (tok.take 2 = ['\\', '0'])) = 1 := by
  have h := C6_markers (p := '0') (Or.inl rfl)
    (P := [⟨1, 2, "r", "a", "X", []⟩]) (N := 3)
    (by simp)
    (by decide)
    (show (List.replicate 3 ([] : List PyStr)).length = 3 from rfl)
    (by
      intro k tok htok
      rw [getD_replicate_nil] at htok
      exact absurd htok (List.not_mem_nil _))
    (n := ⟨1, 2, "r", "a", "X", []⟩) (List.mem_cons_self _ _)
  refine ⟨?_, ?_⟩
  · rw [h.1]
    rfl
  · obtain ⟨ts, hts, hc⟩ := h.2
    exact ⟨ts, hts, hc⟩

/-- The crossing predicate is symmetric. -/
theorem crosses_comm (a b : DNode) : crosses a b = crosses b a := by
  unfold crosses
  apply decide_eq_decide.mpr
  tauto

/-- No arc crosses itself. -/
theorem crosses_self (a : DNode) : crosses a a = false := by
  unfold crosses
  apply decide_eq_false
  omega

/-- Appending a node the greedy check accepted keeps a plane pairwise
non-crossing. -/
theorem noncross_snoc {P : List DNode} {n : DNode}
    (hbase : ∀ a ∈ P, ∀ b ∈ P, crosses a b = false)
    (hall : (P.all fun m => !crosses n m) = true) :
    ∀ a ∈ P ++ [n], ∀ b ∈ P ++ [n], crosses a b = false := by
  intro x hx y hy
  rcases List.mem_append.mp hx with hx | hx
  · rcases List.mem_append.mp hy with hy | hy
    · exact hbase x hx y hy
    · rw [List.mem_singleton.mp hy, crosses_comm]
      have h3 := List.all_eq_true.mp hall x hx
      simpa using h3
  · rw [List.mem_singleton.mp hx]
    rcases List.mem_append.mp hy with hy | hy
    · have h3 := List.all_eq_true.mp hall y hy
      simpa using h3
    · rw [List.mem_singleton.mp hy]
      exact crosses_self n

/-- The greedy fold invariant: each accumulator list only grows by appending
processed non-root nodes in order, planes stay pairwise non-crossing, and
the three lists together hold exactly the accumulated and processed
non-root nodes. -/
theorem greedy_inv :
    ∀ (l : List DNode) (acc : List DNode × List DNode × List DNode),
      (∃ s, (l.foldl greedyStep acc).1 = acc.1 ++ s ∧ s.Sublist l) ∧
      (∃ s, (l.foldl greedyStep acc).2.1 = acc.2.1 ++ s ∧ s.Sublist l) ∧
      (∃ s, (l.foldl greedyStep acc).2.2 = acc.2.2 ++ s ∧ s.Sublist l) ∧
      (((∀ a ∈ acc.1, ∀ b ∈ acc.1, crosses a b = false) →
        ∀ a ∈ (l.foldl greedyStep acc).1, ∀ b ∈ (l.foldl greedyStep acc).1,
          crosses a b = false) ∧
       ((∀ a ∈ acc.2.1, ∀ b ∈ acc.2.1, crosses a b = false) →
        ∀ a ∈ (l.foldl greedyStep acc).2.1, ∀ b ∈ (l.foldl greedyStep acc).2.1,
          crosses a b = false)) ∧
      ((l.foldl greedyStep acc).1 ++ ((l.foldl greedyStep acc).2.1 ++
          (l.foldl greedyStep acc).2.2)).Perm
        ((acc.1 ++ (acc.2.1 ++ acc.2.2)) ++ l.filter (fun m => !(m.id == 0))) := by
  intro l
  induction l with
  | nil =>
      intro acc
      refine ⟨⟨[], by simp⟩, ⟨[], by simp⟩, ⟨[], by simp⟩, ⟨fun h => h, fun h => h⟩, ?_⟩
      simp
  | cons n l ih =>
      intro acc
      obtain ⟨p1, p2, un⟩ := acc
      rw [List.foldl_cons]
      by_cases h0 : n.id = 0
      · have hstep : greedyStep (p1, p2, un) n = (p1, p2, un) := by
          simp [greedyStep, h0]
        rw [hstep]
        obtain ⟨hs1, hs2, hs3, hnc, hperm⟩ := ih (p1, p2, un)
        refine ⟨?_, ?_, ?_, hnc, ?_⟩
        · obtain ⟨s, hs, hsub⟩ := hs1
          exact ⟨s, hs, hsub.cons n⟩
        · obtain ⟨s, hs, hsub⟩ := hs2
          exact ⟨s, hs, hsub.cons n⟩
        · obtain ⟨s, hs, hsub⟩ := hs3
          exact ⟨s, hs, hsub.cons n⟩
        · rw [List.filter_cons_of_neg (by simp [h0])]
          exact hperm
      · by_cases hc1 : p1.all (fun m => !crosses n m) = true
        · have hstep : greedyStep (p1, p2, un) n = (p1 ++ [n], p2, un) := by
            simp [greedyStep, h0, hc1]
          rw [hstep]
          obtain ⟨hs1, hs2, hs3, hnc, hperm⟩ := ih (p1 ++ [n], p2, un)
          refine ⟨?_, ?_, ?_, ⟨?_, hnc.2⟩, ?_⟩
          · obtain ⟨s, hs, hsub⟩ := hs1
            exact ⟨n :: s, by rw [hs]; simp, hsub.cons₂ n⟩
          · obtain ⟨s, hs, hsub⟩ := hs2
            exact ⟨s, hs, hsub.cons n⟩
          · obtain ⟨s, hs, hsub⟩ := hs3
            exact ⟨s, hs, hsub.cons n⟩
          · intro hbase
            exact hnc.1 (noncross_snoc hbase hc1)
          · rw [List.filter_cons_of_pos (by simp [h0])]
            refine hperm.trans ?_
            rw [← Multiset.coe_eq_coe]
            simp only [← Multiset.coe_add, ← Multiset.cons_coe, ← Multiset.singleton_add]
            abel
        · by_cases hc2 : p2.all (fun m => !crosses n m) = true
          · have hstep : greedyStep (p1, p2, un) n = (p1, p2 ++ [n], un) := by
              simp [greedyStep, h0, hc1, hc2]
            rw [hstep]
            obtain ⟨hs1, hs2, hs3, hnc, hperm⟩ := ih (p1, p2 ++ [n], un)
            refine ⟨?_, ?_, ?_, ⟨hnc.1, ?_⟩, ?_⟩
            · obtain ⟨s, hs, hsub⟩ := hs1
              exact ⟨s, hs, hsub.cons n⟩
            · obtain ⟨s, hs, hsub⟩ := hs2
              exact ⟨n :: s, by rw [hs]; simp, hsub.cons₂ n⟩
            · obtain ⟨s, hs, hsub⟩ := hs3
              exact ⟨s, hs, hsub.cons n⟩
            · intro hbase
              exact hnc.2 (noncross_snoc hbase hc2)
            · rw [List.filter_cons_of_pos (by simp [h0])]
              refine hperm.trans ?_
              rw [← Multiset.coe_eq_coe]
              simp only [← Multiset.coe_add, ← Multiset.cons_coe, ← Multiset.singleton_add]
              abel
          · have hstep : greedyStep (p1, p2, un) n = (p1, p2, un ++ [n]) := by
              simp [greedyStep, h0, hc1, hc2]
            rw [hstep]
            obtain ⟨hs1, hs2, hs3, hnc, hperm⟩ := ih (p1, p2, un ++ [n])
            refine ⟨?_, ?_, ?_, hnc, ?_⟩
            · obtain ⟨s, hs, hsub⟩ := hs1
              exact ⟨s, hs, hsub.cons n⟩
            · obtain ⟨s, hs, hsub⟩ := hs2
              exact ⟨s, hs, hsub.cons n⟩
            · obtain ⟨s, hs, hsub⟩ := hs3
              exact ⟨n :: s, by rw [hs]; simp, hsub.cons₂ n⟩
            · rw [List.filter_cons_of_pos (by simp [h0])]
              refine hperm.trans ?_
              rw [← Multiset.coe_eq_coe]
              simp only [← Multiset.coe_add, ← Multiset.cons_coe, ← Multiset.singleton_add]
              abel

theorem wf_id_getElem {t : DepTree} (hwf : WF t) {i : Nat} (hi : i < t.length) :
    t[i].id = i := by
  have hmem : (i, t[i]) ∈ t.enum := by
    have hlen : i < t.enum.length := by simpa using hi
    have := List.getElem_enum t i hlen
    rw [← this]
    exact List.getElem_mem hlen
  exact hwf.1 _ hmem

theorem wf_ascending {t : DepTree} (hwf : WF t) :
    t.Pairwise (fun a b => a.id < b.id) := by
  rw [List.pairwise_iff_getElem]
  intro i j hi hj hij
  rw [wf_id_getElem hwf hi, wf_id_getElem hwf hj]
  exact hij

/-- A member of a well-formed tree is its node at its own id. -/
theorem wf_mem_getElem {t : DepTree} (hwf : WF t) {m : DNode} (hm : m ∈ t) :
    ∃ hlt : m.id < t.length, t[m.id] = m := by
  obtain ⟨j, hj, hje⟩ := List.getElem_of_mem hm
  have hid : m.id = j := by rw [← hje, wf_id_getElem hwf hj]
  subst hid
  exact ⟨hj, hje⟩

/-- Both greedy planes satisfy all plane conditions. -/
theorem greedy_planeOK {t : DepTree} (hwf : WF t) :
    planeOK t (two_planar_greedy t).1 ∧ planeOK t (two_planar_greedy t).2 := by
  obtain ⟨hs1, hs2, hs3, hnc, hperm⟩ := greedy_inv t ([], [], [])
  have hsub1 : (two_planar_greedy_full t).1.Sublist t := by
    obtain ⟨s, hs, hsub⟩ := hs1
    rw [show (two_planar_greedy_full t) = t.foldl greedyStep ([], [], []) from rfl, hs]
    simpa using hsub
  have hsub2 : (two_planar_greedy_full t).2.1.Sublist t := by
    obtain ⟨s, hs, hsub⟩ := hs2
    rw [show (two_planar_greedy_full t) = t.foldl greedyStep ([], [], []) from rfl, hs]
    simpa using hsub
  have hnc1 : ∀ a ∈ (two_planar_greedy_full t).1, ∀ b ∈ (two_planar_greedy_full t).1,
      crosses a b = false := hnc.1 (by intro a ha; cases ha)
  have hnc2 : ∀ a ∈ (two_planar_greedy_full t).2.1,
      ∀ b ∈ (two_planar_greedy_full t).2.1, crosses a b = false :=
    hnc.2 (by intro a ha; cases ha)
  have hmem0 : ∀ m ∈ (two_planar_greedy_full t).1 ++ ((two_planar_greedy_full t).2.1
      ++ (two_planar_greedy_full t).2.2), m.id ≠ 0 := by
    intro m hm
    have h2 := hperm.mem_iff.mp hm
    rw [List.nil_append, List.nil_append] at h2
    have := List.of_mem_filter h2
    simpa using this
  have hcond : ∀ (P : List DNode), P.Sublist t →
      (∀ m ∈ P, m.id ≠ 0) →
      ∀ m ∈ P, m.id ≠ 0 ∧ m.id < t.length ∧ m.head < t.length ∧ m.head ≠ m.id := by
    intro P hsub h0 m hm
    have hmt : m ∈ t := hsub.subset hm
    have h0m := h0 m hm
    obtain ⟨hlt, -⟩ := wf_mem_getElem hwf hmt
    obtain ⟨hh1, hh2⟩ := hwf.2 m hmt h0m
    exact ⟨h0m, hlt, hh1, hh2⟩
  refine ⟨⟨hsub1, (wf_ascending hwf).sublist hsub1, hnc1, ?_⟩,
    ⟨hsub2, (wf_ascending hwf).sublist hsub2, hnc2, ?_⟩⟩
  · exact hcond _ hsub1 (fun m hm => hmem0 m (List.mem_append_left _ hm))
  · exact hcond _ hsub2 (fun m hm => hmem0 m
      (List.mem_append_right _ (List.mem_append_left _ hm)))

/-- In a pairwise-ascending node list at most one node carries a given id. -/
theorem countP_id_le_one {P : List DNode} (hasc : P.Pairwise (fun a b => a.id < b.id))
    (k : Nat) : P.countP (fun m => m.id == k) ≤ 1 := by
  induction P with
  | nil => simp
  | cons a l ih =>
      rw [List.countP_cons]
      rcases List.pairwise_cons.mp hasc with ⟨hlt, hl⟩
      by_cases hk : a.id = k
      · have h0 : l.countP (fun m => m.id == k) = 0 := by
          rw [List.countP_eq_zero]
          intro m hm
          have := hlt m hm
          simp only [beq_iff_eq]
          omega
        rw [h0]
        simp [hk]
      · have hne : (a.id == k) = false := beq_eq_false_iff_ne.mpr hk
        rw [hne]
        simpa using ih hl

/-- A well-formed tree carries each in-range id exactly once. -/
theorem countP_t_id {t : DepTree} (hwf : WF t) {k : Nat} (hk : k < t.length) :
    t.countP (fun m => m.id == k) = 1 := by
  have hle := countP_id_le_one (wf_ascending hwf) k
  have hge : 0 < t.countP (fun m => m.id == k) := by
    rw [List.countP_pos]
    exact ⟨t[k], List.getElem_mem hk, by simp [wf_id_getElem hwf hk]⟩
  omega

/-- When the greedy partitioner encodes every arc, each real id sits in
exactly one of the two planes. -/
theorem plane_id_split {t : DepTree} (hwf : WF t) (hun : greedy_unencodable t = [])
    {k : Nat} (hk : k < t.length) (hk0 : k ≠ 0) :
    ((two_planar_greedy t).1.countP (fun m => m.id == k) = 1 ∧
     (two_planar_greedy t).2.countP (fun m => m.id == k) = 0) ∨
    ((two_planar_greedy t).1.countP (fun m => m.id == k) = 0 ∧
     (two_planar_greedy t).2.countP (fun m => m.id == k) = 1) := by
  obtain ⟨-, -, -, -, hperm⟩ := greedy_inv t ([], [], [])
  have hcount := hperm.countP_eq (fun m => m.id == k)
  dsimp only [List.nil_append] at hcount
  unfold greedy_unencodable two_planar_greedy_full at hun
  rw [List.countP_append, List.countP_append, hun, List.countP_nil] at hcount
  have hfil : List.countP (fun m => m.id == k)
      (List.filter (fun m => !(m.id == 0)) t) = 1 := by
    rw [List.countP_filter]
    rw [List.countP_congr (q := fun m : DNode => m.id == k) ?_]
    · exact countP_t_id hwf hk
    · intro m hm
      simp only [Bool.and_eq_true, beq_iff_eq, Bool.not_eq_true', beq_eq_false_iff_ne,
        ne_eq]
      constructor
      · exact And.left
      · intro h
        exact ⟨h, by omega⟩
  rw [hfil] at hcount
  have h1 := countP_id_le_one (greedy_planeOK hwf).1.2.1 k
  have h2 := countP_id_le_one (greedy_planeOK hwf).2.2.1 k
  unfold two_planar_greedy two_planar_greedy_full at h1 h2 ⊢
  dsimp only at h1 h2 ⊢
  omega

/-- A plane holding id `k` finds the tree's node `k` first. -/
theorem plane_find_of_count1 {t : DepTree} (hwf : WF t) {P : List DNode}
    (hP : planeOK t P) {k : Nat} (hk : k < t.length)
    (hc : P.countP (fun m => m.id == k) = 1) :
    P.find? (fun m => m.id == k) = some t[k] := by
  have hpos : 0 < P.countP (fun m => m.id == k) := by omega
  rw [List.countP_pos] at hpos
  obtain ⟨m, hm, hmk⟩ := hpos
  have hmk2 : m.id = k := by simpa using hmk
  subst hmk2
  obtain ⟨hlt, hget⟩ := wf_mem_getElem hwf (hP.1.subset hm)
  rw [find?_id_self hP.2.1 hm]
  rw [hget]

/-- A plane free of id `k` finds nothing at `k`. -/
theorem find?_eq_none_of_countP_zero {P : List DNode} {k : Nat}
    (hc : P.countP (fun m => m.id == k) = 0) :
    P.find? (fun m => m.id == k) = none := by
  rw [List.find?_eq_none]
  intro x hx
  rw [List.countP_eq_zero] at hc
  exact hc x hx

/-- Two lists of equal length agreeing on in-range `getD` reads are equal. -/
theorem eq_of_getD {α : Type} (d : α) : ∀ (l1 l2 : List α), l1.length = l2.length →
    (∀ k, k < l1.length → l1.getD k d = l2.getD k d) → l1 = l2 := by
  intro l1
  induction l1 with
  | nil =>
      intro l2 hlen _
      cases l2 with
      | nil => rfl
      | cons b l2 => cases hlen
  | cons a l1 ih =>
      intro l2 hlen hget
      cases l2 with
      | nil => cases hlen
      | cons b l2 =>
          have h0 := hget 0 (by simp)
          simp only [List.getD] at h0
          rw [show a = b from by simpa using h0]
          rw [ih l2 (by simpa using hlen) ?_]
          intro k hk
          have := hget (k + 1) (by simpa using Nat.succ_lt_succ hk)
          simpa using this

/-- Reading a mapped range table in range. -/
theorem getD_range_map {α : Type} (f : Nat → α) (d : α) {N k : Nat} (hk : k < N) :
    ((List.range N).map f).getD k d = f k := by
  rw [List.getD_eq_getElem?_getD, List.getElem?_map, List.getElem?_range hk]
  rfl

/-- Every canonical plane token's second character is the plane digit. -/
theorem planeToksAux_take2 (Q P : List DNode) (p : Char) (k : Nat) :
    ∀ tok ∈ planeToksAux Q P p k, ∃ c, tok.take 2 = [c, p] := by
  intro tok htok
  unfold planeToksAux at htok
  rcases List.mem_append.mp htok with htok | htok
  · rcases List.mem_append.mp htok with htok | htok
    · split at htok
      · rw [List.mem_singleton.mp htok]
        exact ⟨'\\', rfl⟩
      · simp at htok
    · split at htok
      · rw [List.mem_singleton.mp htok]
        rw [depTok_take2]
        split
        · exact ⟨'<', rfl⟩
        · exact ⟨'>', rfl⟩
      · simp at htok
  · split at htok
    · rw [List.mem_singleton.mp htok]
      exact ⟨'/', rfl⟩
    · simp at htok

/-- The final fragment table of `encode`: slot `k` flattens the canonical
tokens of plane 0 then plane 1. -/
theorem encode_slots {t : DepTree} (hwf : WF t) :
    (encoding_step (two_planar_greedy t).2
        (encoding_step (two_planar_greedy t).1
          (List.replicate (t.length + 1) ([] : PyStr))
          ['<', '0'] ['\\', '0'] ['>', '0'] ['/', '0'])
        ['<', '1'] ['\\', '1'] ['>', '1'] ['/', '1']).length = t.length + 1 ∧
    ∀ k, k < t.length + 1 →
      (encoding_step (two_planar_greedy t).2
        (encoding_step (two_planar_greedy t).1
          (List.replicate (t.length + 1) ([] : PyStr))
          ['<', '0'] ['\\', '0'] ['>', '0'] ['/', '0'])
        ['<', '1'] ['\\', '1'] ['>', '1'] ['/', '1']).getD k []
      = (slotToks t k).flatten := by
  have hP1 := (greedy_planeOK hwf).1
  have hP2 := (greedy_planeOK hwf).2
  have hrange1 : ∀ m ∈ (two_planar_greedy t).1, m.id ≠ 0 ∧ m.id < t.length + 1 ∧
      m.head < t.length + 1 ∧ m.head ≠ m.id := by
    intro m hm
    obtain ⟨h0, h1, h2, h3⟩ := hP1.2.2.2 m hm
    exact ⟨h0, by omega, by omega, h3⟩
  have hrange2 : ∀ m ∈ (two_planar_greedy t).2, m.id ≠ 0 ∧ m.id < t.length + 1 ∧
      m.head < t.length + 1 ∧ m.head ≠ m.id := by
    intro m hm
    obtain ⟨h0, h1, h2, h3⟩ := hP2.2.2.2 m hm
    exact ⟨h0, by omega, by omega, h3⟩
  have hinit0 : ∀ k : Nat, ∀ tok ∈ (List.replicate (t.length + 1)
      ([] : List PyStr)).getD k [], isBrkTok tok = true ∧
      tok.take 2 ≠ ['\\', '0'] ∧ tok.take 2 ≠ ['/', '0'] := by
    intro k tok htok
    rw [getD_replicate_nil] at htok
    exact absurd htok (List.not_mem_nil _)
  have hmap0 : (List.replicate (t.length + 1) ([] : PyStr))
      = (List.replicate (t.length + 1) ([] : List PyStr)).map List.flatten := by
    rw [List.map_replicate]
    rfl
  have hspec1 := encoding_step_spec (Or.inl rfl) hP1.2.1 hrange1
    (List.length_replicate (t.length + 1) ([] : List PyStr)) hinit0
  rw [← hmap0] at hspec1
  have hmid : encoding_step (two_planar_greedy t).1
      (List.replicate (t.length + 1) ([] : PyStr))
      ['<', '0'] ['\\', '0'] ['>', '0'] ['/', '0']
      = ((List.range (t.length + 1)).map
          (fun k => planeToks (two_planar_greedy t).1 '0' k)).map List.flatten := by
    apply eq_of_getD []
    · rw [hspec1.1]
      simp
    · intro k hk
      rw [hspec1.1] at hk
      rw [hspec1.2 k, getD_replicate_nil, List.nil_append, List.map_map,
        getD_range_map _ _ hk]
      rfl
  have hinit1 : ∀ k : Nat, ∀ tok ∈ ((List.range (t.length + 1)).map
      (fun k => planeToks (two_planar_greedy t).1 '0' k)).getD k [],
      isBrkTok tok = true ∧ tok.take 2 ≠ ['\\', '1'] ∧ tok.take 2 ≠ ['/', '1'] := by
    intro k tok htok
    by_cases hk : k < t.length + 1
    · rw [getD_range_map _ _ hk] at htok
      have hb := planeToksAux_brkTok (Or.inl rfl) (two_planar_greedy t).1
        (two_planar_greedy t).1 k tok htok
      obtain ⟨c, hc⟩ := planeToksAux_take2 (two_planar_greedy t).1
        (two_planar_greedy t).1 '0' k tok htok
      refine ⟨hb, ?_, ?_⟩ <;> rw [hc] <;> simp
    · rw [List.getD_eq_getElem?_getD, List.getElem?_eq_none] at htok
      · simp at htok
      · simpa using Nat.le_of_not_lt hk
  have hspec2 := encoding_step_spec (Or.inr rfl) hP2.2.1 hrange2
    (by simp : ((List.range (t.length + 1)).map
      (fun k => planeToks (two_planar_greedy t).1 '0' k)).length = t.length + 1)
    hinit1
  rw [← hmid] at hspec2
  refine ⟨hspec2.1, fun k hk => ?_⟩
  rw [hspec2.2 k, getD_range_map _ _ hk]
  rw [show slotToks t k = planeToks (two_planar_greedy t).1 '0' k
      ++ planeToks (two_planar_greedy t).2 '1' k from rfl]

/-- Rows of `encode`: each row carries the node's word, tag, features and
relation, and the flattened canonical fragment as payload. -/
theorem encode_rows {t : DepTree} (hwf : WF t) :
    (encode t).rows.length = t.length ∧
    ∀ i, (hi : i < t.length) →
      (encode t).rows.getD i ⟨"", "", [], ⟨[], ""⟩⟩
        = ⟨t[i].word, t[i].upos, t[i].feats, ⟨(slotToks t i).flatten, t[i].relation⟩⟩ := by
  unfold encode
  dsimp only
  constructor
  · exact List.length_map t _
  · intro i hi
    rw [List.getD_eq_getElem?_getD, List.getElem?_map, List.getElem?_eq_getElem hi]
    dsimp only [Option.map, Option.getD]
    have hid : t[i].id = i := wf_id_getElem hwf hi
    rw [hid]
    rw [(encode_slots hwf).2 i (by omega)]

/-- All canonical slot tokens are well-formed bracket tokens. -/
theorem slotToks_brkTok (t : DepTree) (k : Nat) :
    ∀ tok ∈ slotToks t k, isBrkTok tok = true := by
  intro tok htok
  rcases List.mem_append.mp htok with h | h
  · exact planeToksAux_brkTok (Or.inl rfl) _ _ k tok h
  · exact planeToksAux_brkTok (Or.inr rfl) _ _ k tok h

/-- Every canonical plane token starts with one of the four boundary
characters. -/
theorem planeToksAux_head (Q P : List DNode) (p : Char) (k : Nat) :
    ∀ tok ∈ planeToksAux Q P p k,
      ∃ r, tok = '\\' :: r ∨ tok = '<' :: r ∨ tok = '>' :: r ∨ tok = '/' :: r := by
  intro tok htok
  unfold planeToksAux at htok
  rcases List.mem_append.mp htok with htok | htok
  · rcases List.mem_append.mp htok with htok | htok
    · split at htok
      · rw [List.mem_singleton.mp htok]
        exact ⟨[p], Or.inl rfl⟩
      · simp at htok
    · split at htok
      · rw [List.mem_singleton.mp htok]
        unfold depTok
        split
        · exact ⟨_, Or.inr (Or.inl rfl)⟩
        · exact ⟨_, Or.inr (Or.inr (Or.inl rfl))⟩
      · simp at htok
  · split at htok
    · rw [List.mem_singleton.mp htok]
      exact ⟨[p], Or.inr (Or.inr (Or.inr rfl))⟩
    · simp at htok

/-- A flattened canonical fragment is never the `-NONE-` sentinel. -/
theorem slotToks_ne_none (t : DepTree) (k : Nat) :
    (slotToks t k).flatten ≠ D_NONE_LABEL := by
  cases hs : slotToks t k with
  | nil => simp [D_NONE_LABEL]
  | cons tok ts =>
      have hmem : tok ∈ slotToks t k := by
        rw [hs]
        exact List.mem_cons_self _ _
      have hhead : ∃ r, tok = '\\' :: r ∨ tok = '<' :: r ∨ tok = '>' :: r ∨
          tok = '/' :: r := by
        rcases List.mem_append.mp hmem with h | h
        · exact planeToksAux_head _ _ '0' k tok h
        · exact planeToksAux_head _ _ '1' k tok h
      obtain ⟨r, hr⟩ := hhead
      intro hcon
      rw [List.flatten_cons] at hcon
      rcases hr with rfl | rfl | rfl | rfl <;> simp [D_NONE_LABEL] at hcon
/-- Payload token list of an `l2r` pass on a canonical fragment. -/
theorem rowBrks_slot_l2r (t : DepTree) (p : Char) (k : Nat) :
    rowBrks p .l2r ((slotToks t k).flatten) = .ok (slotToks t k) := by
  rw [rowBrks_l2r, if_pos (slotToks_ne_none t k)]
  exact merge_brackets_tokens _ (slotToks_brkTok t k)

/-- Payload token list of an `r2l` pass on a canonical fragment. -/
theorem rowBrks_slot_r2l (t : DepTree) (p : Char) (k : Nat) :
    rowBrks p .r2l ((slotToks t k).flatten) = .ok (pySortBrks p (slotToks t k)) := by
  rw [rowBrks_r2l, if_pos (slotToks_ne_none t k),
    merge_brackets_tokens _ (slotToks_brkTok t k)]
  rfl

/-- For a well-formed bracket token, marker-substring presence is a
token-head test. -/
theorem brkTok_hasSub_pair {x q : Char} (hx0 : x ≠ '0') (hx1 : x ≠ '1') (hxs : x ≠ '*')
    (hq : q ≠ '*') {tok : PyStr} (ht : isBrkTok tok = true) :
    hasSub [x, q] tok = decide (tok.take 2 = [x, q]) := by
  rcases isBrkTok_shape ht with ⟨b, d, hb, hd, rfl⟩ | ⟨b, d, hb, hd, rfl⟩
  · apply Bool.eq_iff_iff.mpr
    rw [decide_eq_true_eq]
    constructor
    · intro h
      obtain ⟨s, u, hsu⟩ := of_decide_eq_true h
      match s, hsu with
      | [], hsu =>
          simp only [List.nil_append, List.cons_append, List.cons.injEq] at hsu
          obtain ⟨rfl, rfl, -⟩ := hsu
          rfl
      | [a], hsu => simp at hsu
      | a :: c :: s2, hsu => simp at hsu
    · intro h
      apply decide_eq_true
      have h2 : [b, d] = [x, q] := h
      exact ⟨[], [], by rw [← h2]; rfl⟩
  · apply Bool.eq_iff_iff.mpr
    rw [decide_eq_true_eq]
    constructor
    · intro h
      obtain ⟨s, u, hsu⟩ := of_decide_eq_true h
      match s, hsu with
      | [], hsu =>
          simp only [List.nil_append, List.cons_append, List.cons.injEq] at hsu
          obtain ⟨rfl, rfl, -⟩ := hsu
          rfl
      | [a], hsu =>
          simp only [List.cons_append, List.nil_append, List.cons.injEq] at hsu
          obtain ⟨-, -, hq2, -⟩ := hsu
          exact absurd hq2 hq
      | [a, c], hsu =>
          simp only [List.cons_append, List.nil_append, List.cons.injEq] at hsu
          obtain ⟨-, -, hx2, -⟩ := hsu
          exact absurd hx2 hxs
      | a :: c :: e :: s2, hsu => simp at hsu
    · intro h
      apply decide_eq_true
      have h2 : [b, d] = [x, q] := h
      exact ⟨[], ['*'], by rw [← h2]; rfl⟩

/-- `tokenWrite` distributes over token-list concatenation. -/
theorem tokenWrite_append (sApp sPk : PyStr) (cur : Nat) :
    ∀ (bs1 bs2 : List PyStr) (st : List Nat) (acc : Option Nat),
      tokenWrite sApp sPk cur (bs1 ++ bs2) st acc
        = (tokenWrite sApp sPk cur bs1 st acc).bind
            (fun r => tokenWrite sApp sPk cur bs2 r.1 r.2) := by
  intro bs1
  induction bs1 with
  | nil => intro bs2 st acc; rfl
  | cons tok bs1 ih =>
      intro bs2 st acc
      simp only [List.cons_append, tokenWrite]
      by_cases hpk : hasSub sPk tok = true
      · simp only [hpk, if_true]
        by_cases hstar : '*' ∈ tok
        · simp only [hstar, if_true]
          cases h1 : (if hasSub sApp tok = true then cur :: st else st) with
          | nil => rfl
          | cons x st2 => exact ih bs2 st2 _
        · simp only [hstar, if_false]
          exact ih bs2 _ _
      · simp only [hpk, if_false]
        exact ih bs2 _ _

/-- Tokens matching neither marker leave the loop state unchanged. -/
theorem tokenWrite_noop (sApp sPk : PyStr) (cur : Nat) :
    ∀ (bs : List PyStr) (st : List Nat) (acc : Option Nat),
      (∀ tok ∈ bs, hasSub sApp tok = false ∧ hasSub sPk tok = false) →
      tokenWrite sApp sPk cur bs st acc = .ok (st, acc) := by
  intro bs
  induction bs with
  | nil => intro st acc _; rfl
  | cons tok bs ih =>
      intro st acc hall
      obtain ⟨ha, hp⟩ := hall tok (List.mem_cons_self _ _)
      simp only [tokenWrite, ha, hp, Bool.false_eq_true, if_false]
      exact ih st acc (fun x hx => hall x (List.mem_cons_of_mem _ hx))

/-- An opening token pushes the current node. -/
theorem tokenWrite_push (sApp sPk : PyStr) (cur : Nat) (tok : PyStr) (st : List Nat)
    (acc : Option Nat) (ha : hasSub sApp tok = true) (hp : hasSub sPk tok = false) :
    tokenWrite sApp sPk cur [tok] st acc = .ok (cur :: st, acc) := by
  simp only [tokenWrite, ha, hp, Bool.false_eq_true, if_false, if_true]

/-- An unstarred resolving token assigns the stack top and keeps the stack. -/
theorem tokenWrite_resolve (sApp sPk : PyStr) (cur : Nat) (tok : PyStr) (st : List Nat)
    (acc : Option Nat) (ha : hasSub sApp tok = false) (hp : hasSub sPk tok = true)
    (hs : '*' ∉ tok) :
    tokenWrite sApp sPk cur [tok] st acc = .ok (st, some (st.headD 0)) := by
  simp only [tokenWrite, ha, hp, hs, Bool.false_eq_true, if_false, if_true]

/-- A starred resolving token assigns and pops the stack top. -/
theorem tokenWrite_resolve_star (sApp sPk : PyStr) (cur : Nat) (tok : PyStr)
    (x : Nat) (st2 : List Nat) (acc : Option Nat)
    (ha : hasSub sApp tok = false) (hp : hasSub sPk tok = true) (hs : '*' ∈ tok) :
    tokenWrite sApp sPk cur [tok] (x :: st2) acc = .ok (st2, some x) := by
  simp only [tokenWrite, ha, hp, hs, Bool.false_eq_true, if_false, if_true]
  rfl

/-- A list counting exactly one match splits around it. -/
theorem countP_one_decomp {α : Type} {R : α → Bool} :
    ∀ {l : List α}, l.countP R = 1 →
      ∃ u x v, l = u ++ x :: v ∧ R x = true ∧
        (∀ a ∈ u, R a = false) ∧ (∀ a ∈ v, R a = false) := by
  intro l
  induction l with
  | nil => intro h; simp at h
  | cons a l ih =>
      intro h
      rw [List.countP_cons] at h
      by_cases hR : R a = true
      · have h0 : l.countP R = 0 := by
          rw [hR] at h
          simpa using h
        refine ⟨[], a, l, rfl, hR, by simp, ?_⟩
        rw [List.countP_eq_zero] at h0
        intro x hx
        exact Bool.eq_false_iff.mpr (h0 x hx)
      · have hF : R a = false := Bool.eq_false_iff.mpr hR
        rw [hF] at h
        simp only [Bool.false_eq_true, if_false] at h
        obtain ⟨u, x, v, hl, hx, hu, hv⟩ := ih (by simpa using h)
        exact ⟨a :: u, x, v, by rw [hl]; rfl, hx,
          fun b hb => by
            rcases List.mem_cons.mp hb with rfl | hb
            · exact hF
            · exact hu b hb, hv⟩

/-- The fused `*` flag sits in a dependent token exactly when the node is
flagged. -/
theorem star_mem_depTok {p : Char} (hp : p = '0' ∨ p = '1') (P : List DNode) (n : DNode) :
    ('*' ∈ depTok P p n)
      ↔ (if n.is_left_arc then is_leftmost P n else is_rightmost P n) = true := by
  unfold depTok
  rcases hp with rfl | rfl <;> split <;> split <;> simp_all

/-- Marker-substring test on a dependent token, reduced to the marker's
boundary character and digit. -/
theorem hasSub_marker_depTok {x q p : Char} (hx0 : x ≠ '0') (hx1 : x ≠ '1')
    (hxs : x ≠ '*') (hq : q ≠ '*') (hp : p = '0' ∨ p = '1')
    (P : List DNode) (n : DNode) :
    hasSub [x, q] (depTok P p n)
      = decide (((if n.is_left_arc then '<' else '>') = x) ∧ p = q) := by
  have hb : isBrkTok (depTok P p n) = true := by
    unfold depTok
    rcases hp with rfl | rfl <;> split <;> split <;> decide
  rw [brkTok_hasSub_pair hx0 hx1 hxs hq hb, depTok_take2]
  apply decide_eq_decide.mpr
  split <;> simp [and_comm, eq_comm]

/-- Effect of the own-token segment in an l2r pass. -/
theorem tokenWrite_own_l2r {p : Char} (hp : p = '0' ∨ p = '1') (P : List DNode)
    (k cur : Nat) (st : List Nat) (acc : Option Nat)
    (hne : rowStarB P .l2r k = true → st ≠ []) :
    tokenWrite ['/', p] ['>', p] cur (ownToks P p k) st acc
      = .ok ((if rowStarB P .l2r k then st.tail else st), rowHeadOut P .l2r k st acc) := by
  unfold ownToks
  cases hf : P.find? (fun m => m.id == k) with
  | none =>
      have hres : resNode P .l2r k = none := by
        unfold resNode
        rw [hf]
      simp only [rowStarB, rowHeadOut, hres]
      rfl
  | some n =>
      cases hl : n.is_left_arc with
      | true =>
          have hres : resNode P .l2r k = none := by
            unfold resNode
            rw [hf]
            simp [hl]
          have hps : p ≠ '*' := by rcases hp with rfl | rfl <;> decide
          have hnoop : hasSub ['/', p] (depTok P p n) = false ∧
              hasSub ['>', p] (depTok P p n) = false := by
            rw [hasSub_marker_depTok (by decide) (by decide) (by decide) hps hp,
              hasSub_marker_depTok (by decide) (by decide) (by decide) hps hp, hl]
            constructor <;> (apply decide_eq_false; simp)
          rw [tokenWrite_noop _ _ _ _ _ _ ?_]
          · simp only [rowStarB, rowHeadOut, hres]
            rfl
          · intro tok htok
            rw [List.mem_singleton.mp htok]
            exact hnoop
      | false =>
          have hres : resNode P .l2r k = some n := by
            unfold resNode
            rw [hf]
            simp [hl]
          have hps : p ≠ '*' := by rcases hp with rfl | rfl <;> decide
          have hsub : hasSub ['/', p] (depTok P p n) = false ∧
              hasSub ['>', p] (depTok P p n) = true := by
            rw [hasSub_marker_depTok (by decide) (by decide) (by decide) hps hp,
              hasSub_marker_depTok (by decide) (by decide) (by decide) hps hp, hl]
            constructor
            · apply decide_eq_false
              simp
            · apply decide_eq_true
              simp
          have hstarb : rowStarB P .l2r k = is_rightmost P n := by
            unfold rowStarB
            rw [hres]
          have hflag : ('*' ∈ depTok P p n) ↔ is_rightmost P n = true := by
            rw [star_mem_depTok hp, hl]
            simp
          cases hstar : is_rightmost P n with
          | false =>
              have hnostar : '*' ∉ depTok P p n := by
                rw [hflag, hstar]
                simp
              rw [tokenWrite_resolve _ _ _ _ _ _ hsub.1 hsub.2 hnostar]
              rw [hstarb, hstar]
              simp only [rowHeadOut, hres, Bool.false_eq_true, if_false]
          | true =>
              have hstar2 : rowStarB P .l2r k = true := by rw [hstarb, hstar]
              obtain ⟨x, st2, rfl⟩ : ∃ x st2, st = x :: st2 := by
                cases st with
                | nil => exact absurd rfl (hne hstar2)
                | cons x st2 => exact ⟨x, st2, rfl⟩
              have hmem : '*' ∈ depTok P p n := hflag.mpr hstar
              rw [tokenWrite_resolve_star _ _ _ _ _ _ _ hsub.1 hsub.2 hmem]
              rw [hstar2]
              simp only [rowHeadOut, hres, if_true]
              rfl

/-- Effect of the opening-token segment in an l2r pass. -/
theorem tokenWrite_app_l2r {p : Char} (hp : p = '0' ∨ p = '1') (P : List DNode)
    (k cur : Nat) (st : List Nat) (acc : Option Nat) :
    tokenWrite ['/', p] ['>', p] cur (if hasRdep P k then [['/', p]] else []) st acc
      = .ok ((if hasRdep P k then cur :: st else st), acc) := by
  cases hR : hasRdep P k with
  | false => rfl
  | true =>
      simp only [if_true]
      apply tokenWrite_push
      · rcases hp with rfl | rfl <;> decide
      · rcases hp with rfl | rfl <;> decide

/-- Effect of the left-governor segment in an l2r pass: a no-op. -/
theorem tokenWrite_bare_l2r {p : Char} (hp : p = '0' ∨ p = '1') (P : List DNode)
    (k cur : Nat) (st : List Nat) (acc : Option Nat) :
    tokenWrite ['/', p] ['>', p] cur (if hasLdep P k then [['\\', p]] else []) st acc
      = .ok (st, acc) := by
  apply tokenWrite_noop
  intro tok htok
  split at htok
  · rw [List.mem_singleton.mp htok]
    rcases hp with rfl | rfl <;> exact ⟨by decide, by decide⟩
  · simp at htok

/-- `Except.bind` on a success, in projection form. -/
theorem except_bindf_ok {ε α β : Type} (a : α) (f : α → Except ε β) :
    (Except.ok a).bind f = f a := rfl

/-- A token of a foreign plane matches no marker of this plane. -/
theorem noop_foreign {x p : Char} (hx0 : x ≠ '0') (hx1 : x ≠ '1') (hxs : x ≠ '*')
    (hps : p ≠ '*') {tok : PyStr} (hb : isBrkTok tok = true)
    (ht : ∀ c, tok.take 2 ≠ [c, p]) : hasSub [x, p] tok = false := by
  rw [brkTok_hasSub_pair hx0 hx1 hxs hps hb]
  exact decide_eq_false (ht x)

/-- Full token-loop effect of an l2r pass row whose payload is a foreign
prefix, the pass plane's canonical tokens, and a foreign suffix. -/
theorem tokenWrite_parts_l2r {p : Char} (hp : p = '0' ∨ p = '1') (P : List DNode)
    (k cur : Nat) (pre post : List PyStr)
    (hpre : ∀ tok ∈ pre, isBrkTok tok = true ∧ ∀ c, tok.take 2 ≠ [c, p])
    (hpost : ∀ tok ∈ post, isBrkTok tok = true ∧ ∀ c, tok.take 2 ≠ [c, p])
    (st : List Nat) (acc : Option Nat)
    (hne : rowStarB P .l2r k = true → st ≠ []) :
    tokenWrite ['/', p] ['>', p] cur (pre ++ (planeToks P p k ++ post)) st acc
      = .ok (rowStackOut P .l2r k cur st, rowHeadOut P .l2r k st acc) := by
  have hps : p ≠ '*' := by rcases hp with rfl | rfl <;> decide
  have hnop : ∀ (q : List PyStr), (∀ tok ∈ q, isBrkTok tok = true ∧
      ∀ c, tok.take 2 ≠ [c, p]) →
      ∀ tok ∈ q, hasSub ['/', p] tok = false ∧ hasSub ['>', p] tok = false := by
    intro q hq tok htok
    exact ⟨noop_foreign (by decide) (by decide) (by decide) hps (hq tok htok).1
        (hq tok htok).2,
      noop_foreign (by decide) (by decide) (by decide) hps (hq tok htok).1
        (hq tok htok).2⟩
  rw [tokenWrite_append, tokenWrite_noop _ _ _ pre st acc (hnop pre hpre),
    except_bindf_ok]
  unfold planeToks
  rw [List.append_assoc, List.append_assoc]
  rw [tokenWrite_append, tokenWrite_bare_l2r hp, except_bindf_ok]
  rw [tokenWrite_append, tokenWrite_own_l2r hp P k cur st acc hne, except_bindf_ok]
  rw [tokenWrite_append, tokenWrite_app_l2r hp, except_bindf_ok]
  rw [tokenWrite_noop _ _ _ post _ _ (hnop post hpost)]
  unfold rowStackOut rowAppB
  cases hR : hasRdep P k <;> simp

/-- A needle is a substring of itself. -/
theorem hasSub_self (s : PyStr) : hasSub s s = true :=
  decide_eq_true ⟨[], [], by simp⟩

/-- The bare `\p` count of a canonical row payload. -/
theorem countP_L_bare {p : Char} (P : List DNode) (k : Nat) (pre post : List PyStr)
    (hpre : ∀ tok ∈ pre, ∀ c, tok.take 2 ≠ [c, p])
    (hpost : ∀ tok ∈ post, ∀ c, tok.take 2 ≠ [c, p]) :
    (pre ++ (planeToks P p k ++ post)).countP (fun tok => decide (tok = ['\\', p]))
      = (if hasLdep P k then 1 else 0) := by
  rw [List.countP_append, List.countP_append]
  have h1 : pre.countP (fun tok => decide (tok = ['\\', p])) = 0 := by
    rw [List.countP_eq_zero]
    intro tok htok hdec
    exact hpre tok htok '\\' (by rw [of_decide_eq_true hdec]; rfl)
  have h3 : post.countP (fun tok => decide (tok = ['\\', p])) = 0 := by
    rw [List.countP_eq_zero]
    intro tok htok hdec
    exact hpost tok htok '\\' (by rw [of_decide_eq_true hdec]; rfl)
  have h2 : (planeToks P p k).countP (fun tok => decide (tok = ['\\', p]))
      = (if hasLdep P k then 1 else 0) := by
    unfold planeToks
    rw [List.countP_append, List.countP_append]
    have hown : (ownToks P p k).countP (fun tok => decide (tok = ['\\', p])) = 0 := by
      unfold ownToks
      cases hf : P.find? (fun m => m.id == k) with
      | none => rfl
      | some n =>
          simp only [List.countP_cons, List.countP_nil]
          have hne : depTok P p n ≠ ['\\', p] := by
            intro hcon
            have h4 := depTok_take2 P p n
            rw [hcon] at h4
            split at h4 <;> simp at h4
          simp [hne]
    have hL : (if hasLdep P k then [['\\', p]] else []).countP
        (fun tok => decide (tok = ['\\', p])) = if hasLdep P k then 1 else 0 := by
      split <;> simp
    have hR : (if hasRdep P k then [['/', p]] else []).countP
        (fun tok => decide (tok = ['\\', p])) = 0 := by
      split <;> simp
    rw [hown, hL, hR]
    omega
  rw [h1, h2, h3]
  omega

/-- The resolving-token count of a canonical row payload for an r2l pass. -/
theorem countP_L_res {p : Char} (P : List DNode) (k : Nat) (pre post : List PyStr)
    (hpre : ∀ tok ∈ pre, ∀ c, tok.take 2 ≠ [c, p])
    (hpost : ∀ tok ∈ post, ∀ c, tok.take 2 ≠ [c, p]) :
    (pre ++ (planeToks P p k ++ post)).countP
        (fun tok => decide (tok.take 2 = ['<', p]))
      = (match resNode P .r2l k with | some _ => 1 | none => 0) := by
  rw [List.countP_append, List.countP_append]
  have h1 : pre.countP (fun tok => decide (tok.take 2 = ['<', p])) = 0 := by
    rw [List.countP_eq_zero]
    intro tok htok hdec
    exact hpre tok htok '<' (of_decide_eq_true hdec)
  have h3 : post.countP (fun tok => decide (tok.take 2 = ['<', p])) = 0 := by
    rw [List.countP_eq_zero]
    intro tok htok hdec
    exact hpost tok htok '<' (of_decide_eq_true hdec)
  have h2 : (planeToks P p k).countP (fun tok => decide (tok.take 2 = ['<', p]))
      = (match resNode P .r2l k with | some _ => 1 | none => 0) := by
    unfold planeToks
    rw [List.countP_append, List.countP_append]
    have hL : (if hasLdep P k then [['\\', p]] else []).countP
        (fun tok => decide (tok.take 2 = ['<', p])) = 0 := by
      split <;> simp
    have hR : (if hasRdep P k then [['/', p]] else []).countP
        (fun tok => decide (tok.take 2 = ['<', p])) = 0 := by
      split <;> simp
    have hown : (ownToks P p k).countP (fun tok => decide (tok.take 2 = ['<', p]))
        = (match resNode P .r2l k with | some _ => 1 | none => 0) := by
      unfold ownToks resNode
      cases hf : P.find? (fun m => m.id == k) with
      | none => rfl
      | some n =>
          simp only [List.countP_cons, List.countP_nil, depTok_take2]
          cases hl : n.is_left_arc with
          | true => simp [hl]
          | false => simp [hl]
    rw [hown, hL, hR]
    omega
  rw [h1, h2, h3]
  omega

/-- Payload tokens that are neither the bare opener nor carry the resolving
head are no-ops for the r2l pass. -/
theorem noop_r2l_token {p : Char} (hp : p = '0' ∨ p = '1') (P : List DNode) (k : Nat)
    {pre post : List PyStr}
    (hpre : ∀ tok ∈ pre, isBrkTok tok = true ∧ ∀ c, tok.take 2 ≠ [c, p])
    (hpost : ∀ tok ∈ post, isBrkTok tok = true ∧ ∀ c, tok.take 2 ≠ [c, p])
    {tok : PyStr} (htok : tok ∈ pre ++ (planeToks P p k ++ post))
    (hnb : tok ≠ ['\\', p]) (hnr : decide (tok.take 2 = ['<', p]) = false) :
    hasSub ['\\', p] tok = false ∧ hasSub ['<', p] tok = false := by
  have hps : p ≠ '*' := by rcases hp with rfl | rfl <;> decide
  rcases List.mem_append.mp htok with hm | hm
  · exact ⟨noop_foreign (by decide) (by decide) (by decide) hps (hpre tok hm).1
      (hpre tok hm).2,
      noop_foreign (by decide) (by decide) (by decide) hps (hpre tok hm).1
      (hpre tok hm).2⟩
  rcases List.mem_append.mp hm with hm | hm
  · unfold planeToks at hm
    rcases List.mem_append.mp hm with hm | hm
    · rcases List.mem_append.mp hm with hm | hm
      · split at hm
        · exact absurd (List.mem_singleton.mp hm) hnb
        · simp at hm
      · unfold ownToks at hm
        cases hf : P.find? (fun m => m.id == k) with
        | none => rw [hf] at hm; simp at hm
        | some n =>
            rw [hf] at hm
            rw [List.mem_singleton.mp hm]
            rw [List.mem_singleton.mp hm, depTok_take2] at hnr
            cases hl : n.is_left_arc with
            | true =>
                rw [hl] at hnr
                simp at hnr
            | false =>
                constructor <;>
                  rw [hasSub_marker_depTok (by decide) (by decide) (by decide) hps hp,
                    hl] <;>
                  (apply decide_eq_false; simp)
    · split at hm
      · rw [List.mem_singleton.mp hm]
        have hb : isBrkTok (['/', p] : PyStr) = true := by
          rcases hp with rfl | rfl <;> decide
        constructor <;>
          rw [brkTok_hasSub_pair (by decide) (by decide) (by decide) hps hb] <;>
          (apply decide_eq_false; simp)
      · simp at hm
  · exact ⟨noop_foreign (by decide) (by decide) (by decide) hps (hpost tok hm).1
      (hpost tok hm).2,
      noop_foreign (by decide) (by decide) (by decide) hps (hpost tok hm).1
      (hpost tok hm).2⟩

/-- Full token-loop effect of an r2l pass row whose payload is the sort of a
foreign prefix, the pass plane's canonical tokens, and a foreign suffix. -/
theorem tokenWrite_parts_r2l {p : Char} (hp : p = '0' ∨ p = '1') (P : List DNode)
    (k cur : Nat) (pre post : List PyStr)
    (hpre : ∀ tok ∈ pre, isBrkTok tok = true ∧ ∀ c, tok.take 2 ≠ [c, p])
    (hpost : ∀ tok ∈ post, isBrkTok tok = true ∧ ∀ c, tok.take 2 ≠ [c, p])
    (st : List Nat) (acc : Option Nat)
    (hne : rowStarB P .r2l k = true → st ≠ []) :
    tokenWrite ['\\', p] ['<', p] cur
        (pySortBrks p (pre ++ (planeToks P p k ++ post))) st acc
      = .ok (rowStackOut P .r2l k cur st, rowHeadOut P .r2l k st acc) := by
  have hps : p ≠ '*' := by rcases hp with rfl | rfl <;> decide
  unfold pySortBrks
  have hperm : (sortLe (brkKeyLe p) (pre ++ (planeToks P p k ++ post))).Perm
      (pre ++ (planeToks P p k ++ post)) := sortLe_perm _ _
  obtain ⟨front, back, hS, hfront, hback, -⟩ :=
    sorted_split p _ (sortLe_pairwise _ (brkKeyLe_total p) (brkKeyLe_trans p)
      (pre ++ (planeToks P p k ++ post)))
  have hcb := hperm.countP_eq (fun tok => decide (tok = ['\\', p]))
  rw [countP_L_bare P k pre post (fun a b => (hpre a b).2) (fun a b => (hpost a b).2),
    hS, List.countP_append] at hcb
  have hcf : front.countP (fun tok => decide (tok = ['\\', p])) = 0 := by
    rw [List.countP_eq_zero]
    intro a ha hdec
    exact hfront a ha (of_decide_eq_true hdec)
  have hcbb : back.countP (fun tok => decide (tok = ['\\', p])) = back.length := by
    apply List.countP_eq_length.mpr
    intro a ha
    exact decide_eq_true (hback a ha)
  rw [hcf, hcbb] at hcb
  have hbackW : ∀ (st2 : List Nat) (acc2 : Option Nat),
      tokenWrite ['\\', p] ['<', p] cur back st2 acc2
        = .ok ((if hasLdep P k then [cur] else []) ++ st2, acc2) := by
    intro st2 acc2
    cases hLd : hasLdep P k with
    | true =>
        rw [hLd] at hcb
        have hlen : back.length = 1 := by simpa using hcb
        obtain ⟨b0, rfl⟩ := List.length_eq_one.mp hlen
        have hb0 : b0 = ['\\', p] := hback b0 (List.mem_singleton.mpr rfl)
        subst hb0
        rw [tokenWrite_push _ _ _ _ _ _ (hasSub_self _) ?_]
        · rfl
        · have hb : isBrkTok (['\\', p] : PyStr) = true := by
            rcases hp with rfl | rfl <;> decide
          rw [brkTok_hasSub_pair (by decide) (by decide) (by decide) hps hb]
          apply decide_eq_false
          simp
    | false =>
        rw [hLd] at hcb
        have hlen : back.length = 0 := by simpa using hcb
        rw [List.length_eq_zero.mp hlen]
        rfl
  have hcr := hperm.countP_eq (fun tok => decide (tok.take 2 = ['<', p]))
  rw [countP_L_res P k pre post (fun a b => (hpre a b).2) (fun a b => (hpost a b).2),
    hS, List.countP_append] at hcr
  have hcbz : back.countP (fun tok => decide (tok.take 2 = ['<', p])) = 0 := by
    rw [List.countP_eq_zero]
    intro a ha hdec
    rw [hback a ha] at hdec
    simp at hdec
  rw [hcbz] at hcr
  rw [hS]
  cases hres : resNode P .r2l k with
  | none =>
      rw [hres] at hcr
      dsimp only at hcr
      have hfz : ∀ a ∈ front, (fun tok => decide (tok.take 2 = ['<', p])) a = false := by
        have h0 : front.countP (fun tok => decide (tok.take 2 = ['<', p])) = 0 := by
          omega
        rw [List.countP_eq_zero] at h0
        intro a ha
        exact Bool.eq_false_iff.mpr (h0 a ha)
      have hfnoop : ∀ a ∈ front, hasSub ['\\', p] a = false ∧
          hasSub ['<', p] a = false := by
        intro a ha
        have ham : a ∈ pre ++ (planeToks P p k ++ post) := by
          rw [← hperm.mem_iff, hS]
          exact List.mem_append_left _ ha
        exact noop_r2l_token hp P k hpre hpost ham (hfront a ha) (hfz a ha)
      rw [tokenWrite_append, tokenWrite_noop _ _ _ front st acc hfnoop, except_bindf_ok,
        hbackW]
      have hstar0 : rowStarB P .r2l k = false := by
        unfold rowStarB
        rw [hres]
      unfold rowStackOut rowAppB rowHeadOut
      rw [hstar0, hres]
      simp
  | some n =>
      rw [hres] at hcr
      dsimp only at hcr
      obtain ⟨u, rtok, v, hfr, hrt, hu, hv⟩ := countP_one_decomp
        (show front.countP (fun tok => decide (tok.take 2 = ['<', p])) = 1 by omega)
      have hfind : P.find? (fun m => m.id == k) = some n ∧ n.is_left_arc = true := by
        have h2 := hres
        unfold resNode at h2
        cases hf : P.find? (fun m => m.id == k) with
        | none =>
            rw [hf] at h2
            cases h2
        | some n2 =>
            rw [hf] at h2
            dsimp only at h2
            by_cases hl : n2.is_left_arc = true
            · rw [if_pos hl] at h2
              cases h2
              exact ⟨rfl, hl⟩
            · rw [if_neg hl] at h2
              cases h2
      have hrm : rtok ∈ pre ++ (planeToks P p k ++ post) := by
        rw [← hperm.mem_iff, hS]
        exact List.mem_append_left _
          (by rw [hfr]; exact List.mem_append_right _ (List.mem_cons_self _ _))
      have ht2 := of_decide_eq_true hrt
      have hrteq : rtok = depTok P p n := by
        rcases List.mem_append.mp hrm with hm | hm
        · exact absurd ht2 ((hpre rtok hm).2 '<')
        rcases List.mem_append.mp hm with hm | hm
        · unfold planeToks at hm
          rcases List.mem_append.mp hm with hm | hm
          · rcases List.mem_append.mp hm with hm | hm
            · split at hm
              · rw [List.mem_singleton.mp hm] at ht2
                simp at ht2
              · simp at hm
            · unfold ownToks at hm
              rw [hfind.1] at hm
              exact List.mem_singleton.mp hm
          · split at hm
            · rw [List.mem_singleton.mp hm] at ht2
              simp at ht2
            · simp at hm
        · exact absurd ht2 ((hpost rtok hm).2 '<')
      have hrapp : hasSub ['\\', p] rtok = false := by
        rw [hrteq, hasSub_marker_depTok (by decide) (by decide) (by decide) hps hp,
          hfind.2]
        apply decide_eq_false
        simp
      have hrpk : hasSub ['<', p] rtok = true := by
        rw [hrteq, hasSub_marker_depTok (by decide) (by decide) (by decide) hps hp,
          hfind.2]
        apply decide_eq_true
        simp
      have hstarb : rowStarB P .r2l k = is_leftmost P n := by
        unfold rowStarB
        rw [hres]
      have hflag : ('*' ∈ rtok) ↔ is_leftmost P n = true := by
        rw [hrteq, star_mem_depTok hp, hfind.2]
        simp
      have hunoop : ∀ a ∈ u, hasSub ['\\', p] a = false ∧ hasSub ['<', p] a = false := by
        intro a ha
        have haf : a ∈ front := by
          rw [hfr]
          exact List.mem_append_left _ ha
        have ham : a ∈ pre ++ (planeToks P p k ++ post) := by
          rw [← hperm.mem_iff, hS]
          exact List.mem_append_left _ haf
        exact noop_r2l_token hp P k hpre hpost ham (hfront a haf) (hu a ha)
      have hvnoop : ∀ a ∈ v, hasSub ['\\', p] a = false ∧ hasSub ['<', p] a = false := by
        intro a ha
        have haf : a ∈ front := by
          rw [hfr]
          exact List.mem_append_right _ (List.mem_cons_of_mem _ ha)
        have ham : a ∈ pre ++ (planeToks P p k ++ post) := by
          rw [← hperm.mem_iff, hS]
          exact List.mem_append_left _ haf
        exact noop_r2l_token hp P k hpre hpost ham (hfront a haf) (hv a ha)
      rw [hfr]
      rw [show (u ++ rtok :: v) ++ back = u ++ ([rtok] ++ (v ++ back)) from by simp]
      rw [tokenWrite_append, tokenWrite_noop _ _ _ u st acc hunoop, except_bindf_ok,
        tokenWrite_append]
      unfold rowHeadOut
      rw [hres]
      cases hstar : is_leftmost P n with
      | false =>
          have hnostar : '*' ∉ rtok := by
            rw [hflag, hstar]
            simp
          rw [tokenWrite_resolve _ _ _ _ _ _ hrapp hrpk hnostar, except_bindf_ok,
            tokenWrite_append, tokenWrite_noop _ _ _ v _ _ hvnoop, except_bindf_ok,
            hbackW]
          unfold rowStackOut rowAppB
          rw [hstarb, hstar]
          simp
      | true =>
          have hstar2 : rowStarB P .r2l k = true := by rw [hstarb, hstar]
          obtain ⟨x, st2, rfl⟩ : ∃ x st2, st = x :: st2 := by
            cases st with
            | nil => exact absurd rfl (hne hstar2)
            | cons x st2 => exact ⟨x, st2, rfl⟩
          have hmem : '*' ∈ rtok := hflag.mpr hstar
          rw [tokenWrite_resolve_star _ _ _ _ _ _ _ hrapp hrpk hmem, except_bindf_ok,
            tokenWrite_append, tokenWrite_noop _ _ _ v _ _ hvnoop, except_bindf_ok,
            hbackW]
          unfold rowStackOut rowAppB
          rw [hstar2]
          simp

theorem foldl_max_ge_init : ∀ (l : List Nat) (a : Nat), a ≤ l.foldl max a
  | [], _ => Nat.le_refl _
  | x :: l, a => Nat.le_trans (Nat.le_max_left a x) (foldl_max_ge_init l (max a x))

theorem foldl_max_ge_mem : ∀ (l : List Nat) (a x : Nat), x ∈ l → x ≤ l.foldl max a := by
  intro l
  induction l with
  | nil => intro a x hx; cases hx
  | cons y l ih =>
      intro a x hx
      rcases List.mem_cons.mp hx with rfl | hx
      · exact Nat.le_trans (Nat.le_max_right a x) (foldl_max_ge_init l (max a x))
      · exact ih (max a y) x hx

theorem foldl_max_cases : ∀ (l : List Nat) (a : Nat), l.foldl max a = a ∨ l.foldl max a ∈ l := by
  intro l
  induction l with
  | nil => intro a; exact Or.inl rfl
  | cons y l ih =>
      intro a
      rcases ih (max a y) with h | h
      · rcases max_choice a y with h2 | h2
        · rw [List.foldl_cons, h, h2]
          exact Or.inl rfl
        · rw [List.foldl_cons, h, h2]
          exact Or.inr (List.mem_cons_self _ _)
      · exact Or.inr (List.mem_cons_of_mem _ h)

theorem foldl_max_le : ∀ (l : List Nat) (a b : Nat), a ≤ b → (∀ x ∈ l, x ≤ b) →
    l.foldl max a ≤ b := by
  intro l
  induction l with
  | nil => intro a b h _; exact h
  | cons y l ih =>
      intro a b h hall
      rw [List.foldl_cons]
      exact ih _ b (Nat.max_le.mpr ⟨h, hall y (List.mem_cons_self _ _)⟩)
        (fun x hx => hall x (List.mem_cons_of_mem _ hx))

theorem foldl_min_le_init : ∀ (l : List Nat) (a : Nat), l.foldl min a ≤ a
  | [], _ => Nat.le_refl _
  | x :: l, a => Nat.le_trans (foldl_min_le_init l (min a x)) (Nat.min_le_left a x)

theorem foldl_min_le_mem : ∀ (l : List Nat) (a x : Nat), x ∈ l → l.foldl min a ≤ x := by
  intro l
  induction l with
  | nil => intro a x hx; cases hx
  | cons y l ih =>
      intro a x hx
      rcases List.mem_cons.mp hx with rfl | hx
      · exact Nat.le_trans (foldl_min_le_init l (min a x)) (Nat.min_le_right a x)
      · exact ih (min a y) x hx

theorem foldl_min_cases : ∀ (l : List Nat) (a : Nat), l.foldl min a = a ∨ l.foldl min a ∈ l := by
  intro l
  induction l with
  | nil => intro a; exact Or.inl rfl
  | cons y l ih =>
      intro a
      rcases ih (min a y) with h | h
      · rcases min_choice a y with h2 | h2
        · rw [List.foldl_cons, h, h2]
          exact Or.inl rfl
        · rw [List.foldl_cons, h, h2]
          exact Or.inr (List.mem_cons_self _ _)
      · exact Or.inr (List.mem_cons_of_mem _ h)

theorem foldl_min_ge : ∀ (l : List Nat) (a b : Nat), b ≤ a → (∀ x ∈ l, b ≤ x) →
    b ≤ l.foldl min a := by
  intro l
  induction l with
  | nil => intro a b h _; exact h
  | cons y l ih =>
      intro a b h hall
      rw [List.foldl_cons]
      exact ih _ b (Nat.le_min.mpr ⟨h, hall y (List.mem_cons_self _ _)⟩)
        (fun x hx => hall x (List.mem_cons_of_mem _ hx))

/-- Every right-arc dependent of `g` sits at or below `maxRdep`. -/
theorem maxRdep_ge {P : List DNode} {g : Nat} {m : DNode} (hm : m ∈ P)
    (hr : m.is_left_arc = false) (hh : m.head = g) : m.id ≤ maxRdep P g := by
  unfold maxRdep
  rw [← List.foldl_map (fun m : DNode => m.id) max]
  apply foldl_max_ge_mem
  apply List.mem_map_of_mem
  apply List.mem_filter.mpr
  exact ⟨hm, by simp [hr, hh]⟩

/-- `maxRdep` is attained when the governor has a right-arc dependent. -/
theorem maxRdep_attained {P : List DNode} {g : Nat} (h : hasRdep P g = true)
    (h0 : ∀ m ∈ P, m.id ≠ 0) :
    ∃ m ∈ P, m.is_left_arc = false ∧ m.head = g ∧ m.id = maxRdep P g := by
  unfold maxRdep
  rw [← List.foldl_map (fun m : DNode => m.id) max]
  rcases foldl_max_cases ((P.filter (fun m => !m.is_left_arc && m.head == g)).map
      (fun m => m.id)) 0 with hc | hc
  · obtain ⟨m, hm, hmp⟩ := List.any_eq_true.mp h
    simp only [Bool.and_eq_true, Bool.not_eq_true', beq_iff_eq] at hmp
    have hmem : m.id ∈ (P.filter (fun m => !m.is_left_arc && m.head == g)).map
        (fun m => m.id) := by
      apply List.mem_map_of_mem
      apply List.mem_filter.mpr
      exact ⟨hm, by simp [hmp.1, hmp.2]⟩
    have h2 := foldl_max_ge_mem _ 0 m.id hmem
    rw [hc] at h2
    exact absurd h2 (by have h3 := h0 m hm; omega)
  · obtain ⟨m, hm2, hmid⟩ := List.mem_map.mp hc
    obtain ⟨hmP, hmf⟩ := List.mem_filter.mp hm2
    simp only [Bool.and_eq_true, Bool.not_eq_true', beq_iff_eq] at hmf
    exact ⟨m, hmP, hmf.1, hmf.2, hmid⟩

/-- Every left-arc dependent of `g` sits at or above `minLdep`. -/
theorem minLdep_le {P : List DNode} {g : Nat} {m : DNode} (hm : m ∈ P)
    (hr : m.is_left_arc = true) (hh : m.head = g) : minLdep P g ≤ m.id := by
  unfold minLdep
  rw [← List.foldl_map (fun m : DNode => m.id) min]
  apply foldl_min_le_mem
  apply List.mem_map_of_mem
  apply List.mem_filter.mpr
  exact ⟨hm, by simp [hr, hh]⟩

/-- `minLdep` is attained when the governor has a left-arc dependent. -/
theorem minLdep_attained {P : List DNode} {g : Nat} (h : hasLdep P g = true)
    (hlt : ∀ m ∈ P, m.is_left_arc = true → m.head = g → m.id < g) :
    ∃ m ∈ P, m.is_left_arc = true ∧ m.head = g ∧ m.id = minLdep P g := by
  unfold minLdep
  rw [← List.foldl_map (fun m : DNode => m.id) min]
  rcases foldl_min_cases ((P.filter (fun m => m.is_left_arc && m.head == g)).map
      (fun m => m.id)) g with hc | hc
  · obtain ⟨m, hm, hmp⟩ := List.any_eq_true.mp h
    simp only [Bool.and_eq_true, beq_iff_eq] at hmp
    have hmem : m.id ∈ (P.filter (fun m => m.is_left_arc && m.head == g)).map
        (fun m => m.id) := by
      apply List.mem_map_of_mem
      apply List.mem_filter.mpr
      exact ⟨hm, by simp [hmp.1, hmp.2]⟩
    have h2 := foldl_min_le_mem _ g m.id hmem
    rw [hc] at h2
    have h3 := hlt m hm hmp.1 hmp.2
    omega
  · obtain ⟨m, hm2, hmid⟩ := List.mem_map.mp hc
    obtain ⟨hmP, hmf⟩ := List.mem_filter.mp hm2
    simp only [Bool.and_eq_true, beq_iff_eq] at hmf
    exact ⟨m, hmP, hmf.1, hmf.2, hmid⟩

/-- Members of an ascending plane are determined by their id. -/
theorem id_inj_of_pairwise {P : List DNode}
    (hasc : P.Pairwise (fun a b => a.id < b.id)) :
    ∀ {a b : DNode}, a ∈ P → b ∈ P → a.id = b.id → a = b := by
  induction P with
  | nil => intro a b ha; cases ha
  | cons x l ih =>
      intro a b ha hb hab
      rcases List.pairwise_cons.mp hasc with ⟨hx, hl⟩
      rcases List.mem_cons.mp ha with rfl | ha2
      · rcases List.mem_cons.mp hb with rfl | hb2
        · rfl
        · exact absurd hab (by have h3 := hx b hb2; omega)
      · rcases List.mem_cons.mp hb with rfl | hb2
        · exact absurd hab (by have h3 := hx a ha2; omega)
        · exact ih hl ha2 hb2 hab

/-- What a successful l2r resolve lookup says about the node. -/
theorem resNode_l2r_spec {P : List DNode} {j : Nat} {n : DNode}
    (h : resNode P .l2r j = some n) :
    n ∈ P ∧ n.id = j ∧ n.is_left_arc = false := by
  unfold resNode at h
  cases hf : P.find? (fun m => m.id == j) with
  | none => rw [hf] at h; cases h
  | some n2 =>
      rw [hf] at h
      dsimp only at h
      by_cases hl : n2.is_left_arc = true
      · rw [if_pos hl] at h
        cases h
      · rw [if_neg hl] at h
        cases h
        exact ⟨List.mem_of_find?_eq_some hf,
          by simpa using List.find?_some hf, Bool.eq_false_iff.mpr hl⟩

/-- What a successful r2l resolve lookup says about the node. -/
theorem resNode_r2l_spec {P : List DNode} {j : Nat} {n : DNode}
    (h : resNode P .r2l j = some n) :
    n ∈ P ∧ n.id = j ∧ n.is_left_arc = true := by
  unfold resNode at h
  cases hf : P.find? (fun m => m.id == j) with
  | none => rw [hf] at h; cases h
  | some n2 =>
      rw [hf] at h
      dsimp only at h
      by_cases hl : n2.is_left_arc = true
      · rw [if_pos hl] at h
        cases h
        exact ⟨List.mem_of_find?_eq_some hf,
          by simpa using List.find?_some hf, hl⟩
      · rw [if_neg hl] at h
        cases h

/-- A failed l2r resolve lookup means no right-arc node at the row. -/
theorem resNode_l2r_none {P : List DNode}
    (hasc : P.Pairwise (fun a b => a.id < b.id)) {j : Nat}
    (h : resNode P .l2r j = none) :
    ∀ m ∈ P, m.id = j → m.is_left_arc = false → False := by
  intro m hm hid hdir
  unfold resNode at h
  cases hf : P.find? (fun m => m.id == j) with
  | none =>
      rw [List.find?_eq_none] at hf
      exact hf m hm (by simpa using hid)
  | some n2 =>
      rw [hf] at h
      dsimp only at h
      by_cases hl : n2.is_left_arc = true
      · have hn2 : n2 ∈ P := List.mem_of_find?_eq_some hf
        have hid2 : n2.id = j := by simpa using List.find?_some hf
        have heq := id_inj_of_pairwise hasc hm hn2 (by omega)
        rw [heq, hl] at hdir
        cases hdir
      · rw [if_neg hl] at h
        cases h

/-- A failed r2l resolve lookup means no left-arc node at the row. -/
theorem resNode_r2l_none {P : List DNode}
    (hasc : P.Pairwise (fun a b => a.id < b.id)) {j : Nat}
    (h : resNode P .r2l j = none) :
    ∀ m ∈ P, m.id = j → m.is_left_arc = true → False := by
  intro m hm hid hdir
  unfold resNode at h
  cases hf : P.find? (fun m => m.id == j) with
  | none =>
      rw [List.find?_eq_none] at hf
      exact hf m hm (by simpa using hid)
  | some n2 =>
      rw [hf] at h
      dsimp only at h
      by_cases hl : n2.is_left_arc = true
      · rw [if_pos hl] at h
        cases h
      · have hn2 : n2 ∈ P := List.mem_of_find?_eq_some hf
        have hid2 : n2.id = j := by simpa using List.find?_some hf
        have heq := id_inj_of_pairwise hasc hm hn2 (by omega)
        rw [heq] at hdir
        exact hl hdir

/-- A governor with a right-arc dependent opens strictly before its last
dependent. -/
theorem maxRdep_gt {t : DepTree} {P : List DNode} (hP : planeOK t P) {g : Nat}
    (h : hasRdep P g = true) : g < maxRdep P g := by
  obtain ⟨m, hm, hl, hh, hid⟩ := maxRdep_attained h (fun m hm => (hP.2.2.2 m hm).1)
  have h2 := (hP.2.2.2 m hm).2.2.2
  have h3 : ¬(m.id < m.head) := by
    simpa [DNode.is_left_arc] using hl
  omega

/-- A governor with a left-arc dependent opens strictly after its last
dependent. -/
theorem minLdep_lt {t : DepTree} {P : List DNode} (hP : planeOK t P) {g : Nat}
    (h : hasLdep P g = true) : minLdep P g < g := by
  have hlt : ∀ m ∈ P, m.is_left_arc = true → m.head = g → m.id < g := by
    intro m hm hml hmh
    have h3 : m.id < m.head := by
      simpa [DNode.is_left_arc] using hml
    omega
  obtain ⟨m, hm, hl, hh, hid⟩ := minLdep_attained h hlt
  have h3 : m.id < m.head := by
    simpa [DNode.is_left_arc] using hl
  omega

/-- The rightmost flag is the `maxRdep` equation. -/
theorem is_rightmost_iff_max {P : List DNode}
    {n : DNode} (hn : n ∈ P) (hr : n.is_left_arc = false) :
    is_rightmost P n = true ↔ maxRdep P n.head = n.id := by
  constructor
  · intro h
    have hge : n.id ≤ maxRdep P n.head := maxRdep_ge hn hr rfl
    have hle : maxRdep P n.head ≤ n.id := by
      unfold maxRdep
      rw [← List.foldl_map (fun m : DNode => m.id) max]
      apply foldl_max_le _ _ _ (Nat.zero_le _)
      intro x hx
      obtain ⟨m, hm2, hmid⟩ := List.mem_map.mp hx
      obtain ⟨hmP, hmf⟩ := List.mem_filter.mp hm2
      simp only [Bool.and_eq_true, Bool.not_eq_true', beq_iff_eq] at hmf
      have h2 := List.all_eq_true.mp h m hmP
      rw [hmf.1] at h2
      have hbeq : (m.head == n.head) = true := beq_iff_eq.mpr hmf.2
      rw [hbeq] at h2
      simp only [Bool.not_false, Bool.true_and, Bool.not_true, Bool.false_or] at h2
      rw [← hmid]
      exact of_decide_eq_true h2
    omega
  · intro h
    unfold is_rightmost
    rw [List.all_eq_true]
    intro m hm
    by_cases hml : m.is_left_arc = true
    · simp [hml]
    · have hml2 : m.is_left_arc = false := Bool.eq_false_iff.mpr hml
      by_cases hmh : m.head = n.head
      · have h2 := maxRdep_ge hm hml2 hmh
        rw [h] at h2
        simp [h2]
      · simp [hmh]

/-- The leftmost flag is the `minLdep` equation. -/
theorem is_leftmost_iff_min {P : List DNode}
    {n : DNode} (hn : n ∈ P) (hr : n.is_left_arc = true) :
    is_leftmost P n = true ↔ minLdep P n.head = n.id := by
  have hlt : n.id < n.head := by
    simpa [DNode.is_left_arc] using hr
  constructor
  · intro h
    have hle : minLdep P n.head ≤ n.id := minLdep_le hn hr rfl
    have hge : n.id ≤ minLdep P n.head := by
      unfold minLdep
      rw [← List.foldl_map (fun m : DNode => m.id) min]
      apply foldl_min_ge _ _ _ (Nat.le_of_lt hlt)
      intro x hx
      obtain ⟨m, hm2, hmid⟩ := List.mem_map.mp hx
      obtain ⟨hmP, hmf⟩ := List.mem_filter.mp hm2
      simp only [Bool.and_eq_true, beq_iff_eq] at hmf
      have h2 := List.all_eq_true.mp h m hmP
      rw [hmf.1] at h2
      have hbeq : (m.head == n.head) = true := beq_iff_eq.mpr hmf.2
      rw [hbeq] at h2
      simp only [Bool.true_and, Bool.not_true, Bool.false_or] at h2
      rw [← hmid]
      exact of_decide_eq_true h2
    omega
  · intro h
    unfold is_leftmost
    rw [List.all_eq_true]
    intro m hm
    by_cases hml : m.is_left_arc = true
    · by_cases hmh : m.head = n.head
      · have h2 := minLdep_le hm hml hmh
        rw [h] at h2
        simp [hml, h2]
      · simp [hmh]
    · have hml2 : m.is_left_arc = false := Bool.eq_false_iff.mpr hml
      simp [hml2]

/-- A reversed range filtered by a predicate failing strictly between `g0`
and `j` starts at `g0`. -/
theorem filter_rev_range_head (f : Nat → Bool) :
    ∀ (j g0 : Nat), g0 < j → f g0 = true → (∀ h, g0 < h → h < j → f h = false) →
      ((List.range j).reverse).filter f = g0 :: ((List.range g0).reverse).filter f := by
  intro j
  induction j with
  | zero => intro g0 hg; omega
  | succ j ih =>
      intro g0 hg hf habove
      rw [List.range_succ, List.reverse_append]
      simp only [List.reverse_singleton, List.singleton_append]
      by_cases hj : g0 = j
      · subst hj
        rw [List.filter_cons_of_pos hf]
      · have hfj : f j = false := habove j (by omega) (by omega)
        rw [List.filter_cons_of_neg (by simp [hfj])]
        exact ih g0 (by omega) hf (fun h h1 h2 => habove h h1 (by omega))

/-- A reversed range filtered by a predicate failing at and above `g0`
equals the filter of the `g0`-range. -/
theorem filter_rev_range_skip (f : Nat → Bool) :
    ∀ (j g0 : Nat), g0 ≤ j → (∀ h, g0 ≤ h → h < j → f h = false) →
      ((List.range j).reverse).filter f = ((List.range g0).reverse).filter f := by
  intro j
  induction j with
  | zero =>
      intro g0 hg _
      have h0 : g0 = 0 := by omega
      rw [h0]
  | succ j ih =>
      intro g0 hg hall
      by_cases hj : g0 = j + 1
      · rw [hj]
      · have hfj : f j = false := hall j (by omega) (by omega)
        rw [List.range_succ, List.reverse_append]
        simp only [List.reverse_singleton, List.singleton_append]
        rw [List.filter_cons_of_neg (by simp [hfj])]
        exact ih g0 (by omega) (fun h h1 h2 => hall h h1 (by omega))

/-- A forward range filtered by a predicate failing strictly between `lo`
and `g0` starts at `g0`. -/
theorem filter_range'_head (f : Nat → Bool) :
    ∀ (n lo g0 : Nat), lo ≤ g0 → g0 < lo + n → f g0 = true →
      (∀ h, lo ≤ h → h < g0 → f h = false) →
      (List.range' lo n).filter f
        = g0 :: (List.range' (g0 + 1) (lo + n - (g0 + 1))).filter f := by
  intro n
  induction n with
  | zero => intro lo g0 h1 h2; omega
  | succ n ih =>
      intro lo g0 h1 h2 hf hbelow
      rw [List.range'_succ]
      by_cases hl : lo = g0
      · subst hl
        rw [List.filter_cons_of_pos hf]
        rw [show lo + (n + 1) - (lo + 1) = n by omega]
      · have hflo : f lo = false := hbelow lo (Nat.le_refl _) (by omega)
        rw [List.filter_cons_of_neg (by simp [hflo])]
        rw [ih (lo + 1) g0 (by omega) (by omega) hf
          (fun h hh1 hh2 => hbelow h (by omega) hh2)]
        rw [show lo + 1 + n - (g0 + 1) = lo + (n + 1) - (g0 + 1) by omega]

/-- A forward range filtered by a predicate failing below `g0` equals the
filter of the tail range from `g0`. -/
theorem filter_range'_skip (f : Nat → Bool) :
    ∀ (n lo g0 : Nat), lo ≤ g0 → g0 ≤ lo + n →
      (∀ h, lo ≤ h → h < g0 → f h = false) →
      (List.range' lo n).filter f = (List.range' g0 (lo + n - g0)).filter f := by
  intro n
  induction n with
  | zero =>
      intro lo g0 h1 h2 _
      rw [show g0 = lo by omega, show lo + 0 - lo = 0 by omega]
  | succ n ih =>
      intro lo g0 h1 h2 hbelow
      by_cases hl : lo = g0
      · rw [hl, show g0 + (n + 1) - g0 = n + 1 by omega]
      · have hflo : f lo = false := hbelow lo (Nat.le_refl _) (by omega)
        rw [List.range'_succ, List.filter_cons_of_neg (by simp [hflo])]
        rw [ih (lo + 1) g0 (by omega) (by omega)
          (fun h hh1 hh2 => hbelow h (by omega) hh2)]
        rw [show lo + 1 + n - g0 = lo + (n + 1) - g0 by omega]

/-- Crossing-freeness: while an l2r pass is about to resolve row `j`, no
governor strictly between the arc's governor and `j` is still open. -/
theorem no_open_between_l2r {t : DepTree} {P : List DNode} (hP : planeOK t P)
    {j : Nat} {n : DNode} (hres : resNode P .l2r j = some n) :
    ∀ h, n.head < h → h < j → (hasRdep P h && decide (j ≤ maxRdep P h)) = false := by
  obtain ⟨hnP, hnid, hnr⟩ := resNode_l2r_spec hres
  have hnh : n.head < n.id := by
    have h2 := (hP.2.2.2 n hnP).2.2.2
    have h3 : ¬(n.id < n.head) := by
      simpa [DNode.is_left_arc] using hnr
    omega
  intro h hgh hhj
  apply Bool.eq_false_iff.mpr
  intro hcon
  simp only [Bool.and_eq_true, decide_eq_true_eq] at hcon
  obtain ⟨m, hmP, hml, hmh, hmid⟩ := maxRdep_attained hcon.1
    (fun m hm => (hP.2.2.2 m hm).1)
  have hmge : j ≤ m.id := by omega
  by_cases hmj : m.id = j
  · have heq := id_inj_of_pairwise hP.2.1 hmP hnP (by omega)
    rw [heq] at hmh
    omega
  · have hmhlt : m.head < m.id := by
      have h2 := (hP.2.2.2 m hmP).2.2.2
      have h3 : ¬(m.id < m.head) := by
        simpa [DNode.is_left_arc] using hml
      omega
    have hcross : crosses n m = true := by
      unfold crosses
      apply decide_eq_true
      left
      simp only [DNode.span_lo, DNode.span_hi]
      omega
    have hnc := hP.2.2.1 n hnP m hmP
    rw [hcross] at hnc
    cases hnc

/-- The mirrored claim for an r2l pass. -/
theorem no_open_between_r2l {t : DepTree} {P : List DNode} (hP : planeOK t P)
    {j : Nat} {n : DNode} (hres : resNode P .r2l j = some n) :
    ∀ h, j < h → h < n.head → (hasLdep P h && decide (minLdep P h ≤ j)) = false := by
  obtain ⟨hnP, hnid, hnl⟩ := resNode_r2l_spec hres
  have hnh : n.id < n.head := by
    simpa [DNode.is_left_arc] using hnl
  intro h hjh hhg
  apply Bool.eq_false_iff.mpr
  intro hcon
  simp only [Bool.and_eq_true, decide_eq_true_eq] at hcon
  obtain ⟨m, hmP, hml, hmh, hmid⟩ := minLdep_attained hcon.1 (by
    intro m hm hml2 hmh2
    have h3 : m.id < m.head := by
      simpa [DNode.is_left_arc] using hml2
    omega)
  have hmle : m.id ≤ j := by omega
  by_cases hmj : m.id = j
  · have heq := id_inj_of_pairwise hP.2.1 hmP hnP (by omega)
    rw [heq] at hmh
    omega
  · have hmhlt : m.id < m.head := by
      simpa [DNode.is_left_arc] using hml
    have hcross : crosses m n = true := by
      unfold crosses
      apply decide_eq_true
      left
      simp only [DNode.span_lo, DNode.span_hi]
      omega
    have hnc := hP.2.2.1 m hmP n hnP
    rw [hcross] at hnc
    cases hnc

/-- The l2r stack before a resolving row has the arc's governor on top. -/
theorem stackL2R_top {t : DepTree} {P : List DNode} (hP : planeOK t P)
    {j : Nat} {n : DNode} (hres : resNode P .l2r j = some n) :
    stackL2R P j = n.head :: ((List.range n.head).reverse).filter
      (fun g => hasRdep P g && decide (j ≤ maxRdep P g)) := by
  obtain ⟨hnP, hnid, hnr⟩ := resNode_l2r_spec hres
  have hnh : n.head < n.id := by
    have h2 := (hP.2.2.2 n hnP).2.2.2
    have h3 : ¬(n.id < n.head) := by
      simpa [DNode.is_left_arc] using hnr
    omega
  apply filter_rev_range_head
  · omega
  · have h1 : hasRdep P n.head = true :=
      List.any_eq_true.mpr ⟨n, hnP, by simp [hnr]⟩
    have h2 : j ≤ maxRdep P n.head := by
      have h3 := maxRdep_ge hnP hnr rfl
      omega
    simp [h1, h2]
  · exact no_open_between_l2r hP hres

/-- The r2l stack before a resolving row has the arc's governor on top. -/
theorem stackR2L_top {t : DepTree} {P : List DNode} (hP : planeOK t P)
    {N j : Nat} {n : DNode} (hres : resNode P .r2l j = some n)
    (hN : ∀ m ∈ P, m.head < N) :
    stackR2L P N j = n.head :: (List.range' (n.head + 1) (N - (n.head + 1))).filter
      (fun g => hasLdep P g && decide (minLdep P g ≤ j)) := by
  obtain ⟨hnP, hnid, hnl⟩ := resNode_r2l_spec hres
  have hnh : n.id < n.head := by
    simpa [DNode.is_left_arc] using hnl
  have hhN : n.head < N := hN n hnP
  unfold stackR2L
  rw [filter_range'_head _ (N - (j + 1)) (j + 1) n.head (by omega) (by omega) ?_ ?_]
  · rw [show j + 1 + (N - (j + 1)) - (n.head + 1) = N - (n.head + 1) by omega]
  · have h1 : hasLdep P n.head = true :=
      List.any_eq_true.mpr ⟨n, hnP, by simp [hnl]⟩
    have h2 : minLdep P n.head ≤ j := by
      have h3 := minLdep_le hnP hnl rfl
      omega
    simp [h1, h2]
  · intro h hh1 hh2
    exact no_open_between_r2l hP hres h (by omega) hh2

/-- One l2r row turns the stack invariant at `j` into the invariant at
`j + 1`. -/
theorem stackL2R_update {t : DepTree} {P : List DNode} (hP : planeOK t P) (j : Nat) :
    stackL2R P (j + 1) = rowStackOut P .l2r j j (stackL2R P j) := by
  have hasc := hP.2.1
  unfold stackL2R
  rw [List.range_succ, List.reverse_append]
  simp only [List.reverse_singleton, List.singleton_append]
  rw [List.filter_cons]
  have hfj : (hasRdep P j && decide (j + 1 ≤ maxRdep P j)) = hasRdep P j := by
    cases hR : hasRdep P j with
    | true =>
        have h2 := maxRdep_gt hP hR
        simp [decide_eq_true (by omega : j + 1 ≤ maxRdep P j)]
    | false => simp
  rw [hfj]
  unfold rowStackOut rowAppB
  cases hres : resNode P .l2r j with
  | none =>
      have hstar : rowStarB P .l2r j = false := by
        unfold rowStarB
        rw [hres]
      rw [hstar]
      simp only [Bool.false_eq_true, if_false]
      have hagree : ∀ g ∈ (List.range j).reverse,
          (hasRdep P g && decide (j + 1 ≤ maxRdep P g))
            = (hasRdep P g && decide (j ≤ maxRdep P g)) := by
        intro g hg
        cases hR : hasRdep P g with
        | false => simp
        | true =>
            simp only [Bool.true_and]
            by_cases hmx : maxRdep P g = j
            · obtain ⟨m, hmP, hml, hmh, hmid⟩ := maxRdep_attained hR
                (fun m hm => (hP.2.2.2 m hm).1)
              exact (resNode_l2r_none hasc hres m hmP (by omega) hml).elim
            · exact decide_eq_decide.mpr (by omega)
      rw [List.filter_congr hagree]
      cases hA : hasRdep P j <;> simp
  | some n =>
      obtain ⟨hnP, hnid, hnr⟩ := resNode_l2r_spec hres
      have hstarb : rowStarB P .l2r j = is_rightmost P n := by
        unfold rowStarB
        rw [hres]
      cases hstar : is_rightmost P n with
      | false =>
          rw [hstarb, hstar]
          simp only [Bool.false_eq_true, if_false]
          have hmaxne : maxRdep P n.head ≠ j := by
            intro hcon
            have h2 := (is_rightmost_iff_max hnP hnr).mpr (by omega)
            rw [hstar] at h2
            cases h2
          have hagree : ∀ g ∈ (List.range j).reverse,
              (hasRdep P g && decide (j + 1 ≤ maxRdep P g))
                = (hasRdep P g && decide (j ≤ maxRdep P g)) := by
            intro g hg
            cases hR : hasRdep P g with
            | false => simp
            | true =>
                simp only [Bool.true_and]
                by_cases hmx : maxRdep P g = j
                · obtain ⟨m, hmP, hml, hmh, hmid⟩ := maxRdep_attained hR
                    (fun m hm => (hP.2.2.2 m hm).1)
                  have heq := id_inj_of_pairwise hasc hmP hnP (by omega)
                  rw [heq] at hmh
                  exact absurd (by rw [hmh]; exact hmx) hmaxne
                · exact decide_eq_decide.mpr (by omega)
          rw [List.filter_congr hagree]
          cases hA : hasRdep P j <;> simp
      | true =>
          rw [hstarb, hstar]
          simp only [if_true]
          have hmax : maxRdep P n.head = n.id := (is_rightmost_iff_max hnP hnr).mp hstar
          have hnh : n.head < n.id := by
            have h2 := (hP.2.2.2 n hnP).2.2.2
            have h3 : ¬(n.id < n.head) := by
              simpa [DNode.is_left_arc] using hnr
            omega
          have hskip : ((List.range j).reverse).filter
              (fun g => hasRdep P g && decide (j + 1 ≤ maxRdep P g))
              = ((List.range n.head).reverse).filter
                (fun g => hasRdep P g && decide (j + 1 ≤ maxRdep P g)) := by
            apply filter_rev_range_skip _ j n.head (by omega)
            intro h hh1 hh2
            by_cases hg0 : h = n.head
            · subst hg0
              rw [hmax, hnid]
              simp [decide_eq_false (by omega : ¬(j + 1 ≤ j))]
            · have hf := no_open_between_l2r hP hres h (by omega) hh2
              cases hR : hasRdep P h with
              | false => simp
              | true =>
                  rw [hR] at hf
                  simp only [Bool.true_and] at hf ⊢
                  have h5 : ¬(j ≤ maxRdep P h) := of_decide_eq_false hf
                  exact decide_eq_false (by omega)
          have hagree2 : ∀ g ∈ (List.range n.head).reverse,
              (hasRdep P g && decide (j + 1 ≤ maxRdep P g))
                = (hasRdep P g && decide (j ≤ maxRdep P g)) := by
            intro g hg
            have hglt : g < n.head := List.mem_range.mp (List.mem_reverse.mp hg)
            cases hR : hasRdep P g with
            | false => simp
            | true =>
                simp only [Bool.true_and]
                by_cases hmx : maxRdep P g = j
                · obtain ⟨m, hmP, hml, hmh, hmid⟩ := maxRdep_attained hR
                    (fun m hm => (hP.2.2.2 m hm).1)
                  have heq := id_inj_of_pairwise hasc hmP hnP (by omega)
                  rw [heq] at hmh
                  omega
                · exact decide_eq_decide.mpr (by omega)
          have htop := stackL2R_top hP hres
          unfold stackL2R at htop
          rw [hskip, List.filter_congr hagree2, htop]
          cases hA : hasRdep P j <;> simp

/-- One r2l row turns the stack invariant at `j + 1` into the invariant at
`j`. -/
theorem stackR2L_update {t : DepTree} {P : List DNode} (hP : planeOK t P)
    {N : Nat} (hN : ∀ m ∈ P, m.head < N) (j : Nat) (hjN : j + 1 < N) :
    stackR2L P N j = rowStackOut P .r2l (j + 1) (j + 1) (stackR2L P N (j + 1)) := by
  have hasc := hP.2.1
  unfold stackR2L
  rw [show N - (j + 1) = (N - (j + 2)) + 1 by omega, List.range'_succ, List.filter_cons]
  have hfj : (hasLdep P (j + 1) && decide (minLdep P (j + 1) ≤ j))
      = hasLdep P (j + 1) := by
    cases hR : hasLdep P (j + 1) with
    | true =>
        have h2 := minLdep_lt hP hR
        simp [decide_eq_true (by omega : minLdep P (j + 1) ≤ j)]
    | false => simp
  rw [hfj]
  unfold rowStackOut rowAppB
  cases hres : resNode P .r2l (j + 1) with
  | none =>
      have hstar : rowStarB P .r2l (j + 1) = false := by
        unfold rowStarB
        rw [hres]
      rw [hstar]
      simp only [Bool.false_eq_true, if_false]
      have hagree : ∀ g ∈ List.range' (j + 2) (N - (j + 2)),
          (hasLdep P g && decide (minLdep P g ≤ j))
            = (hasLdep P g && decide (minLdep P g ≤ j + 1)) := by
        intro g hg
        cases hR : hasLdep P g with
        | false => simp
        | true =>
            simp only [Bool.true_and]
            by_cases hmx : minLdep P g = j + 1
            · obtain ⟨m, hmP, hml, hmh, hmid⟩ := minLdep_attained hR (by
                intro m hm hml2 hmh2
                have h3 : m.id < m.head := by
                  simpa [DNode.is_left_arc] using hml2
                omega)
              exact (resNode_r2l_none hasc hres m hmP (by omega) hml).elim
            · exact decide_eq_decide.mpr (by omega)
      rw [List.filter_congr hagree]
      rw [show N - (j + 1 + 1) = N - (j + 2) from rfl]
      cases hA : hasLdep P (j + 1) <;> simp
  | some n =>
      obtain ⟨hnP, hnid, hnl⟩ := resNode_r2l_spec hres
      have hstarb : rowStarB P .r2l (j + 1) = is_leftmost P n := by
        unfold rowStarB
        rw [hres]
      cases hstar : is_leftmost P n with
      | false =>
          rw [hstarb, hstar]
          simp only [Bool.false_eq_true, if_false]
          have hminne : minLdep P n.head ≠ j + 1 := by
            intro hcon
            have h2 := (is_leftmost_iff_min hnP hnl).mpr (by omega)
            rw [hstar] at h2
            cases h2
          have hagree : ∀ g ∈ List.range' (j + 2) (N - (j + 2)),
              (hasLdep P g && decide (minLdep P g ≤ j))
                = (hasLdep P g && decide (minLdep P g ≤ j + 1)) := by
            intro g hg
            cases hR : hasLdep P g with
            | false => simp
            | true =>
                simp only [Bool.true_and]
                by_cases hmx : minLdep P g = j + 1
                · obtain ⟨m, hmP, hml, hmh, hmid⟩ := minLdep_attained hR (by
                    intro m hm hml2 hmh2
                    have h3 : m.id < m.head := by
                      simpa [DNode.is_left_arc] using hml2
                    omega)
                  have heq := id_inj_of_pairwise hasc hmP hnP (by omega)
                  rw [heq] at hmh
                  exact absurd (by rw [hmh]; exact hmx) hminne
                · exact decide_eq_decide.mpr (by omega)
          rw [List.filter_congr hagree]
          rw [show N - (j + 1 + 1) = N - (j + 2) from rfl]
          cases hA : hasLdep P (j + 1) <;> simp
      | true =>
          rw [hstarb, hstar]
          simp only [if_true]
          have hmin : minLdep P n.head = n.id := (is_leftmost_iff_min hnP hnl).mp hstar
          have hnh : n.id < n.head := by
            simpa [DNode.is_left_arc] using hnl
          have hhN : n.head < N := hN n hnP
          have hskip : (List.range' (j + 2) (N - (j + 2))).filter
              (fun g => hasLdep P g && decide (minLdep P g ≤ j))
              = (List.range' (n.head + 1) (N - (n.head + 1))).filter
                (fun g => hasLdep P g && decide (minLdep P g ≤ j)) := by
            rw [filter_range'_skip _ (N - (j + 2)) (j + 2) (n.head + 1) (by omega)
              (by omega) ?_]
            · rw [show j + 2 + (N - (j + 2)) - (n.head + 1) = N - (n.head + 1) by omega]
            · intro h hh1 hh2
              by_cases hg0 : h = n.head
              · subst hg0
                rw [hmin, hnid]
                simp [decide_eq_false (by omega : ¬(j + 1 ≤ j))]
              · have hf := no_open_between_r2l hP hres h (by omega) (by omega)
                cases hR : hasLdep P h with
                | false => simp
                | true =>
                    rw [hR] at hf
                    simp only [Bool.true_and] at hf ⊢
                    have h5 : ¬(minLdep P h ≤ j + 1) := of_decide_eq_false hf
                    exact decide_eq_false (by omega)
          have hagree2 : ∀ g ∈ List.range' (n.head + 1) (N - (n.head + 1)),
              (hasLdep P g && decide (minLdep P g ≤ j))
                = (hasLdep P g && decide (minLdep P g ≤ j + 1)) := by
            intro g hg
            have hggt : n.head < g := by
              obtain ⟨i, hi, hgi⟩ := List.mem_range'.mp hg
              omega
            cases hR : hasLdep P g with
            | false => simp
            | true =>
                simp only [Bool.true_and]
                by_cases hmx : minLdep P g = j + 1
                · obtain ⟨m, hmP, hml, hmh, hmid⟩ := minLdep_attained hR (by
                    intro m hm hml2 hmh2
                    have h3 : m.id < m.head := by
                      simpa [DNode.is_left_arc] using hml2
                    omega)
                  have heq := id_inj_of_pairwise hasc hmP hnP (by omega)
                  rw [heq] at hmh
                  omega
                · exact decide_eq_decide.mpr (by omega)
          have htop := stackR2L_top hP hres hN
          unfold stackR2L at htop
          rw [hskip, List.filter_congr hagree2, htop]
          cases hA : hasLdep P (j + 1) <;> simp

/-- Tokens of the other plane never carry this plane's digit. -/
theorem foreign_plane {q p : Char} (hq : q = '0' ∨ q = '1') (hne : q ≠ p)
    (Q : List DNode) (i : Nat) :
    ∀ tok ∈ planeToks Q q i, isBrkTok tok = true ∧ ∀ c, tok.take 2 ≠ [c, p] := by
  intro tok htok
  refine ⟨planeToksAux_brkTok hq Q Q i tok htok, ?_⟩
  obtain ⟨c2, hc2⟩ := planeToksAux_take2 Q Q q i tok htok
  intro c hcon
  rw [hc2] at hcon
  simp only [List.cons.injEq, and_true] at hcon
  exact hne hcon.2

/-- The write of one l2r row of an encoded tree. -/
theorem rowWrite_effect_l2r {t : DepTree}
    {p : Char} {P Q : List DNode}
    (hcfg : (p = '0' ∧ P = (two_planar_greedy t).1 ∧ Q = (two_planar_greedy t).2) ∨
            (p = '1' ∧ P = (two_planar_greedy t).2 ∧ Q = (two_planar_greedy t).1))
    (i cur : Nat) (w u r : String) (fs : List String) (st : List Nat)
    (hne : rowStarB P .l2r i = true → st ≠ []) :
    rowWrite p .l2r cur ⟨w, u, fs, ⟨(slotToks t i).flatten, r⟩⟩ st
      = .ok (rowStackOut P .l2r i cur st,
          ⟨w, u, r, rowHeadOut P .l2r i st none⟩) := by
  unfold rowWrite
  dsimp only
  rw [rowBrks_slot_l2r t p i, except_bind_ok]
  rcases hcfg with ⟨rfl, rfl, rfl⟩ | ⟨rfl, rfl, rfl⟩
  · rw [show slotToks t i = [] ++ (planeToks (two_planar_greedy t).1 '0' i
        ++ planeToks (two_planar_greedy t).2 '1' i) from by rw [List.nil_append]; rfl]
    rw [show s_append_brk '0' .l2r = ['/', '0'] from rfl,
      show s_peek_brk '0' .l2r = ['>', '0'] from rfl]
    rw [tokenWrite_parts_l2r (Or.inl rfl) _ i cur [] _ (by simp)
      (foreign_plane (Or.inr rfl) (by decide) _ i) st none hne]
    rfl
  · rw [show slotToks t i = planeToks (two_planar_greedy t).1 '0' i
        ++ (planeToks (two_planar_greedy t).2 '1' i ++ []) from by
          rw [List.append_nil]; rfl]
    rw [show s_append_brk '1' .l2r = ['/', '1'] from rfl,
      show s_peek_brk '1' .l2r = ['>', '1'] from rfl]
    rw [tokenWrite_parts_l2r (Or.inr rfl) _ i cur _ []
      (foreign_plane (Or.inl rfl) (by decide) _ i) (by simp) st none hne]
    rfl

/-- The write of one r2l row of an encoded tree. -/
theorem rowWrite_effect_r2l {t : DepTree}
    {p : Char} {P Q : List DNode}
    (hcfg : (p = '0' ∧ P = (two_planar_greedy t).1 ∧ Q = (two_planar_greedy t).2) ∨
            (p = '1' ∧ P = (two_planar_greedy t).2 ∧ Q = (two_planar_greedy t).1))
    (i cur : Nat) (w u r : String) (fs : List String) (st : List Nat)
    (hne : rowStarB P .r2l i = true → st ≠ []) :
    rowWrite p .r2l cur ⟨w, u, fs, ⟨(slotToks t i).flatten, r⟩⟩ st
      = .ok (rowStackOut P .r2l i cur st,
          ⟨w, u, r, rowHeadOut P .r2l i st none⟩) := by
  unfold rowWrite
  dsimp only
  rw [rowBrks_slot_r2l t p i, except_bind_ok]
  rcases hcfg with ⟨rfl, rfl, rfl⟩ | ⟨rfl, rfl, rfl⟩
  · rw [show slotToks t i = [] ++ (planeToks (two_planar_greedy t).1 '0' i
        ++ planeToks (two_planar_greedy t).2 '1' i) from by rw [List.nil_append]; rfl]
    rw [show s_append_brk '0' .r2l = ['\\', '0'] from rfl,
      show s_peek_brk '0' .r2l = ['<', '0'] from rfl]
    rw [tokenWrite_parts_r2l (Or.inl rfl) _ i cur [] _ (by simp)
      (foreign_plane (Or.inr rfl) (by decide) _ i) st none hne]
    rfl
  · rw [show slotToks t i = planeToks (two_planar_greedy t).1 '0' i
        ++ (planeToks (two_planar_greedy t).2 '1' i ++ []) from by
          rw [List.append_nil]; rfl]
    rw [show s_append_brk '1' .r2l = ['\\', '1'] from rfl,
      show s_peek_brk '1' .r2l = ['<', '1'] from rfl]
    rw [tokenWrite_parts_r2l (Or.inr rfl) _ i cur _ []
      (foreign_plane (Or.inl rfl) (by decide) _ i) (by simp) st none hne]
    rfl

/-- Expanding a dropped enumeration at an in-range index. -/
theorem enum_drop_cons {α : Type} (l : List α) (j : Nat) (hj : j < l.length) :
    l.enum.drop j = (j, l[j]) :: l.enum.drop (j + 1) := by
  have hjE : j < l.enum.length := by simpa using hj
  rw [List.drop_eq_getElem_cons hjE]
  congr 1
  exact List.getElem_enum l j hjE

/-- Expanding a dropped reversed enumeration at an in-range index. -/
theorem enum_rev_drop_cons {α : Type} (l : List α) (j : Nat) (hj : j < l.length) :
    l.enum.reverse.drop (l.length - 1 - j)
      = (j, l[j]) :: l.enum.reverse.drop (l.length - j) := by
  have hlen : l.enum.reverse.length = l.length := by simp
  have hd : l.length - 1 - j < l.enum.reverse.length := by omega
  rw [List.drop_eq_getElem_cons hd]
  have hidx : l.enum.length - 1 - (l.length - 1 - j) = j := by
    simp only [List.enum_length]
    omega
  congr 1
  · rw [List.getElem_reverse]
    apply Option.some.inj
    rw [← List.getElem?_eq_getElem, hidx,
      List.getElem?_eq_getElem (show j < l.enum.length by simpa using hj)]
    rw [List.getElem_enum]
  · congr 1
    omega

/-- The l2r pass machine: from any row on, the pass writes exactly the
expected heads, fed by the stack invariant. -/
theorem machine_l2r {t : DepTree} (hwf : WF t) {p : Char} {P Q : List DNode}
    (hcfg : (p = '0' ∧ P = (two_planar_greedy t).1 ∧ Q = (two_planar_greedy t).2) ∨
            (p = '1' ∧ P = (two_planar_greedy t).2 ∧ Q = (two_planar_greedy t).1))
    (hP : planeOK t P) :
    ∀ (fuel j : Nat), fuel = t.length - j →
      passWrites p .l2r ((encode t).rows.enum.drop j) (stackL2R P j)
        = .ok (((encode t).rows.enum.drop j).map (fun x =>
            (x.1, ⟨x.2.word, x.2.postag, x.2.label.li,
              match resNode P .l2r x.1 with
              | some n => some n.head
              | none => none⟩))) := by
  intro fuel
  induction fuel with
  | zero =>
      intro j hj
      have hdrop : (encode t).rows.enum.drop j = [] := by
        apply List.drop_eq_nil_of_le
        have h2 := (encode_rows hwf).1
        simp only [List.enum_length]
        omega
      rw [hdrop]
      rfl
  | succ f ih =>
      intro j hj
      have hjN : j < t.length := by omega
      have hjR : j < (encode t).rows.length := by
        rw [(encode_rows hwf).1]
        exact hjN
      rw [enum_drop_cons _ j hjR]
      have hrow : (encode t).rows[j] = ⟨t[j].word, t[j].upos, t[j].feats,
          ⟨(slotToks t j).flatten, t[j].relation⟩⟩ := by
        have h2 := (encode_rows hwf).2 j hjN
        rw [List.getD_eq_getElem?_getD, List.getElem?_eq_getElem hjR] at h2
        simpa using h2
      simp only [passWrites, List.map_cons]
      rw [hrow]
      have hne : rowStarB P .l2r j = true → stackL2R P j ≠ [] := by
        intro hstar
        unfold rowStarB at hstar
        cases hres : resNode P .l2r j with
        | none => rw [hres] at hstar; cases hstar
        | some n =>
            rw [stackL2R_top hP hres]
            simp
      rw [rowWrite_effect_l2r hcfg j j _ _ _ _ _ hne, except_bind_ok]
      rw [← stackL2R_update hP j]
      rw [ih (j + 1) (by omega), except_bind_ok]
      have hhead : rowHeadOut P .l2r j (stackL2R P j) none
          = (match resNode P .l2r j with
             | some n => some n.head
             | none => none) := by
        unfold rowHeadOut
        cases hres : resNode P .l2r j with
        | none => rfl
        | some n =>
            rw [stackL2R_top hP hres]
            rfl
      rw [hhead]
      rfl

/-- The r2l pass machine. -/
theorem machine_r2l {t : DepTree} (hwf : WF t) {p : Char} {P Q : List DNode}
    (hcfg : (p = '0' ∧ P = (two_planar_greedy t).1 ∧ Q = (two_planar_greedy t).2) ∨
            (p = '1' ∧ P = (two_planar_greedy t).2 ∧ Q = (two_planar_greedy t).1))
    (hP : planeOK t P) :
    ∀ (fuel j : Nat), fuel = j + 1 → j < t.length →
      passWrites p .r2l ((encode t).rows.enum.reverse.drop (t.length - 1 - j))
          (stackR2L P t.length j)
        = .ok ((((encode t).rows.enum.reverse.drop (t.length - 1 - j))).map (fun x =>
            (x.1, ⟨x.2.word, x.2.postag, x.2.label.li,
              match resNode P .r2l x.1 with
              | some n => some n.head
              | none => none⟩))) := by
  have hN : ∀ m ∈ P, m.head < t.length := fun m hm => (hP.2.2.2 m hm).2.2.1
  intro fuel
  induction fuel with
  | zero => intro j hj; omega
  | succ f ih =>
      intro j hj hjN
      have hjR : j < (encode t).rows.length := by
        rw [(encode_rows hwf).1]
        exact hjN
      have hRlen : (encode t).rows.length = t.length := (encode_rows hwf).1
      rw [show t.length - 1 - j = (encode t).rows.length - 1 - j by omega,
        enum_rev_drop_cons _ j hjR,
        show (encode t).rows.length - j = t.length - j by omega]
      have hrow : (encode t).rows[j] = ⟨t[j].word, t[j].upos, t[j].feats,
          ⟨(slotToks t j).flatten, t[j].relation⟩⟩ := by
        have h2 := (encode_rows hwf).2 j hjN
        rw [List.getD_eq_getElem?_getD, List.getElem?_eq_getElem hjR] at h2
        simpa using h2
      simp only [passWrites, List.map_cons]
      rw [hrow]
      have hne : rowStarB P .r2l j = true → stackR2L P t.length j ≠ [] := by
        intro hstar
        unfold rowStarB at hstar
        cases hres : resNode P .r2l j with
        | none => rw [hres] at hstar; cases hstar
        | some n =>
            rw [stackR2L_top hP hres hN]
            simp
      rw [rowWrite_effect_r2l hcfg j j _ _ _ _ _ hne, except_bind_ok]
      have hhead : rowHeadOut P .r2l j (stackR2L P t.length j) none
          = (match resNode P .r2l j with
             | some n => some n.head
             | none => none) := by
        unfold rowHeadOut
        cases hres : resNode P .r2l j with
        | none => rfl
        | some n =>
            rw [stackR2L_top hP hres hN]
            rfl
      cases j with
      | zero =>
          have hdone : (encode t).rows.enum.reverse.drop (t.length - 0) = [] := by
            apply List.drop_eq_nil_of_le
            simp only [List.length_reverse, List.enum_length]
            omega
          rw [hdone]
          simp only [passWrites]
          rw [except_bind_ok, hhead]
          rfl
      | succ j2 =>
          rw [show t.length - (j2 + 1) = t.length - 1 - j2 by omega]
          rw [← stackR2L_update hP hN j2 (by omega)]
          rw [ih j2 (by omega) (by omega), except_bind_ok, hhead]
          rfl

/-- Full l2r pass log of an encoded tree. -/
theorem passLog_l2r {t : DepTree} (hwf : WF t) {p : Char} {P Q : List DNode}
    (hcfg : (p = '0' ∧ P = (two_planar_greedy t).1 ∧ Q = (two_planar_greedy t).2) ∨
            (p = '1' ∧ P = (two_planar_greedy t).2 ∧ Q = (two_planar_greedy t).1))
    (hP : planeOK t P) :
    passLog (encode t) (p, .l2r)
      = .ok (((encode t).rows.enum).map (fun x =>
          (x.1, ⟨x.2.word, x.2.postag, x.2.label.li,
            match resNode P .l2r x.1 with
            | some n => some n.head
            | none => none⟩))) := by
  unfold passLog passRows
  have h := machine_l2r hwf hcfg hP (t.length - 0) 0 rfl
  rw [List.drop_zero] at h
  rw [show stackL2R P 0 = [] from rfl] at h
  exact h

/-- Full r2l pass log of an encoded tree. -/
theorem passLog_r2l {t : DepTree} (hwf : WF t) (hne : 0 < t.length)
    {p : Char} {P Q : List DNode}
    (hcfg : (p = '0' ∧ P = (two_planar_greedy t).1 ∧ Q = (two_planar_greedy t).2) ∨
            (p = '1' ∧ P = (two_planar_greedy t).2 ∧ Q = (two_planar_greedy t).1))
    (hP : planeOK t P) :
    passLog (encode t) (p, .r2l)
      = .ok (((encode t).rows.enum.reverse).map (fun x =>
          (x.1, ⟨x.2.word, x.2.postag, x.2.label.li,
            match resNode P .r2l x.1 with
            | some n => some n.head
            | none => none⟩))) := by
  unfold passLog passRows
  have h := machine_r2l hwf hcfg hP (t.length - 1 + 1) (t.length - 1) rfl (by omega)
  rw [show t.length - 1 - (t.length - 1) = 0 by omega, List.drop_zero] at h
  rw [show stackR2L P t.length (t.length - 1) = [] from ?_] at h
  · exact h
  · unfold stackR2L
    rw [show t.length - (t.length - 1 + 1) = 0 by omega]
    rfl

/-- Applying a write log rewrites the three text columns by plain folds. -/
theorem applyWrites_fields :
    ∀ (ws : List (Nat × RowWrite)) (t : DTree),
      (applyWrites ws t).words = ws.foldl (fun l x => l.set x.1 x.2.w) t.words ∧
      (applyWrites ws t).postags = ws.foldl (fun l x => l.set x.1 x.2.pt) t.postags ∧
      (applyWrites ws t).rels = ws.foldl (fun l x => l.set x.1 x.2.r) t.rels := by
  intro ws
  induction ws with
  | nil => intro t; exact ⟨rfl, rfl, rfl⟩
  | cons x ws ih =>
      intro t
      simp only [applyWrites, List.foldl_cons]
      rw [show (List.foldl (fun t x => applyRowWrite t x.1 x.2)
          (applyRowWrite t x.1 x.2) ws) = applyWrites ws (applyRowWrite t x.1 x.2)
        from rfl]
      obtain ⟨hw, hp2, hr⟩ := ih (applyRowWrite t x.1 x.2)
      refine ⟨?_, ?_, ?_⟩
      · rw [hw]
        congr 1
        cases hx : x.2.h with
        | none =>
            simp [applyRowWrite, hx, DTree.update_word, DTree.update_upos,
              DTree.update_relation]
        | some v =>
            simp [applyRowWrite, hx, DTree.update_word, DTree.update_upos,
              DTree.update_relation, DTree.update_head]
      · rw [hp2]
        congr 1
        cases hx : x.2.h with
        | none =>
            simp [applyRowWrite, hx, DTree.update_word, DTree.update_upos,
              DTree.update_relation]
        | some v =>
            simp [applyRowWrite, hx, DTree.update_word, DTree.update_upos,
              DTree.update_relation, DTree.update_head]
      · rw [hr]
        congr 1
        cases hx : x.2.h with
        | none =>
            simp [applyRowWrite, hx, DTree.update_word, DTree.update_upos,
              DTree.update_relation]
        | some v =>
            simp [applyRowWrite, hx, DTree.update_word, DTree.update_upos,
              DTree.update_relation, DTree.update_head]

/-- A keyed fold of sets away from an index reads through. -/
theorem foldl_set_getD_ne {α β : Type} (key : β → Nat) (g : β → α) (d : α) :
    ∀ (ws : List β) (l : List α) (i : Nat),
      (∀ x ∈ ws, key x ≠ i) →
      (ws.foldl (fun l x => l.set (key x) (g x)) l).getD i d = l.getD i d := by
  intro ws
  induction ws with
  | nil => intro l i _; rfl
  | cons x ws ih =>
      intro l i hall
      rw [List.foldl_cons, ih _ i (fun y hy => hall y (List.mem_cons_of_mem _ hy)),
        getD_set_ne _ _ _ (hall x (List.mem_cons_self _ _))]

/-- A keyed fold of sets reads the written value at a covered index. -/
theorem foldl_set_getD {α β : Type} (key : β → Nat) (g : β → α) (d : α) :
    ∀ (ws : List β) (l : List α) {i : Nat} {v : α},
      i < l.length → (∃ x ∈ ws, key x = i ∧ g x = v) →
      (∀ x ∈ ws, key x = i → g x = v) →
      (ws.foldl (fun l x => l.set (key x) (g x)) l).getD i d = v := by
  intro ws
  induction ws with
  | nil => intro l i v _ hmem; obtain ⟨z, hz, -⟩ := hmem; cases hz
  | cons x ws ih =>
      intro l i v hlen hmem huni
      rw [List.foldl_cons]
      by_cases htail : ∃ u ∈ ws, key u = i
      · obtain ⟨u, hu, hui⟩ := htail
        exact ih _ (by rw [List.length_set]; exact hlen)
          ⟨u, hu, hui, huni u (List.mem_cons_of_mem _ hu) hui⟩
          (fun y hy => huni y (List.mem_cons_of_mem _ hy))
      · obtain ⟨z, hz, hzi, hzv⟩ := hmem
        have hx : key x = i ∧ g x = v := by
          rcases List.mem_cons.mp hz with h | h
          · subst h; exact ⟨hzi, hzv⟩
          · exact absurd ⟨z, h, hzi⟩ htail
        rw [foldl_set_getD_ne key g d ws _ i (fun y hy hyi => htail ⟨y, hy, hyi⟩),
          hx.1, hx.2]
        exact getD_set_self _ _ _ _ hlen

/-- `headsFold` away from an index reads through. -/
theorem headsFold_getD_ne :
    ∀ (ws : List (Nat × RowWrite)) (l : List (Option Nat)) (i : Nat),
      (∀ x ∈ ws, x.1 = i → x.2.h = none) →
      (headsFold ws l).getD i none = l.getD i none := by
  intro ws
  induction ws with
  | nil => intro l i _; rfl
  | cons x ws ih =>
      intro l i hall
      simp only [headsFold, List.foldl_cons]
      rw [show List.foldl _ _ ws = headsFold ws _ from rfl]
      cases hx : x.2.h with
      | none =>
          exact ih l i (fun y hy => hall y (List.mem_cons_of_mem _ hy))
      | some v =>
          rw [ih _ i (fun y hy => hall y (List.mem_cons_of_mem _ hy))]
          apply getD_set_ne
          intro hcon
          have h2 := hall x (List.mem_cons_self _ _) hcon
          rw [hx] at h2
          cases h2

/-- `headsFold` length. -/
theorem headsFold_length :
    ∀ (ws : List (Nat × RowWrite)) (l : List (Option Nat)),
      (headsFold ws l).length = l.length := by
  intro ws
  induction ws with
  | nil => intro l; rfl
  | cons x ws ih =>
      intro l
      simp only [headsFold, List.foldl_cons]
      rw [show List.foldl _ _ ws = headsFold ws _ from rfl]
      cases hx : x.2.h with
      | none => exact ih l
      | some v => rw [ih, List.length_set]

/-- `headsFold` reads the written head at a covered index. -/
theorem headsFold_getD_some :
    ∀ (ws : List (Nat × RowWrite)) (l : List (Option Nat)) {i v : Nat},
      i < l.length →
      (∃ rw, (i, rw) ∈ ws ∧ (rw : RowWrite).h = some v) →
      (∀ x ∈ ws, x.1 = i → x.2.h = some v) →
      (headsFold ws l).getD i none = some v := by
  intro ws
  induction ws with
  | nil => intro l i v _ hmem; obtain ⟨rw2, h2, -⟩ := hmem; cases h2
  | cons x ws ih =>
      intro l i v hlen hmem huni
      simp only [headsFold, List.foldl_cons]
      rw [show List.foldl _ _ ws = headsFold ws _ from rfl]
      by_cases htail : ∃ u, (i, u) ∈ ws ∧ (u : RowWrite).h = some v
      · cases hx : x.2.h with
        | none =>
            exact ih l hlen htail (fun y hy => huni y (List.mem_cons_of_mem _ hy))
        | some u =>
            exact ih _ (by rw [List.length_set]; exact hlen) htail
              (fun y hy => huni y (List.mem_cons_of_mem _ hy))
      · obtain ⟨rw2, hrw2, hrwh⟩ := hmem
        have hx2 : x = (i, rw2) := by
          rcases List.mem_cons.mp hrw2 with h | h
          · exact h.symm
          · exact absurd ⟨rw2, h, hrwh⟩ htail
        subst hx2
        rw [hrwh]
        rw [headsFold_getD_ne ws _ i ?_]
        · exact getD_set_self _ _ _ _ hlen
        · intro y hy hcon
          by_contra hnone
          have h5 := huni y (List.mem_cons_of_mem _ hy) hcon
          exact htail ⟨y.2, by rw [← hcon]; exact hy, h5⟩

/-- The head component every entry of a pass log carries. -/
theorem log_h_of_mem {P : List DNode} {dir : Dir} {base : List (Nat × LinRow)} :
    ∀ x ∈ base.map (fun y => ((y.1 : Nat), (⟨y.2.word, y.2.postag, y.2.label.li,
        match resNode P dir y.1 with
        | some n => some n.head
        | none => none⟩ : RowWrite))),
      x.2.h = (match resNode P dir x.1 with
        | some n => some n.head
        | none => none) := by
  intro x hx
  obtain ⟨y, hy, rfl⟩ := List.mem_map.mp hx
  rfl

/-- A keyed fold of sets preserves the list length. -/
theorem foldl_set_length {α β : Type} (key : β → Nat) (g : β → α) :
    ∀ (ws : List β) (l : List α),
      (ws.foldl (fun l x => l.set (key x) (g x)) l).length = l.length := by
  intro ws
  induction ws with
  | nil => intro l; rfl
  | cons x ws ih => intro l; rw [List.foldl_cons, ih, List.length_set]

/-- The words column of an applied write log as a plain fold. -/
theorem applyWrites_words (ws : List (Nat × RowWrite)) (t : DTree) :
    (applyWrites ws t).words = ws.foldl (fun l x => l.set x.1 x.2.w) t.words :=
  (applyWrites_fields ws t).1

/-- The postags column of an applied write log as a plain fold. -/
theorem applyWrites_postags (ws : List (Nat × RowWrite)) (t : DTree) :
    (applyWrites ws t).postags = ws.foldl (fun l x => l.set x.1 x.2.pt) t.postags :=
  (applyWrites_fields ws t).2.1

/-- The rels column of an applied write log as a plain fold. -/
theorem applyWrites_rels (ws : List (Nat × RowWrite)) (t : DTree) :
    (applyWrites ws t).rels = ws.foldl (fun l x => l.set x.1 x.2.r) t.rels :=
  (applyWrites_fields ws t).2.2

/-- A plane without id `k` resolves nothing at `k` in either direction. -/
theorem resNode_none_of_find_none {P : List DNode} {k : Nat}
    (h : P.find? (fun m => m.id == k) = none) (dir : Dir) :
    resNode P dir k = none := by
  unfold resNode
  rw [h]

/-- A plane finding node `n` at `k` resolves it in the direction of its arc. -/
theorem resNode_of_find_some {P : List DNode} {k : Nat} {n : DNode}
    (h : P.find? (fun m => m.id == k) = some n) :
    resNode P Dir.l2r k = (if n.is_left_arc then none else some n) ∧
    resNode P Dir.r2l k = (if n.is_left_arc then some n else none) := by
  unfold resNode
  rw [h]
  exact ⟨rfl, rfl⟩

/-- Every entry of `enum` is the element the list holds at its index. -/
theorem mem_enum_spec {α : Type} {l : List α} (d : α) :
    ∀ x ∈ l.enum, x.1 < l.length ∧ x.2 = l.getD x.1 d := by
  intro x hx
  obtain ⟨j, hj, hjx⟩ := List.mem_iff_getElem.mp hx
  have hj2 : j < l.length := by
    rw [List.enum_length] at hj
    exact hj
  rw [List.getElem_enum] at hjx
  subst hjx
  refine ⟨hj2, ?_⟩
  rw [List.getD_eq_getElem?_getD, List.getElem?_eq_getElem hj2]
  rfl

/-- `enum` holds each in-range index with the list's element there. -/
theorem enum_mem_of_lt {α : Type} {l : List α} {i : Nat} (hi : i < l.length) (d : α) :
    (i, l.getD i d) ∈ l.enum := by
  have he : i < l.enum.length := by rw [List.enum_length]; exact hi
  have hmem : l.enum[i] ∈ l.enum := List.getElem_mem he
  rw [List.getElem_enum] at hmem
  have hgd : l.getD i d = l[i] := by
    rw [List.getD_eq_getElem?_getD, List.getElem?_eq_getElem hi]
    rfl
  rw [hgd]
  exact hmem

/-- A pass whose configuration does not resolve node `i` leaves its head. -/
theorem headsFold_log_skip {P : List DNode} {dir : Dir} {base : List (Nat × LinRow)}
    {l : List (Option Nat)} {i : Nat} (hres : resNode P dir i = none) :
    (headsFold (base.map (fun x => (x.1, ⟨x.2.word, x.2.postag, x.2.label.li,
        match resNode P dir x.1 with
        | some n => some n.head
        | none => none⟩))) l).getD i none = l.getD i none := by
  apply headsFold_getD_ne
  intro x hx hxi
  rw [log_h_of_mem x hx, hxi, hres]

/-- A pass whose configuration resolves node `i` writes its governor there. -/
theorem headsFold_log_write {P : List DNode} {dir : Dir} {base : List (Nat × LinRow)}
    {l : List (Option Nat)} {i : Nat} {n : DNode} (hres : resNode P dir i = some n)
    (hlen : i < l.length) (hmem : ∃ row, (i, row) ∈ base) :
    (headsFold (base.map (fun x => (x.1, ⟨x.2.word, x.2.postag, x.2.label.li,
        match resNode P dir x.1 with
        | some m => some m.head
        | none => none⟩))) l).getD i none = some n.head := by
  obtain ⟨row, hrow⟩ := hmem
  apply headsFold_getD_some _ _ hlen
  · refine ⟨⟨row.word, row.postag, row.label.li,
      match resNode P dir i with
      | some m => some m.head
      | none => none⟩, List.mem_map_of_mem _ hrow, ?_⟩
    show (match resNode P dir i with
      | some m => some m.head
      | none => none) = some n.head
    rw [hres]
  · intro x hx hxi
    rw [log_h_of_mem x hx, hxi, hres]

/-- The first decode pass (plane 0, l2r) on an encoded tree, as a write log. -/
theorem decode_step1 {t : DepTree} (hwf : WF t) (u : DTree) :
    decoding_step (encode t) u '0' Dir.l2r = Except.ok (applyWrites
      (((encode t).rows.enum).map (fun x =>
        (x.1, ⟨x.2.word, x.2.postag, x.2.label.li,
          match resNode (two_planar_greedy t).1 Dir.l2r x.1 with
          | some n => some n.head
          | none => none⟩))) u) := by
  have h := decoding_step_eq_passLog (encode t) u ('0', Dir.l2r)
  dsimp only at h
  rw [h, passLog_l2r hwf (Or.inl ⟨rfl, rfl, rfl⟩) (greedy_planeOK hwf).1]
  rfl

/-- The second decode pass (plane 0, r2l) on an encoded tree. -/
theorem decode_step2 {t : DepTree} (hwf : WF t) (hne : 0 < t.length) (u : DTree) :
    decoding_step (encode t) u '0' Dir.r2l = Except.ok (applyWrites
      (((encode t).rows.enum.reverse).map (fun x =>
        (x.1, ⟨x.2.word, x.2.postag, x.2.label.li,
          match resNode (two_planar_greedy t).1 Dir.r2l x.1 with
          | some n => some n.head
          | none => none⟩))) u) := by
  have h := decoding_step_eq_passLog (encode t) u ('0', Dir.r2l)
  dsimp only at h
  rw [h, passLog_r2l hwf hne (Or.inl ⟨rfl, rfl, rfl⟩) (greedy_planeOK hwf).1]
  rfl

/-- The third decode pass (plane 1, l2r) on an encoded tree. -/
theorem decode_step3 {t : DepTree} (hwf : WF t) (u : DTree) :
    decoding_step (encode t) u '1' Dir.l2r = Except.ok (applyWrites
      (((encode t).rows.enum).map (fun x =>
        (x.1, ⟨x.2.word, x.2.postag, x.2.label.li,
          match resNode (two_planar_greedy t).2 Dir.l2r x.1 with
          | some n => some n.head
          | none => none⟩))) u) := by
  have h := decoding_step_eq_passLog (encode t) u ('1', Dir.l2r)
  dsimp only at h
  rw [h, passLog_l2r hwf (Or.inr ⟨rfl, rfl, rfl⟩) (greedy_planeOK hwf).2]
  rfl

/-- The fourth decode pass (plane 1, r2l) on an encoded tree. -/
theorem decode_step4 {t : DepTree} (hwf : WF t) (hne : 0 < t.length) (u : DTree) :
    decoding_step (encode t) u '1' Dir.r2l = Except.ok (applyWrites
      (((encode t).rows.enum.reverse).map (fun x =>
        (x.1, ⟨x.2.word, x.2.postag, x.2.label.li,
          match resNode (two_planar_greedy t).2 Dir.r2l x.1 with
          | some n => some n.head
          | none => none⟩))) u) := by
  have h := decoding_step_eq_passLog (encode t) u ('1', Dir.r2l)
  dsimp only at h
  rw [h, passLog_r2l hwf hne (Or.inr ⟨rfl, rfl, rfl⟩) (greedy_planeOK hwf).2]
  rfl

/-- The words column of an applied write log keeps its length. -/
theorem applyWrites_words_length (ws : List (Nat × RowWrite)) (t : DTree) :
    (applyWrites ws t).words.length = t.words.length := by
  rw [applyWrites_words]
  exact foldl_set_length (fun x => x.1) (fun x => x.2.w) ws t.words

/-- The postags column of an applied write log keeps its length. -/
theorem applyWrites_postags_length (ws : List (Nat × RowWrite)) (t : DTree) :
    (applyWrites ws t).postags.length = t.postags.length := by
  rw [applyWrites_postags]
  exact foldl_set_length (fun x => x.1) (fun x => x.2.pt) ws t.postags

/-- The rels column of an applied write log keeps its length. -/
theorem applyWrites_rels_length (ws : List (Nat × RowWrite)) (t : DTree) :
    (applyWrites ws t).rels.length = t.rels.length := by
  rw [applyWrites_rels]
  exact foldl_set_length (fun x => x.1) (fun x => x.2.r) ws t.rels

/-- C1: decoding the encoding of a well-formed tree whose arcs the greedy
partitioner placed entirely on the two planes succeeds and reproduces the
word, tag and relation of every row and the head of every real node. -/
theorem C1_roundtrip (t : DepTree) (hwf : WF t) (hne : t ≠ [])
    (hun : greedy_unencodable t = []) :
    ∃ d, decode (encode t) = Except.ok d ∧
      (∀ i, (hi : i < t.length) →
        d.words.getD i "" = t[i].word ∧
        d.postags.getD i "" = t[i].upos ∧
        d.rels.getD i "" = t[i].relation) ∧
      (∀ i, 1 ≤ i → (hi : i < t.length) →
        d.heads.getD i none = some t[i].head) := by
  have hlen := (encode_rows hwf).1
  have hrow := (encode_rows hwf).2
  have hN0 : t.length ≠ 0 := fun h => hne (List.eq_nil_of_length_eq_zero h)
  have hempty : empty_tree (encode t).rows.length
      = Except.ok ⟨List.replicate t.length "", List.replicate t.length "",
          List.replicate t.length "", List.replicate t.length none⟩ := by
    rw [hlen]
    unfold empty_tree
    rw [if_neg hN0]
  refine ⟨_, by
    unfold decode
    rw [hempty]
    simp only [except_bind_ok]
    rw [decode_step1 hwf]
    simp only [except_bind_ok]
    rw [decode_step2 hwf (by omega)]
    simp only [except_bind_ok]
    rw [decode_step3 hwf]
    simp only [except_bind_ok]
    rw [decode_step4 hwf (by omega)]
    rfl, ?_, ?_⟩
  · intro i hi
    have hiN : i < (encode t).rows.length := by rw [hlen]; exact hi
    have hrowi := hrow i hi
    refine ⟨?_, ?_, ?_⟩
    · rw [applyWrites_words]
      refine foldl_set_getD (fun x : Nat × RowWrite => x.1)
        (fun x : Nat × RowWrite => x.2.w) "" _ _ ?_ ?_ ?_
      · rw [applyWrites_words_length, applyWrites_words_length,
          applyWrites_words_length]
        show i < (List.replicate t.length "").length
        rw [List.length_replicate]
        exact hi
      · refine ⟨_, List.mem_map_of_mem _
          (List.mem_reverse.mpr (enum_mem_of_lt hiN ⟨"", "", [], ⟨[], ""⟩⟩)), rfl, ?_⟩
        show ((encode t).rows.getD i ⟨"", "", [], ⟨[], ""⟩⟩).word = t[i].word
        rw [hrowi]
      · intro x hx hxi
        obtain ⟨z, hz, rfl⟩ := List.mem_map.mp hx
        obtain ⟨-, hz2⟩ := mem_enum_spec ⟨"", "", [], ⟨[], ""⟩⟩ z (List.mem_reverse.mp hz)
        dsimp only at hxi ⊢
        rw [hz2, hxi, hrowi]
    · rw [applyWrites_postags]
      refine foldl_set_getD (fun x : Nat × RowWrite => x.1)
        (fun x : Nat × RowWrite => x.2.pt) "" _ _ ?_ ?_ ?_
      · rw [applyWrites_postags_length, applyWrites_postags_length,
          applyWrites_postags_length]
        show i < (List.replicate t.length "").length
        rw [List.length_replicate]
        exact hi
      · refine ⟨_, List.mem_map_of_mem _
          (List.mem_reverse.mpr (enum_mem_of_lt hiN ⟨"", "", [], ⟨[], ""⟩⟩)), rfl, ?_⟩
        show ((encode t).rows.getD i ⟨"", "", [], ⟨[], ""⟩⟩).postag = t[i].upos
        rw [hrowi]
      · intro x hx hxi
        obtain ⟨z, hz, rfl⟩ := List.mem_map.mp hx
        obtain ⟨-, hz2⟩ := mem_enum_spec ⟨"", "", [], ⟨[], ""⟩⟩ z (List.mem_reverse.mp hz)
        dsimp only at hxi ⊢
        rw [hz2, hxi, hrowi]
    · rw [applyWrites_rels]
      refine foldl_set_getD (fun x : Nat × RowWrite => x.1)
        (fun x : Nat × RowWrite => x.2.r) "" _ _ ?_ ?_ ?_
      · rw [applyWrites_rels_length, applyWrites_rels_length,
          applyWrites_rels_length]
        show i < (List.replicate t.length "").length
        rw [List.length_replicate]
        exact hi
      · refine ⟨_, List.mem_map_of_mem _
          (List.mem_reverse.mpr (enum_mem_of_lt hiN ⟨"", "", [], ⟨[], ""⟩⟩)), rfl, ?_⟩
        show ((encode t).rows.getD i ⟨"", "", [], ⟨[], ""⟩⟩).label.li = t[i].relation
        rw [hrowi]
      · intro x hx hxi
        obtain ⟨z, hz, rfl⟩ := List.mem_map.mp hx
        obtain ⟨-, hz2⟩ := mem_enum_spec ⟨"", "", [], ⟨[], ""⟩⟩ z (List.mem_reverse.mp hz)
        dsimp only at hxi ⊢
        rw [hz2, hxi, hrowi]
  · intro i h1i hi
    have hiN : i < (encode t).rows.length := by rw [hlen]; exact hi
    have hi0 : i ≠ 0 := by omega
    have hmemF : ∃ row, (i, row) ∈ (encode t).rows.enum :=
      ⟨_, enum_mem_of_lt hiN ⟨"", "", [], ⟨[], ""⟩⟩⟩
    have hmemR : ∃ row, (i, row) ∈ (encode t).rows.enum.reverse :=
      ⟨_, List.mem_reverse.mpr (enum_mem_of_lt hiN ⟨"", "", [], ⟨[], ""⟩⟩)⟩
    have hlen0 : i < (List.replicate t.length (none : Option Nat)).length := by
      rw [List.length_replicate]; exact hi
    have hlen1 : ∀ a : List (Nat × RowWrite),
        i < (headsFold a (List.replicate t.length (none : Option Nat))).length := by
      intro a; rw [headsFold_length]; exact hlen0
    have hlen2 : ∀ a b : List (Nat × RowWrite),
        i < (headsFold a (headsFold b
          (List.replicate t.length (none : Option Nat)))).length := by
      intro a b; rw [headsFold_length]; exact hlen1 b
    have hlen3 : ∀ a b c : List (Nat × RowWrite),
        i < (headsFold a (headsFold b (headsFold c
          (List.replicate t.length (none : Option Nat))))).length := by
      intro a b c; rw [headsFold_length]; exact hlen2 b c
    rw [applyWrites_heads, applyWrites_heads, applyWrites_heads, applyWrites_heads]
    dsimp only
    rcases plane_id_split hwf hun hi hi0 with ⟨hc1, hc2⟩ | ⟨hc1, hc2⟩
    · have hf1 := plane_find_of_count1 hwf (greedy_planeOK hwf).1 hi hc1
      have hf2 := find?_eq_none_of_countP_zero hc2
      obtain ⟨hresA, hresB⟩ := resNode_of_find_some hf1
      rw [headsFold_log_skip (resNode_none_of_find_none hf2 Dir.r2l),
        headsFold_log_skip (resNode_none_of_find_none hf2 Dir.l2r)]
      by_cases hla : t[i].is_left_arc = true
      · rw [if_pos hla] at hresB
        rw [headsFold_log_write hresB (hlen1 _) hmemR]
      · rw [if_neg hla] at hresA hresB
        rw [headsFold_log_skip hresB,
          headsFold_log_write hresA hlen0 hmemF]
    · have hf2 := plane_find_of_count1 hwf (greedy_planeOK hwf).2 hi hc2
      have hf1 := find?_eq_none_of_countP_zero hc1
      obtain ⟨hresA, hresB⟩ := resNode_of_find_some hf2
      by_cases hla : t[i].is_left_arc = true
      · rw [if_pos hla] at hresB
        rw [headsFold_log_write hresB (hlen3 _ _ _) hmemR]
      · rw [if_neg hla] at hresA hresB
        rw [headsFold_log_skip hresB,
          headsFold_log_write hresA (hlen2 _ _) hmemF]

/-- Witness: C1 at the concrete three-word tree. -/
theorem C1_witness :
    ∃ d, decode (encode tree3) = Except.ok d ∧
      (∀ i, (hi : i < tree3.length) →
        d.words.getD i "" = tree3[i].word ∧
        d.postags.getD i "" = tree3[i].upos ∧
        d.rels.getD i "" = tree3[i].relation) ∧
      (∀ i, 1 ≤ i → (hi : i < tree3.length) →
        d.heads.getD i none = some tree3[i].head) :=
  C1_roundtrip tree3 ⟨by decide, by decide⟩ (by decide) (by decide)

end Brk7
